import Mathlib

/-! # One epoch of mini-batch softmax regression

A shallow embedding of `softmax_regression_epoch_cpp` from
`hw0/src/simple_ml_ext.cpp`, together with theorems about it.

Modelling conventions.

* The raw buffers `X`, `y`, `theta`, `Z`, `one_hot`, `grad` are lists; every
  read and write goes through `rd` / `wr`, which fail with `Fault.oob` when the
  index is not inside the buffer (undefined behaviour in the source).
* The integer division in the loop guard `(m + batch - 1) / batch` fails with
  `Fault.divByZero` when `batch = 0`.
* `float` is an arbitrary carrier `α` with `0`, `1`, `+`, `-`, `*`, `/`, a
  conversion from `size_t` and a function `exp`; the theorems that the
  specification states "in exact real arithmetic" instantiate `α` with `ℝ` and
  `exp` with `Real.exp`.
* The labels (`unsigned char`) are natural numbers.  `size_t` is the 64-bit unsigned type.
  Three `size_t` computations of the source are evaluated before any guard bounds them and
  can wrap modulo `2 ^ 64`: the allocation sizes `batch * k` and `n * k` (lines 35-37) and the
  sum `m + batch - 1` of the loop guard (line 39).  `numBatches64`, `epochLoop64` and
  `softmax_regression_epoch_cpp64` compute them modulo `2 ^ 64`, as the machine does.
  `numBatches`, `epochLoop` and `softmax_regression_epoch_cpp` compute them in the natural
  numbers; the two readings agree whenever the three values are below `2 ^ 64`
  (`epoch64_eq_of_no_wrap`).  Inside the loop every index is below a value that has already
  been computed without wrap (`t * batch + batch` is at most the guard's sum, cell indices
  are below the allocation sizes), so the loop body needs no reduction.
* A counting loop `for (i = lo; i < hi; i++)` whose bounds are loop invariant is
  `forLoop lo (hi - lo)`; it is defined by structural recursion on the trip
  count and is therefore total.
-/

namespace SimpleML

/-! ## Memory and control model -/

/-- Undefined behaviour of the source that the embedding makes explicit. -/
inductive Fault where
  | oob
  | divByZero
  deriving DecidableEq

/-- Checked read `buf[i]`. -/
def rd {β : Type} (buf : List β) (i : Nat) : Except Fault β :=
  match buf[i]? with
  | some v => .ok v
  | none => .error .oob

/-- Checked write `buf[i] = v`. -/
def wr {β : Type} (buf : List β) (i : Nat) (v : β) : Except Fault (List β) :=
  if i < buf.length then .ok (buf.set i v) else .error .oob

/-- Counting loop: runs `body lo`, `body (lo + 1)`, ..., `body (lo + cnt - 1)` in this order,
threading the state and stopping at the first fault. -/
def forLoop {σ : Type} (lo : Nat) : Nat → (Nat → σ → Except Fault σ) → σ → Except Fault σ
  | 0, _, s => .ok s
  | c + 1, body, s => forLoop lo c body s >>= body (lo + c)

/-- The four buffers that one epoch mutates. -/
structure Bufs (α : Type) where
  theta : List α
  Z : List α
  one_hot : List α
  grad : List α

section Program

variable {α : Type} [Zero α] [One α] [Add α] [Sub α] [Mul α] [Div α] [NatCast α]

/-! ## The batch schedule (source lines 39-42) -/

/-- Loop bound `(m + batch - 1) / batch` of the batch loop, computed in the natural numbers
(the value of line 39 when `m + batch - 1` does not wrap; `numBatches64` is the machine value). -/
def numBatches (m batch : Nat) : Nat := (m + batch - 1) / batch

/-- Value of `start_idx = t * batch`. -/
def start_idx (batch t : Nat) : Nat := t * batch

/-- Value of `end_idx = std::min(start_idx + batch, m)`. -/
def end_idx (m batch t : Nat) : Nat := min (start_idx batch t + batch) m

/-- Value of `current_size = end_idx - start_idx`. -/
def current_size (m batch t : Nat) : Nat := end_idx m batch t - start_idx batch t

/-! ## The phases of one batch iteration -/

/-- Body of the combined zeroing loop (source lines 48-56) for one `(i, j)`. -/
def zeroCell (n k batch i j : Nat) (s : Bufs α) : Except Fault (Bufs α) := do
  let s1 ← if i < batch then do
      let Z1 ← wr s.Z (i * k + j) 0
      let oh1 ← wr s.one_hot (i * k + j) 0
      pure (Bufs.mk s.theta Z1 oh1 s.grad)
    else pure s
  if i < n then do
    let g1 ← wr s1.grad (i * k + j) 0
    pure (Bufs.mk s1.theta s1.Z s1.one_hot g1)
  else pure s1

/-- Zeroing loop over `i < max(n, batch)`, `j < k` (source lines 44-58). -/
def zeroLoop (n k batch : Nat) (s : Bufs α) : Except Fault (Bufs α) :=
  forLoop 0 (max n batch - 0)
    (fun i s1 => forLoop 0 (k - 0) (fun j s2 => zeroCell n k batch i j s2) s1) s

/-- Statement `one_hot[(i - start_idx) * k + y[i]] = 1` (source line 61). -/
def oneHotCell (y : List Nat) (k start i : Nat) (one_hot : List α) : Except Fault (List α) := do
  let yi ← rd y i
  wr one_hot ((i - start) * k + yi) 1

/-- One-hot loop over `start_idx <= i < end_idx` (source lines 59-62). -/
def oneHotLoop (y : List Nat) (k start endI : Nat) (one_hot : List α) :
    Except Fault (List α) :=
  forLoop start (endI - start) (fun i oh => oneHotCell y k start i oh) one_hot

/-- Statement `Z[i * k + j] += X[(i + start_idx) * n + u] * theta[u * k + j]`. -/
def logitCell (X theta : List α) (n k start i j u : Nat) (Z : List α) :
    Except Fault (List α) := do
  let x ← rd X ((i + start) * n + u)
  let th ← rd theta (u * k + j)
  let z ← rd Z (i * k + j)
  wr Z (i * k + j) (z + x * th)

/-- Score loop (source lines 64-74). -/
def logitLoop (X theta : List α) (n k start cs : Nat) (Z : List α) : Except Fault (List α) :=
  forLoop 0 (cs - 0)
    (fun i Z1 => forLoop 0 (k - 0)
      (fun j Z2 => forLoop 0 (n - 0) (fun u Z3 => logitCell X theta n k start i j u Z3) Z2) Z1) Z

/-- Statement `sum += Z[i * k + j] = std::exp(Z[i * k + j])`; the state is `(Z, sum)`. -/
def expCell (exp : α → α) (k i j : Nat) (p : List α × α) : Except Fault (List α × α) := do
  let z ← rd p.1 (i * k + j)
  let Z1 ← wr p.1 (i * k + j) (exp z)
  pure (Z1, p.2 + exp z)

/-- Statement `Z[i * k + j] = Z[i * k + j] / sum - one_hot[i * k + j]`. -/
def normCell (one_hot : List α) (k i j : Nat) (sum : α) (Z : List α) :
    Except Fault (List α) := do
  let z ← rd Z (i * k + j)
  let oh ← rd one_hot (i * k + j)
  wr Z (i * k + j) (z / sum - oh)

/-- Body of the softmax loop for one row `i` (source lines 79-87). -/
def softmaxRow (exp : α → α) (one_hot : List α) (k i : Nat) (Z : List α) :
    Except Fault (List α) := do
  let p ← forLoop 0 (k - 0) (fun j q => expCell exp k i j q) (Z, (0 : α))
  forLoop 0 (k - 0) (fun j Z1 => normCell one_hot k i j p.2 Z1) p.1

/-- Softmax loop (source lines 77-88). -/
def softmaxLoop (exp : α → α) (one_hot : List α) (k cs : Nat) (Z : List α) :
    Except Fault (List α) :=
  forLoop 0 (cs - 0) (fun i Z1 => softmaxRow exp one_hot k i Z1) Z

/-- Statement `grad[i * k + j] += X[(u + start_idx) * n + i] * Z[u * k + j]`. -/
def gradCell (X Z : List α) (n k start i j u : Nat) (grad : List α) :
    Except Fault (List α) := do
  let g ← rd grad (i * k + j)
  let x ← rd X ((u + start) * n + i)
  let z ← rd Z (u * k + j)
  wr grad (i * k + j) (g + x * z)

/-- Gradient loop (source lines 91-96). -/
def gradLoop (X Z : List α) (n k start cs : Nat) (grad : List α) : Except Fault (List α) :=
  forLoop 0 (n - 0)
    (fun i g1 => forLoop 0 (k - 0)
      (fun j g2 => forLoop 0 (cs - 0) (fun u g3 => gradCell X Z n k start i j u g3) g2) g1) grad

/-- Statement `theta[i * k + j] -= grad[i * k + j] * lr / batch`. -/
def updateCell (grad : List α) (lr : α) (batch k i j : Nat) (theta : List α) :
    Except Fault (List α) := do
  let th ← rd theta (i * k + j)
  let g ← rd grad (i * k + j)
  wr theta (i * k + j) (th - g * lr / (batch : α))

/-- Update loop (source lines 98-102). -/
def updateLoop (grad : List α) (lr : α) (batch n k : Nat) (theta : List α) :
    Except Fault (List α) :=
  forLoop 0 (n - 0)
    (fun i th1 => forLoop 0 (k - 0) (fun j th2 => updateCell grad lr batch k i j th2) th1) theta

/-- Body of the batch loop for batch number `t` (source lines 41-102). -/
def batchBody (exp : α → α) (X : List α) (y : List Nat) (m n k : Nat) (lr : α) (batch : Nat)
    (t : Nat) (s : Bufs α) : Except Fault (Bufs α) := do
  let s0 ← zeroLoop n k batch s
  let oh ← oneHotLoop y k (start_idx batch t) (end_idx m batch t) s0.one_hot
  let Z1 ← logitLoop X s0.theta n k (start_idx batch t) (current_size m batch t) s0.Z
  let Z2 ← softmaxLoop exp oh k (current_size m batch t) Z1
  let g ← gradLoop X Z2 n k (start_idx batch t) (current_size m batch t) s0.grad
  let th ← updateLoop g lr batch n k s0.theta
  pure (Bufs.mk th Z2 oh g)

/-- The epoch on explicit buffers: the batch loop of source lines 39-103, with the guard
computed in the natural numbers (`epochLoop64` has the machine guard). -/
def epochLoop (exp : α → α) (X : List α) (y : List Nat) (m n k : Nat) (lr : α) (batch : Nat)
    (s : Bufs α) : Except Fault (Bufs α) :=
  if batch = 0 then .error .divByZero
  else forLoop 0 (numBatches m batch - 0) (fun t s1 => batchBody exp X y m n k lr batch t s1) s

/-- The routine `softmax_regression_epoch_cpp` with sizes computed in the natural numbers:
allocate the zero-initialised scratch buffers, run the batch loop, and hand back the contents of
`theta` (`softmax_regression_epoch_cpp64` has the machine sizes). -/
def softmax_regression_epoch_cpp (exp : α → α) (X : List α) (y : List Nat) (theta : List α)
    (m n k : Nat) (lr : α) (batch : Nat) : Except Fault (List α) := do
  let Z := List.replicate (batch * k) (0 : α)
  let one_hot := List.replicate (batch * k) (0 : α)
  let grad := List.replicate (n * k) (0 : α)
  let s ← epochLoop exp X y m n k lr batch (Bufs.mk theta Z one_hot grad)
  pure s.theta

/-! ## The machine reading of the three unguarded `size_t` computations -/

/-- Number of values of the 64-bit type `size_t`. -/
def sizeMod : Nat := 2 ^ 64

/-- Loop bound of line 39 as the machine computes it: the sum `m + batch - 1` is taken in
`size_t`, that is modulo `2 ^ 64`, and then divided by `batch`. -/
def numBatches64 (m batch : Nat) : Nat := ((m + batch + (sizeMod - 1)) % sizeMod) / batch

/-- The batch loop of source lines 39-103 with the guard of line 39 computed in `size_t`. -/
def epochLoop64 (exp : α → α) (X : List α) (y : List Nat) (m n k : Nat) (lr : α) (batch : Nat)
    (s : Bufs α) : Except Fault (Bufs α) :=
  if batch = 0 then .error .divByZero
  else forLoop 0 (numBatches64 m batch - 0) (fun t s1 => batchBody exp X y m n k lr batch t s1) s

/-- The routine `softmax_regression_epoch_cpp` with the `size_t` arithmetic of lines 35-39:
the scratch buffers get `batch * k`, `batch * k` and `n * k` cells modulo `2 ^ 64`, all zero,
then the batch loop runs and the contents of `theta` are handed back. -/
def softmax_regression_epoch_cpp64 (exp : α → α) (X : List α) (y : List Nat) (theta : List α)
    (m n k : Nat) (lr : α) (batch : Nat) : Except Fault (List α) := do
  let Z := List.replicate ((batch * k) % sizeMod) (0 : α)
  let one_hot := List.replicate ((batch * k) % sizeMod) (0 : α)
  let grad := List.replicate ((n * k) % sizeMod) (0 : α)
  let s ← epochLoop64 exp X y m n k lr batch (Bufs.mk theta Z one_hot grad)
  pure s.theta

end Program

/-! ## Vocabulary of the statements -/

/-- Content of cell `i` of a buffer, `0` outside the buffer. -/
def peek {β : Type} [Zero β] (buf : List β) (i : Nat) : β := (buf[i]?).getD 0

/-- Relation `Fills F lo hi a b`: buffer `b` has the length of `a`, holds `F idx` at every index
`lo <= idx < hi`, and agrees with `a` everywhere else. -/
def Fills {β : Type} [Zero β] (F : Nat → β) (lo hi : Nat) (a b : List β) : Prop :=
  b.length = a.length ∧
    ∀ idx, peek b idx = if lo ≤ idx ∧ idx < hi then F idx else peek a idx

/-- Left-to-right accumulation `init + f 0 + f 1 + ... + f (cnt - 1)`, in this order. -/
def accum {β : Type} [Add β] (f : Nat → β) (init : β) : Nat → β
  | 0 => init
  | c + 1 => accum f init c + f c


/-- Closed form of the logit of example `row` (an index into the whole data set) and class
`j`: `X[row][0] * theta[0][j] + ... + X[row][n-1] * theta[n-1][j]`, left to right. -/
def logitAt {β : Type} [Zero β] [Add β] [Mul β] (X theta : List β) (n k row j : Nat) : β :=
  accum (fun u => peek X (row * n + u) * peek theta (u * k + j)) 0 n

/-- Closed form of the softmax residual of example `row` and class `j`. -/
def residAt {β : Type} [Zero β] [One β] [Add β] [Sub β] [Mul β] [Div β] (exp : β → β)
    (X theta : List β) (y : List Nat) (n k row j : Nat) : β :=
  exp (logitAt X theta n k row j) / accum (fun c => exp (logitAt X theta n k row c)) 0 k
    - (if j = peek y row then 1 else 0)

/-- Closed form of the gradient entry `(p, j)` of the batch of `cs` examples that starts at
row `start` of the data set. -/
def gradAt {β : Type} [Zero β] [One β] [Add β] [Sub β] [Mul β] [Div β] (exp : β → β)
    (X theta : List β) (y : List Nat) (n k start cs p j : Nat) : β :=
  accum (fun u => peek X ((u + start) * n + p) * residAt exp X theta y n k (u + start) j) 0 cs

/-- Property `Alloc n k batch s`: the scratch buffers of `s` have the sizes they are allocated
with, `batch * k`, `batch * k` and `n * k`. -/
def Alloc {β : Type} (n k batch : Nat) (s : Bufs β) : Prop :=
  s.Z.length = batch * k ∧ s.one_hot.length = batch * k ∧ s.grad.length = n * k

/-- Cross-entropy loss of the single example `x` with label `yv` at the parameters `theta`:
`-log(exp(z yv) / (exp(z 0) + ... + exp(z (k-1))))`, where `z c` is the logit of class `c`.  This
is the objective that the specification names; the routine never computes it. -/
def crossEntropy {β : Type} [Zero β] [Add β] [Mul β] [Div β] [Neg β] (exp log : β → β)
    (x theta : List β) (n k yv : Nat) : β :=
  -log (exp (logitAt x theta n k 0 yv) / accum (fun c => exp (logitAt x theta n k 0 c)) 0 k)

/-- Relation `ExRel R x y`: two runs end alike, either with the same fault or with results
related by `R`. -/
def ExRel {σ : Type} (R : σ → σ → Prop) (x y : Except Fault σ) : Prop :=
  (∃ e, x = .error e ∧ y = .error e) ∨ (∃ a b, x = .ok a ∧ y = .ok b ∧ R a b)

/-! ## Arithmetic of the batch schedule -/

theorem numBatches_bounds (m batch : Nat) (hm : 0 < m) (hb : 0 < batch) :
    0 < numBatches m batch ∧ m ≤ numBatches m batch * batch ∧
      (numBatches m batch - 1) * batch < m := by
  unfold numBatches
  have h1 := Nat.div_add_mod (m + batch - 1) batch
  have h2 := Nat.mod_lt (m + batch - 1) hb
  generalize (m + batch - 1) / batch = q at *
  generalize (m + batch - 1) % batch = r at *
  rcases q with _ | q
  · simp at h1; omega
  · simp only [Nat.add_sub_cancel, Nat.succ_mul, Nat.mul_succ] at *
    have := Nat.mul_comm batch q
    omega

theorem numBatches_eq_ceil (m batch : Nat) (hm : 0 < m) (hb : 0 < batch) :
    numBatches m batch = ⌈(m : ℚ) / (batch : ℚ)⌉₊ := by
  obtain ⟨h0, h1, h2⟩ := numBatches_bounds m batch hm hb
  symm
  rw [Nat.ceil_eq_iff (by omega)]
  have hbq : (0 : ℚ) < batch := by exact_mod_cast hb
  constructor
  · rw [lt_div_iff₀ hbq]
    exact_mod_cast h2
  · rw [div_le_iff₀ hbq]
    exact_mod_cast h1

theorem start_idx_lt (m batch t : Nat) (hm : 0 < m) (hb : 0 < batch)
    (ht : t < numBatches m batch) : start_idx batch t < m := by
  obtain ⟨h0, h1, h2⟩ := numBatches_bounds m batch hm hb
  have : t * batch ≤ (numBatches m batch - 1) * batch :=
    Nat.mul_le_mul_right _ (by omega)
  unfold start_idx
  omega

theorem current_size_full (m batch t : Nat) (hm : 0 < m) (hb : 0 < batch)
    (ht : t + 1 < numBatches m batch) : current_size m batch t = batch := by
  obtain ⟨h0, h1, h2⟩ := numBatches_bounds m batch hm hb
  have : (t + 1) * batch ≤ (numBatches m batch - 1) * batch :=
    Nat.mul_le_mul_right _ (by omega)
  simp only [current_size, end_idx, start_idx, Nat.succ_mul] at *
  omega

theorem current_size_last (m batch : Nat) (hm : 0 < m) (hb : 0 < batch) :
    current_size m batch (numBatches m batch - 1) = m - batch * (numBatches m batch - 1) := by
  obtain ⟨h0, h1, h2⟩ := numBatches_bounds m batch hm hb
  have h3 : (numBatches m batch - 1) * batch + batch = numBatches m batch * batch := by
    rw [← Nat.succ_mul]; congr 1; omega
  have := Nat.mul_comm batch (numBatches m batch - 1)
  simp only [current_size, end_idx, start_idx] at *
  omega

theorem current_size_last_mod (m batch : Nat) (hm : 0 < m) (hb : 0 < batch)
    (hnd : ¬ batch ∣ m) :
    m - batch * (numBatches m batch - 1) = m % batch ∧ m % batch ≠ 0 := by
  obtain ⟨h0, h1, h2⟩ := numBatches_bounds m batch hm hb
  have hne : m % batch ≠ 0 := fun h => hnd (Nat.dvd_of_mod_eq_zero h)
  refine ⟨?_, hne⟩
  have h3 : (numBatches m batch - 1) * batch + batch = numBatches m batch * batch := by
    rw [← Nat.succ_mul]; congr 1; omega
  have hc := Nat.mul_comm batch (numBatches m batch - 1)
  have hlt : m - batch * (numBatches m batch - 1) < batch := by
    have : m ≠ numBatches m batch * batch := fun h => hnd ⟨numBatches m batch, h.trans (Nat.mul_comm _ _)⟩
    omega
  have hm2 : m = batch * (numBatches m batch - 1) + (m - batch * (numBatches m batch - 1)) := by
    omega
  conv_rhs => rw [hm2, Nat.mul_add_mod, Nat.mod_eq_of_lt hlt]

theorem current_size_last_dvd (m batch : Nat) (hm : 0 < m) (hb : 0 < batch)
    (hd : batch ∣ m) : m - batch * (numBatches m batch - 1) = batch := by
  obtain ⟨h0, h1, h2⟩ := numBatches_bounds m batch hm hb
  obtain ⟨c, hc⟩ := hd
  generalize numBatches m batch = q at *
  have h3 : (q - 1) * batch + batch = q * batch := by
    rw [← Nat.succ_mul]; congr 1; omega
  have hcm := Nat.mul_comm batch (q - 1)
  have hq : c = q := by
    rw [hc, Nat.mul_comm batch c] at h1 h2
    have a1 := Nat.le_of_mul_le_mul_right h1 hb
    have a2 := Nat.lt_of_mul_lt_mul_right h2
    omega
  have hm2 : m = q * batch := by
    rw [← hq, Nat.mul_comm]; exact hc
  omega

/-- C4. For `m > 0` and `batch > 0` the ranges `[start_idx, end_idx)` of the batches
`t = 0 .. ceil(m / batch) - 1` are non-empty, lie inside `[0, m)`, are pairwise disjoint (a later
batch starts where or after an earlier one ends), have strictly increasing start index, and
every example index below `m` lies in exactly one of them. -/
theorem batch_partition (m batch : Nat) (hm : 0 < m) (hb : 0 < batch) :
    (∀ t, t < numBatches m batch →
      start_idx batch t < end_idx m batch t ∧ end_idx m batch t ≤ m ∧
      end_idx m batch t = min (t * batch + batch) m) ∧
    (∀ t1 t2, t1 < t2 → t2 < numBatches m batch →
      start_idx batch t1 < start_idx batch t2 ∧ end_idx m batch t1 ≤ start_idx batch t2) ∧
    (∀ t1 t2 i, t1 < numBatches m batch → t2 < numBatches m batch →
      start_idx batch t1 ≤ i → i < end_idx m batch t1 →
      start_idx batch t2 ≤ i → i < end_idx m batch t2 → t1 = t2) ∧
    (∀ i, i < m ↔ ∃ t, t < numBatches m batch ∧ start_idx batch t ≤ i ∧ i < end_idx m batch t) ∧
    (∀ i, i < m → ∃! t, t < numBatches m batch ∧ start_idx batch t ≤ i ∧ i < end_idx m batch t) := by
  obtain ⟨h0, h1, h2⟩ := numBatches_bounds m batch hm hb
  have hdisj : ∀ t1 t2, t1 < t2 →
      start_idx batch t1 < start_idx batch t2 ∧ end_idx m batch t1 ≤ start_idx batch t2 := by
    intro t1 t2 h12
    have : (t1 + 1) * batch ≤ t2 * batch := Nat.mul_le_mul_right _ h12
    simp only [start_idx, end_idx, Nat.succ_mul] at *
    omega
  have huniq : ∀ t1 t2 i, start_idx batch t1 ≤ i → i < end_idx m batch t1 →
      start_idx batch t2 ≤ i → i < end_idx m batch t2 → t1 = t2 := by
    intro t1 t2 i a1 a2 b1 b2
    rcases Nat.lt_trichotomy t1 t2 with h | h | h
    · have := (hdisj t1 t2 h).2; omega
    · exact h
    · have := (hdisj t2 t1 h).2; omega
  have hcover : ∀ i, i < m →
      i / batch < numBatches m batch ∧ start_idx batch (i / batch) ≤ i ∧
        i < end_idx m batch (i / batch) := by
    intro i hi
    have d1 := Nat.div_add_mod i batch
    have d2 := Nat.mod_lt i hb
    have d3 := Nat.mul_comm batch (i / batch)
    refine ⟨?_, ?_, ?_⟩
    · by_contra hcon
      have : numBatches m batch * batch ≤ (i / batch) * batch :=
        Nat.mul_le_mul_right _ (by omega)
      omega
    · simp only [start_idx]; omega
    · simp only [end_idx, start_idx]; omega
  refine ⟨?_, fun t1 t2 h12 _ => hdisj t1 t2 h12, fun t1 t2 i _ _ => huniq t1 t2 i, ?_, ?_⟩
  · intro t ht
    have := start_idx_lt m batch t hm hb ht
    simp only [start_idx, end_idx] at *
    refine ⟨?_, ?_, trivial⟩ <;> omega
  · intro i
    constructor
    · intro hi
      exact ⟨i / batch, hcover i hi⟩
    · rintro ⟨t, _, _, h⟩
      simp only [end_idx] at h
      omega
  · intro i hi
    refine ⟨i / batch, hcover i hi, ?_⟩
    rintro t ⟨_, a1, a2⟩
    exact huniq t (i / batch) i a1 a2 (hcover i hi).2.1 (hcover i hi).2.2

/-- Witness of C4 at `m = 5`, `batch = 2`: the ranges are `[0,2)`, `[2,4)`, `[4,5)`. -/
theorem batch_partition_witness :
    (∀ i, i < 5 → ∃! t, t < numBatches 5 2 ∧ start_idx 2 t ≤ i ∧ i < end_idx 5 2 t) ∧
    (List.range (numBatches 5 2)).map (fun t => (start_idx 2 t, end_idx 5 2 t))
      = [(0, 2), (2, 4), (4, 5)] :=
  ⟨(batch_partition 5 2 (by decide) (by decide)).2.2.2.2, by decide⟩


/-! ## Reasoning principles for buffers and loops -/

theorem rd_ok {β : Type} [Zero β] (buf : List β) (i : Nat) (h : i < buf.length) :
    rd buf i = .ok (peek buf i) := by
  simp [rd, peek, List.getElem?_eq_getElem h]

theorem rd_oob {β : Type} (buf : List β) (i : Nat) (h : buf.length ≤ i) :
    rd buf i = .error .oob := by
  simp [rd, List.getElem?_eq_none h]

theorem wr_ok {β : Type} (buf : List β) (i : Nat) (v : β) (h : i < buf.length) :
    wr buf i v = .ok (buf.set i v) := by
  simp [wr, h]

theorem wr_oob {β : Type} (buf : List β) (i : Nat) (v : β) (h : buf.length ≤ i) :
    wr buf i v = .error .oob := by
  simp [wr, Nat.not_lt.mpr h]

theorem wr_length {β : Type} (buf buf2 : List β) (i : Nat) (v : β)
    (h : wr buf i v = .ok buf2) : buf2.length = buf.length := by
  unfold wr at h
  split at h
  · cases h; simp
  · cases h

theorem peek_set_self {β : Type} [Zero β] (buf : List β) (i : Nat) (v : β)
    (h : i < buf.length) : peek (buf.set i v) i = v := by
  simp [peek, List.getElem?_set, h]

theorem peek_set_ne {β : Type} [Zero β] (buf : List β) (i j : Nat) (v : β) (h : i ≠ j) :
    peek (buf.set i v) j = peek buf j := by
  simp [peek, List.getElem?_set, h]

theorem peek_oob {β : Type} [Zero β] (buf : List β) (i : Nat) (h : buf.length ≤ i) :
    peek buf i = 0 := by
  simp [peek, List.getElem?_eq_none h]

theorem peek_replicate {β : Type} [Zero β] (len i : Nat) :
    peek (List.replicate len (0 : β)) i = 0 := by
  unfold peek
  by_cases h : i < len
  · simp [List.getElem?_replicate, h]
  · simp [List.getElem?_replicate, h]

theorem list_ext_peek {β : Type} [Zero β] (a b : List β) (hl : a.length = b.length)
    (h : ∀ i, i < a.length → peek a i = peek b i) : a = b := by
  apply List.ext_getElem hl
  intro i h1 h2
  have := h i h1
  simpa [peek, List.getElem?_eq_getElem h1, List.getElem?_eq_getElem h2] using this

@[simp] theorem forLoop_zero {σ : Type} (lo : Nat) (body : Nat → σ → Except Fault σ) (s : σ) :
    forLoop lo 0 body s = .ok s := rfl

theorem forLoop_succ {σ : Type} (lo c : Nat) (body : Nat → σ → Except Fault σ) (s : σ) :
    forLoop lo (c + 1) body s = forLoop lo c body s >>= body (lo + c) := rfl

@[simp] theorem ok_bind {σ τ : Type} (a : σ) (f : σ → Except Fault τ) :
    ((Except.ok a : Except Fault σ) >>= f) = f a := rfl

@[simp] theorem error_bind {σ τ : Type} (e : Fault) (f : σ → Except Fault τ) :
    ((Except.error e : Except Fault σ) >>= f) = .error e := rfl

theorem forLoop_add {σ : Type} (lo a b : Nat) (body : Nat → σ → Except Fault σ) (s : σ) :
    forLoop lo (a + b) body s = forLoop lo a body s >>= forLoop (lo + a) b body := by
  induction b with
  | zero =>
    simp only [Nat.add_zero]
    cases forLoop lo a body s <;> rfl
  | succ b ih =>
    rw [← Nat.add_assoc, forLoop_succ, ih]
    cases forLoop lo a body s with
    | error e => rfl
    | ok s1 => simp [forLoop_succ, Nat.add_assoc]

/-- Total-correctness rule: an invariant that every iteration re-establishes without fault
holds after the loop, which does not fault. -/
theorem forLoop_total {σ : Type} (Inv : Nat → σ → Prop) (lo cnt : Nat)
    (body : Nat → σ → Except Fault σ) (s : σ) (h0 : Inv 0 s)
    (hstep : ∀ c, c < cnt → ∀ s1, Inv c s1 → ∃ s2, body (lo + c) s1 = .ok s2 ∧ Inv (c + 1) s2) :
    ∃ s2, forLoop lo cnt body s = .ok s2 ∧ Inv cnt s2 := by
  induction cnt with
  | zero => exact ⟨s, rfl, h0⟩
  | succ c ih =>
    obtain ⟨s1, e1, i1⟩ := ih (fun c1 hc1 => hstep c1 (Nat.lt_succ_of_lt hc1))
    obtain ⟨s2, e2, i2⟩ := hstep c (Nat.lt_succ_self c) s1 i1
    exact ⟨s2, by rw [forLoop_succ, e1]; exact e2, i2⟩

/-- Partial-correctness rule: a property preserved by every fault-free iteration holds after
a fault-free loop. -/
theorem forLoop_preserves {σ : Type} (P : σ → Prop) (lo cnt : Nat)
    (body : Nat → σ → Except Fault σ)
    (hstep : ∀ c, c < cnt → ∀ s1 s2, P s1 → body (lo + c) s1 = .ok s2 → P s2)
    (s s2 : σ) (h0 : P s) (h : forLoop lo cnt body s = .ok s2) : P s2 := by
  induction cnt generalizing s2 with
  | zero => cases h; exact h0
  | succ c ih =>
    rw [forLoop_succ] at h
    cases e1 : forLoop lo c body s with
    | error e => rw [e1] at h; cases h
    | ok s1 =>
      rw [e1] at h
      exact hstep c (Nat.lt_succ_self c) s1 s2
        (ih (fun c1 hc1 => hstep c1 (Nat.lt_succ_of_lt hc1)) s1 e1) h

/-- Two loops whose bodies agree, iteration by iteration, on all states that satisfy a
property preserved by the first body compute the same result. -/
theorem forLoop_congr {σ : Type} (P : σ → Prop) (lo1 lo2 cnt : Nat)
    (body1 body2 : Nat → σ → Except Fault σ)
    (heq : ∀ c, c < cnt → ∀ s1, P s1 → body1 (lo1 + c) s1 = body2 (lo2 + c) s1)
    (hpres : ∀ c, c < cnt → ∀ s1 s2, P s1 → body1 (lo1 + c) s1 = .ok s2 → P s2)
    (s : σ) (h0 : P s) :
    forLoop lo1 cnt body1 s = forLoop lo2 cnt body2 s := by
  induction cnt with
  | zero => rfl
  | succ c ih =>
    have ih1 := ih (fun c1 hc1 => heq c1 (Nat.lt_succ_of_lt hc1))
      (fun c1 hc1 => hpres c1 (Nat.lt_succ_of_lt hc1))
    rw [forLoop_succ, forLoop_succ, ← ih1]
    cases e1 : forLoop lo1 c body1 s with
    | error e => rfl
    | ok s1 =>
      have hP : P s1 := forLoop_preserves P lo1 c body1
        (fun c1 hc1 => hpres c1 (Nat.lt_succ_of_lt hc1)) s s1 h0 e1
      exact heq c (Nat.lt_succ_self c) s1 hP

/-- Adjacent fills compose. -/
theorem Fills.trans {β : Type} [Zero β] {F : Nat → β} {lo mid hi : Nat} {a b c : List β}
    (h1 : Fills F lo mid a b) (h2 : Fills F mid hi b c) (hlm : lo ≤ mid) (hmh : mid ≤ hi) :
    Fills F lo hi a c := by
  refine ⟨h2.1.trans h1.1, fun idx => ?_⟩
  rw [h2.2 idx, h1.2 idx]
  by_cases c1 : mid ≤ idx ∧ idx < hi
  · rw [if_pos c1, if_pos ⟨by omega, c1.2⟩]
  · rw [if_neg c1]
    by_cases c2 : lo ≤ idx ∧ idx < mid
    · rw [if_pos c2, if_pos ⟨c2.1, by omega⟩]
    · rw [if_neg c2, if_neg (by omega)]

theorem Fills.refl {β : Type} [Zero β] (F : Nat → β) (lo : Nat) (a : List β) :
    Fills F lo lo a a :=
  ⟨rfl, fun idx => by rw [if_neg (by omega)]⟩

/-- Block rule: when iteration `c` fills the block `[base + c * w, base + (c + 1) * w)`
whatever the earlier blocks hold, the loop fills `[base, base + cnt * w)`. -/
theorem forLoop_fills {β : Type} [Zero β] (F : Nat → β) (lo base w cnt : Nat)
    (body : Nat → List β → Except Fault (List β)) (buf : List β)
    (hstep : ∀ c, c < cnt → ∀ b : List β, b.length = buf.length →
      (∀ idx, base + c * w ≤ idx → peek b idx = peek buf idx) →
      ∃ b2, body (lo + c) b = .ok b2 ∧ Fills F (base + c * w) (base + (c + 1) * w) b b2) :
    ∃ b2, forLoop lo cnt body buf = .ok b2 ∧ Fills F base (base + cnt * w) buf b2 := by
  have key := forLoop_total (fun c b => Fills F base (base + c * w) buf b) lo cnt body buf
    (by simpa using Fills.refl F base buf)
    (by
      intro c hc b hb
      have hfar : ∀ idx, base + c * w ≤ idx → peek b idx = peek buf idx := by
        intro idx hidx
        rw [hb.2 idx, if_neg (by omega)]
      obtain ⟨b2, e2, f2⟩ := hstep c hc b hb.1 hfar
      refine ⟨b2, e2, hb.trans f2 (Nat.le_add_right _ _) ?_⟩
      have : c * w ≤ (c + 1) * w := Nat.mul_le_mul_right _ (Nat.le_succ c)
      omega)
  exact key


theorem cell_lt (R k i j : Nat) (hi : i < R) (hj : j < k) : i * k + j < R * k := by
  have : (i + 1) * k ≤ R * k := Nat.mul_le_mul_right _ hi
  rw [Nat.succ_mul] at this
  omega

theorem cell_div (k i j : Nat) (hj : j < k) : (i * k + j) / k = i := by
  rw [Nat.add_comm, Nat.add_mul_div_right _ _ (by omega), Nat.div_eq_of_lt hj, Nat.zero_add]

theorem cell_mod (k i j : Nat) (hj : j < k) : (i * k + j) % k = j := by
  rw [Nat.add_comm, Nat.add_mul_mod_self_right, Nat.mod_eq_of_lt hj]

theorem Fills.cast {β : Type} [Zero β] {F : Nat → β} {lo hi lo2 hi2 : Nat} {a b : List β}
    (h : Fills F lo hi a b) (h1 : lo = lo2) (h2 : hi = hi2) : Fills F lo2 hi2 a b := by
  subst h1; subst h2; exact h

theorem Fills.congr {β : Type} [Zero β] {F G : Nat → β} {lo hi : Nat} {a b : List β}
    (h : Fills F lo hi a b) (hFG : ∀ idx, lo ≤ idx → idx < hi → F idx = G idx) :
    Fills G lo hi a b := by
  refine ⟨h.1, fun idx => ?_⟩
  rw [h.2 idx]
  by_cases c : lo ≤ idx ∧ idx < hi
  · rw [if_pos c, if_pos c, hFG idx c.1 c.2]
  · rw [if_neg c, if_neg c]

/-- A fill on top of an earlier fill of the same block. -/
theorem Fills.over {β : Type} [Zero β] {F G : Nat → β} {lo hi : Nat} {a b c : List β}
    (h1 : Fills G lo hi a b) (h2 : Fills F lo hi b c) : Fills F lo hi a c := by
  refine ⟨h2.1.trans h1.1, fun idx => ?_⟩
  rw [h2.2 idx]
  by_cases c1 : lo ≤ idx ∧ idx < hi
  · rw [if_pos c1, if_pos c1]
  · rw [if_neg c1, if_neg c1, h1.2 idx, if_neg c1]

theorem Fills.set {β : Type} [Zero β] (F : Nat → β) (a : List β) (i : Nat) (v : β)
    (hi : i < a.length) (hv : F i = v) : Fills F i (i + 1) a (a.set i v) := by
  refine ⟨by simp, fun idx => ?_⟩
  by_cases c : i ≤ idx ∧ idx < i + 1
  · have : idx = i := by omega
    subst this
    rw [if_pos c, peek_set_self _ _ _ hi, hv]
  · rw [if_neg c, peek_set_ne _ _ _ _ (by omega)]

theorem Fills.peek_in {β : Type} [Zero β] {F : Nat → β} {lo hi : Nat} {a b : List β}
    (h : Fills F lo hi a b) (idx : Nat) (h1 : lo ≤ idx) (h2 : idx < hi) : peek b idx = F idx := by
  rw [h.2 idx, if_pos ⟨h1, h2⟩]

theorem Fills.peek_out {β : Type} [Zero β] {F : Nat → β} {lo hi : Nat} {a b : List β}
    (h : Fills F lo hi a b) (idx : Nat) (h1 : idx < lo ∨ hi ≤ idx) : peek b idx = peek a idx := by
  rw [h.2 idx, if_neg (by omega)]

theorem accum_congr {β : Type} [Add β] (f g : Nat → β) (init : β) (cnt : Nat)
    (h : ∀ c, c < cnt → f c = g c) : accum f init cnt = accum g init cnt := by
  induction cnt with
  | zero => rfl
  | succ c ih =>
    simp only [accum]
    rw [ih (fun c1 hc1 => h c1 (Nat.lt_succ_of_lt hc1)), h c (Nat.lt_succ_self c)]

/-- Accumulation rule: a loop whose iteration `u` adds `f u` to one fixed cell leaves the
left-to-right sum in that cell. -/
theorem forLoop_accum {β : Type} [Zero β] [Add β] (f : Nat → β) (lo cnt idx : Nat)
    (body : Nat → List β → Except Fault (List β)) (buf : List β) (hidx : idx < buf.length)
    (hbody : ∀ u, u < cnt → ∀ b : List β, b.length = buf.length →
      body (lo + u) b = .ok (b.set idx (peek b idx + f u))) :
    forLoop lo cnt body buf = .ok (buf.set idx (accum f (peek buf idx) cnt)) := by
  induction cnt with
  | zero =>
    simp only [forLoop_zero, accum]
    congr 1
    apply list_ext_peek _ _ (by simp)
    intro i _
    by_cases c : idx = i
    · subst c; rw [peek_set_self _ _ _ hidx]
    · rw [peek_set_ne _ _ _ _ c]
  | succ c ih =>
    rw [forLoop_succ, ih (fun u hu => hbody u (Nat.lt_succ_of_lt hu)), ok_bind,
      hbody c (Nat.lt_succ_self c) _ (by simp), peek_set_self _ _ _ hidx, List.set_set]
    rfl

theorem logitCell_eq {α : Type} [Zero α] [Add α] [Mul α] (X theta Z : List α)
    (n k start i j u : Nat) (hX : (i + start) * n + u < X.length)
    (hth : u * k + j < theta.length) (hZ : i * k + j < Z.length) :
    logitCell X theta n k start i j u Z =
      .ok (Z.set (i * k + j)
        (peek Z (i * k + j) + peek X ((i + start) * n + u) * peek theta (u * k + j))) := by
  simp [logitCell, rd_ok _ _ hX, rd_ok _ _ hth, rd_ok _ _ hZ, wr_ok _ _ _ hZ]

/-- Score loop: on buffers that are large enough it does not fault and adds to every cell
`(i, j)` with `i < cs` the products `X[(i + start) * n + u] * theta[u * k + j]`, `u < n`. -/
theorem logitLoop_spec {α : Type} [Zero α] [Add α] [Mul α] (X theta Z : List α)
    (n k start cs : Nat) (hX : (start + cs) * n ≤ X.length) (hth : n * k ≤ theta.length)
    (hZ : cs * k ≤ Z.length) :
    ∃ Z2, logitLoop X theta n k start cs Z = .ok Z2 ∧
      Fills (fun idx => accum
          (fun u => peek X ((idx / k + start) * n + u) * peek theta (u * k + idx % k))
          (peek Z idx) n) 0 (cs * k) Z Z2 := by
  unfold logitLoop
  simp only [Nat.sub_zero]
  have h := forLoop_fills (fun idx => accum
      (fun u => peek X ((idx / k + start) * n + u) * peek theta (u * k + idx % k))
      (peek Z idx) n) 0 0 k cs
    (fun i Z1 => forLoop 0 k
      (fun j Z2 => forLoop 0 n (fun u Z3 => logitCell X theta n k start i j u Z3) Z2) Z1) Z ?_
  · simpa using h
  intro i hi b hb hfar
  have h2 := forLoop_fills (fun idx => accum
      (fun u => peek X ((idx / k + start) * n + u) * peek theta (u * k + idx % k))
      (peek Z idx) n) 0 (i * k) 1 k
    (fun j Z2 => forLoop 0 n (fun u Z3 => logitCell X theta n k start i j u Z3) Z2) b ?_
  · obtain ⟨b2, e2, f2⟩ := h2
    refine ⟨b2, by simpa using e2, f2.cast (by simp) (by simp [Nat.succ_mul])⟩
  intro j hj b3 hb3 hfar3
  have hcell : i * k + j < Z.length := lt_of_lt_of_le (cell_lt cs k i j hi hj) hZ
  have hacc := forLoop_accum
    (fun u => peek X ((i + start) * n + u) * peek theta (u * k + j)) 0 n (i * k + j)
    (fun u Z3 => logitCell X theta n k start i j u Z3) b3 (by omega) ?_
  · refine ⟨_, by simpa using hacc, ?_⟩
    have hf := Fills.set (fun idx => accum
      (fun u => peek X ((idx / k + start) * n + u) * peek theta (u * k + idx % k))
      (peek Z idx) n) b3 (i * k + j)
      (accum (fun u => peek X ((i + start) * n + u) * peek theta (u * k + j))
        (peek b3 (i * k + j)) n) (by omega) ?_
    · exact hf.cast (by simp) (by simp [Nat.succ_mul, Nat.add_assoc])
    · simp only [cell_div k i j hj, cell_mod k i j hj]
      rw [hfar3 _ (by simp), hfar _ (by simp)]
  intro u hu b4 hb4
  simp only [Nat.zero_add]
  apply logitCell_eq
  · have : (i + start) * n + u < (start + cs) * n := by
      rw [Nat.add_comm i start]
      exact cell_lt (start + cs) n (start + i) u (by omega) hu
    omega
  · exact lt_of_lt_of_le (cell_lt n k u j hu hj) hth
  · omega


theorem gradCell_eq {α : Type} [Zero α] [Add α] [Mul α] (X Z grad : List α)
    (n k start i j u : Nat) (hX : (u + start) * n + i < X.length)
    (hZ : u * k + j < Z.length) (hg : i * k + j < grad.length) :
    gradCell X Z n k start i j u grad =
      .ok (grad.set (i * k + j)
        (peek grad (i * k + j) + peek X ((u + start) * n + i) * peek Z (u * k + j))) := by
  simp [gradCell, rd_ok _ _ hX, rd_ok _ _ hZ, rd_ok _ _ hg, wr_ok _ _ _ hg]

/-- Gradient loop: on buffers that are large enough it does not fault and adds to every cell
`(i, j)` with `i < n` the products `X[(u + start) * n + i] * Z[u * k + j]`, `u < cs`. -/
theorem gradLoop_spec {α : Type} [Zero α] [Add α] [Mul α] (X Z grad : List α)
    (n k start cs : Nat) (hX : (start + cs) * n ≤ X.length) (hZ : cs * k ≤ Z.length)
    (hg : n * k ≤ grad.length) :
    ∃ g2, gradLoop X Z n k start cs grad = .ok g2 ∧
      Fills (fun idx => accum
          (fun u => peek X ((u + start) * n + idx / k) * peek Z (u * k + idx % k))
          (peek grad idx) cs) 0 (n * k) grad g2 := by
  unfold gradLoop
  simp only [Nat.sub_zero]
  have h := forLoop_fills (fun idx => accum
      (fun u => peek X ((u + start) * n + idx / k) * peek Z (u * k + idx % k))
      (peek grad idx) cs) 0 0 k n
    (fun i g1 => forLoop 0 k
      (fun j g2 => forLoop 0 cs (fun u g3 => gradCell X Z n k start i j u g3) g2) g1) grad ?_
  · simpa using h
  intro i hi b hb hfar
  have h2 := forLoop_fills (fun idx => accum
      (fun u => peek X ((u + start) * n + idx / k) * peek Z (u * k + idx % k))
      (peek grad idx) cs) 0 (i * k) 1 k
    (fun j g2 => forLoop 0 cs (fun u g3 => gradCell X Z n k start i j u g3) g2) b ?_
  · obtain ⟨b2, e2, f2⟩ := h2
    refine ⟨b2, by simpa using e2, f2.cast (by simp) (by simp [Nat.succ_mul])⟩
  intro j hj b3 hb3 hfar3
  have hcell : i * k + j < grad.length := lt_of_lt_of_le (cell_lt n k i j hi hj) hg
  have hacc := forLoop_accum
    (fun u => peek X ((u + start) * n + i) * peek Z (u * k + j)) 0 cs (i * k + j)
    (fun u g3 => gradCell X Z n k start i j u g3) b3 (by omega) ?_
  · refine ⟨_, by simpa using hacc, ?_⟩
    have hf := Fills.set (fun idx => accum
      (fun u => peek X ((u + start) * n + idx / k) * peek Z (u * k + idx % k))
      (peek grad idx) cs) b3 (i * k + j)
      (accum (fun u => peek X ((u + start) * n + i) * peek Z (u * k + j))
        (peek b3 (i * k + j)) cs) (by omega) ?_
    · exact hf.cast (by simp) (by simp [Nat.succ_mul, Nat.add_assoc])
    · simp only [cell_div k i j hj, cell_mod k i j hj]
      rw [hfar3 _ (by simp), hfar _ (by simp)]
  intro u hu b4 hb4
  simp only [Nat.zero_add]
  apply gradCell_eq
  · have : (u + start) * n + i < (start + cs) * n := by
      rw [Nat.add_comm u start]
      exact cell_lt (start + cs) n (start + u) i (by omega) hi
    omega
  · exact lt_of_lt_of_le (cell_lt cs k u j hu hj) hZ
  · omega

theorem updateCell_eq {α : Type} [Zero α] [Sub α] [Mul α] [Div α] [NatCast α]
    (grad theta : List α) (lr : α) (batch k i j : Nat)
    (hg : i * k + j < grad.length) (hth : i * k + j < theta.length) :
    updateCell grad lr batch k i j theta =
      .ok (theta.set (i * k + j)
        (peek theta (i * k + j) - peek grad (i * k + j) * lr / (batch : α))) := by
  simp [updateCell, rd_ok _ _ hg, rd_ok _ _ hth, wr_ok _ _ _ hth]

/-- Update loop: on buffers that are large enough it does not fault, replaces every cell below
`n * k` of `theta` by `theta - grad * lr / batch`, and leaves the other cells alone. -/
theorem updateLoop_spec {α : Type} [Zero α] [Sub α] [Mul α] [Div α] [NatCast α]
    (grad theta : List α) (lr : α) (batch n k : Nat)
    (hg : n * k ≤ grad.length) (hth : n * k ≤ theta.length) :
    ∃ th2, updateLoop grad lr batch n k theta = .ok th2 ∧
      Fills (fun idx => peek theta idx - peek grad idx * lr / (batch : α)) 0 (n * k) theta th2 := by
  unfold updateLoop
  simp only [Nat.sub_zero]
  have h := forLoop_fills (fun idx => peek theta idx - peek grad idx * lr / (batch : α)) 0 0 k n
    (fun i th1 => forLoop 0 k (fun j th2 => updateCell grad lr batch k i j th2) th1) theta ?_
  · simpa using h
  intro i hi b hb hfar
  have h2 := forLoop_fills (fun idx => peek theta idx - peek grad idx * lr / (batch : α))
    0 (i * k) 1 k (fun j th2 => updateCell grad lr batch k i j th2) b ?_
  · obtain ⟨b2, e2, f2⟩ := h2
    refine ⟨b2, by simpa using e2, f2.cast (by simp) (by simp [Nat.succ_mul])⟩
  intro j hj b3 hb3 hfar3
  have hcell : i * k + j < n * k := cell_lt n k i j hi hj
  refine ⟨b3.set (i * k + j) (peek b3 (i * k + j) - peek grad (i * k + j) * lr / (batch : α)),
    ?_, ?_⟩
  · simp only [Nat.zero_add]
    exact updateCell_eq grad b3 lr batch k i j (by omega) (by omega)
  · have hf := Fills.set (fun idx => peek theta idx - peek grad idx * lr / (batch : α)) b3
      (i * k + j) (peek b3 (i * k + j) - peek grad (i * k + j) * lr / (batch : α))
      (by omega) ?_
    · exact hf.cast (by simp) (by simp [Nat.succ_mul, Nat.add_assoc])
    · simp only
      rw [hfar3 _ (by simp), hfar _ (by simp)]

theorem expCell_eq {α : Type} [Zero α] [Add α] (exp : α → α) (k i j : Nat) (Z : List α)
    (sum : α) (hZ : i * k + j < Z.length) :
    expCell exp k i j (Z, sum) =
      .ok (Z.set (i * k + j) (exp (peek Z (i * k + j))), sum + exp (peek Z (i * k + j))) := by
  simp [expCell, rd_ok _ _ hZ, wr_ok _ _ _ hZ]

theorem normCell_eq {α : Type} [Zero α] [Sub α] [Div α] (one_hot Z : List α) (k i j : Nat)
    (sum : α) (hZ : i * k + j < Z.length) (hoh : i * k + j < one_hot.length) :
    normCell one_hot k i j sum Z =
      .ok (Z.set (i * k + j) (peek Z (i * k + j) / sum - peek one_hot (i * k + j))) := by
  simp [normCell, rd_ok _ _ hZ, rd_ok _ _ hoh, wr_ok _ _ _ hZ]

/-- First inner loop of the softmax step: row `i` is exponentiated in place and `sum` holds the
left-to-right sum of the exponentials. -/
theorem expLoop_spec {α : Type} [Zero α] [Add α] (exp : α → α) (k i : Nat) (Z : List α)
    (hZ : (i + 1) * k ≤ Z.length) :
    ∃ Z1, forLoop 0 k (fun j q => expCell exp k i j q) (Z, (0 : α)) =
        .ok (Z1, accum (fun c => exp (peek Z (i * k + c))) 0 k) ∧
      Fills (fun idx => exp (peek Z idx)) (i * k) ((i + 1) * k) Z Z1 := by
  have key := forLoop_total
    (fun j (p : List α × α) => Fills (fun idx => exp (peek Z idx)) (i * k) (i * k + j) Z p.1 ∧
      p.2 = accum (fun c => exp (peek Z (i * k + c))) 0 j) 0 k
    (fun j q => expCell exp k i j q) (Z, (0 : α)) ⟨Fills.refl _ _ _, rfl⟩ ?_
  · obtain ⟨⟨Z1, s1⟩, e1, f1, hs⟩ := key
    simp only at hs f1
    subst hs
    exact ⟨Z1, e1, f1.cast rfl (by rw [Nat.succ_mul])⟩
  rintro j hj ⟨b, s⟩ ⟨hb, hs⟩
  simp only at hb hs
  have hcell : i * k + j < Z.length := by
    have := cell_lt (i + 1) k i j (Nat.lt_succ_self i) hj
    omega
  have hlen : b.length = Z.length := hb.1
  refine ⟨(b.set (i * k + j) (exp (peek b (i * k + j))), s + exp (peek b (i * k + j))),
    ?_, ?_, ?_⟩
  · simp only [Nat.zero_add]
    exact expCell_eq exp k i j b s (by omega)
  · simp only
    refine hb.trans ?_ (Nat.le_add_right _ _) (Nat.le_succ _)
    exact Fills.set _ b (i * k + j) _ (by omega)
      (by rw [hb.peek_out _ (Or.inr (Nat.le_refl _))])
  · simp only [accum]
    rw [hs, hb.peek_out _ (Or.inr (Nat.le_refl _))]

/-- One row of the softmax step. -/
theorem softmaxRow_spec {α : Type} [Zero α] [Add α] [Sub α] [Div α] (exp : α → α)
    (one_hot Z : List α) (k i : Nat) (hZ : (i + 1) * k ≤ Z.length)
    (hoh : (i + 1) * k ≤ one_hot.length) :
    ∃ Z2, softmaxRow exp one_hot k i Z = .ok Z2 ∧
      Fills (fun idx => exp (peek Z idx) / accum (fun c => exp (peek Z (i * k + c))) 0 k
          - peek one_hot idx) (i * k) ((i + 1) * k) Z Z2 := by
  obtain ⟨Z1, e1, f1⟩ := expLoop_spec exp k i Z hZ
  have h2 := forLoop_fills
    (fun idx => exp (peek Z idx) / accum (fun c => exp (peek Z (i * k + c))) 0 k
          - peek one_hot idx) 0 (i * k) 1 k
    (fun j Z3 => normCell one_hot k i j (accum (fun c => exp (peek Z (i * k + c))) 0 k) Z3) Z1 ?_
  · obtain ⟨Z2, e2, f2⟩ := h2
    refine ⟨Z2, ?_, ?_⟩
    · simp only [softmaxRow, Nat.sub_zero, e1, ok_bind]
      exact e2
    · exact f1.over (f2.cast rfl (by simp [Nat.succ_mul]))
  intro j hj b hb hfar
  have hcell : i * k + j < (i + 1) * k := cell_lt (i + 1) k i j (Nat.lt_succ_self i) hj
  have hlen : Z1.length = Z.length := f1.1
  refine ⟨b.set (i * k + j)
    (peek b (i * k + j) / accum (fun c => exp (peek Z (i * k + c))) 0 k
      - peek one_hot (i * k + j)), ?_, ?_⟩
  · simp only [Nat.zero_add]
    exact normCell_eq one_hot b k i j _ (by omega) (by omega)
  · have hf := Fills.set
      (fun idx => exp (peek Z idx) / accum (fun c => exp (peek Z (i * k + c))) 0 k
          - peek one_hot idx) b (i * k + j)
      (peek b (i * k + j) / accum (fun c => exp (peek Z (i * k + c))) 0 k
          - peek one_hot (i * k + j)) (by omega) ?_
    · exact hf.cast (by simp) (by simp [Nat.succ_mul, Nat.add_assoc])
    · simp only
      rw [hfar _ (by simp), f1.peek_in _ (by omega) hcell]

/-- Softmax loop: on buffers that are large enough it does not fault and replaces every cell
`(i, j)` with `i < cs` by `exp(Z[i][j]) / (exp(Z[i][0]) + ... + exp(Z[i][k-1])) - one_hot[i][j]`,
computed from the content of `Z` before the loop; the other cells are left alone. -/
theorem softmaxLoop_spec {α : Type} [Zero α] [Add α] [Sub α] [Div α] (exp : α → α)
    (one_hot Z : List α) (k cs : Nat) (hZ : cs * k ≤ Z.length)
    (hoh : cs * k ≤ one_hot.length) :
    ∃ Z2, softmaxLoop exp one_hot k cs Z = .ok Z2 ∧
      Fills (fun idx => exp (peek Z idx) /
          accum (fun c => exp (peek Z (idx / k * k + c))) 0 k - peek one_hot idx)
        0 (cs * k) Z Z2 := by
  unfold softmaxLoop
  simp only [Nat.sub_zero]
  have h := forLoop_fills (fun idx => exp (peek Z idx) /
          accum (fun c => exp (peek Z (idx / k * k + c))) 0 k - peek one_hot idx) 0 0 k cs
    (fun i Z1 => softmaxRow exp one_hot k i Z1) Z ?_
  · simpa using h
  intro i hi b hb hfar
  have hrow : (i + 1) * k ≤ cs * k := Nat.mul_le_mul_right _ hi
  obtain ⟨b2, e2, f2⟩ := softmaxRow_spec exp one_hot b k i (by omega) (by omega)
  refine ⟨b2, by simpa using e2, (f2.congr ?_).cast (by simp) (by simp)⟩
  intro idx h1 h2
  have hdiv : idx / k = i := Nat.div_eq_of_lt_le (by simpa using h1) h2
  simp only [hdiv]
  rw [hfar idx (by simpa using h1)]
  congr 2
  apply accum_congr
  intro c hc
  rw [hfar _ (by omega)]


/-- One-hot loop: when the labels of the batch are below `k` and the buffers are large enough,
it does not fault and stores `1` in column `y[start + i]` of every row `i < end - start`. -/
theorem oneHotLoop_spec {α : Type} [Zero α] [One α] (y : List Nat) (k start endI : Nat)
    (one_hot : List α) (hy : endI ≤ y.length)
    (hlab : ∀ i, start ≤ i → i < endI → peek y i < k)
    (hoh : (endI - start) * k ≤ one_hot.length) :
    ∃ oh2, oneHotLoop y k start endI one_hot = .ok oh2 ∧
      Fills (fun idx => if idx % k = peek y (start + idx / k) then 1 else peek one_hot idx)
        0 ((endI - start) * k) one_hot oh2 := by
  unfold oneHotLoop
  have h := forLoop_fills
    (fun idx => if idx % k = peek y (start + idx / k) then (1 : α) else peek one_hot idx)
    start 0 k (endI - start) (fun i oh => oneHotCell y k start i oh) one_hot ?_
  · simpa using h
  intro c hc b hb hfar
  have hyc : peek y (start + c) < k := hlab _ (by omega) (by omega)
  have hcell : c * k + peek y (start + c) < (c + 1) * k :=
    cell_lt (c + 1) k c _ (Nat.lt_succ_self c) hyc
  have hrow : (c + 1) * k ≤ (endI - start) * k := Nat.mul_le_mul_right _ hc
  refine ⟨b.set (c * k + peek y (start + c)) 1, ?_, by simp, fun idx => ?_⟩
  · simp [oneHotCell, rd_ok y (start + c) (by omega),
      wr_ok b (c * k + peek y (start + c)) 1 (by omega)]
  · by_cases hin : 0 + c * k ≤ idx ∧ idx < 0 + (c + 1) * k
    · rw [if_pos hin]
      have hdiv : idx / k = c := Nat.div_eq_of_lt_le (by omega) (by omega)
      have hdm := Nat.div_add_mod idx k
      rw [hdiv, Nat.mul_comm] at hdm
      simp only [hdiv]
      by_cases hcol : idx % k = peek y (start + c)
      · rw [if_pos hcol]
        have : idx = c * k + peek y (start + c) := by omega
        rw [this, peek_set_self _ _ _ (by omega)]
      · rw [if_neg hcol, peek_set_ne _ _ _ _ (by omega), hfar idx hin.1]
    · rw [if_neg hin, peek_set_ne _ _ _ _ (by omega)]

theorem Fills.zero_step {β : Type} [Zero β] {a b : List β} (lim : Nat)
    (h : Fills (fun _ => (0 : β)) 0 lim a b) (hl : lim < a.length) :
    Fills (fun _ => (0 : β)) 0 (lim + 1) a (b.set lim 0) :=
  h.trans (Fills.set _ b lim 0 (by rw [h.1]; exact hl) rfl) (Nat.zero_le _) (Nat.le_succ _)

theorem zeroCell_eq {α : Type} [Zero α] (n k batch i j : Nat) (s : Bufs α)
    (hZ : i < batch → i * k + j < s.Z.length)
    (hoh : i < batch → i * k + j < s.one_hot.length)
    (hg : i < n → i * k + j < s.grad.length) :
    zeroCell n k batch i j s = .ok (Bufs.mk s.theta
      (if i < batch then s.Z.set (i * k + j) 0 else s.Z)
      (if i < batch then s.one_hot.set (i * k + j) 0 else s.one_hot)
      (if i < n then s.grad.set (i * k + j) 0 else s.grad)) := by
  by_cases c1 : i < batch <;> by_cases c2 : i < n
  · simp [zeroCell, c1, c2, wr_ok, hZ, hoh, hg]
  · simp [zeroCell, c1, c2, wr_ok, hZ, hoh]
  · simp [zeroCell, c1, c2, wr_ok, hg]
  · simp only [zeroCell, if_neg c1, if_neg c2]
    rfl

/-- Zeroing loop: on scratch buffers of at least `batch * k`, `batch * k` and `n * k` cells it
does not fault, clears exactly the first `batch * k` cells of `Z` and `one_hot` and the first
`n * k` cells of `grad`, and does not touch `theta`. -/
theorem zeroLoop_spec {α : Type} [Zero α] (n k batch : Nat) (s : Bufs α)
    (hZ : batch * k ≤ s.Z.length) (hoh : batch * k ≤ s.one_hot.length)
    (hg : n * k ≤ s.grad.length) :
    ∃ s2, zeroLoop n k batch s = .ok s2 ∧ s2.theta = s.theta ∧
      Fills (fun _ => (0 : α)) 0 (batch * k) s.Z s2.Z ∧
      Fills (fun _ => (0 : α)) 0 (batch * k) s.one_hot s2.one_hot ∧
      Fills (fun _ => (0 : α)) 0 (n * k) s.grad s2.grad := by
  unfold zeroLoop
  simp only [Nat.sub_zero]
  have key := forLoop_total
    (fun i (s1 : Bufs α) => s1.theta = s.theta ∧
      Fills (fun _ => (0 : α)) 0 (min i batch * k) s.Z s1.Z ∧
      Fills (fun _ => (0 : α)) 0 (min i batch * k) s.one_hot s1.one_hot ∧
      Fills (fun _ => (0 : α)) 0 (min i n * k) s.grad s1.grad) 0 (max n batch)
    (fun i s1 => forLoop 0 k (fun j s2 => zeroCell n k batch i j s2) s1) s
    ⟨rfl, by simpa using Fills.refl _ 0 _, by simpa using Fills.refl _ 0 _,
      by simpa using Fills.refl _ 0 _⟩ ?_
  · obtain ⟨s2, e2, h1, h2, h3, h4⟩ := key
    refine ⟨s2, e2, h1, h2.cast rfl ?_, h3.cast rfl ?_, h4.cast rfl ?_⟩ <;> congr 1 <;> omega
  rintro i hi s1 ⟨t1, z1, o1, g1⟩
  have inner := forLoop_total
    (fun j (s3 : Bufs α) => s3.theta = s.theta ∧
      Fills (fun _ => (0 : α)) 0 (if i < batch then i * k + j else batch * k) s.Z s3.Z ∧
      Fills (fun _ => (0 : α)) 0 (if i < batch then i * k + j else batch * k)
        s.one_hot s3.one_hot ∧
      Fills (fun _ => (0 : α)) 0 (if i < n then i * k + j else n * k) s.grad s3.grad) 0 k
    (fun j s2 => zeroCell n k batch i j s2) s1 ?_ ?_
  · obtain ⟨s3, e3, h1, h2, h3, h4⟩ := inner
    refine ⟨s3, by simpa using e3, h1, h2.cast rfl ?_, h3.cast rfl ?_, h4.cast rfl ?_⟩
    · by_cases c : i < batch
      · rw [if_pos c, Nat.min_eq_left (by omega : i + 1 ≤ batch), Nat.succ_mul]
      · rw [if_neg c, Nat.min_eq_right (by omega : batch ≤ i + 1)]
    · by_cases c : i < batch
      · rw [if_pos c, Nat.min_eq_left (by omega : i + 1 ≤ batch), Nat.succ_mul]
      · rw [if_neg c, Nat.min_eq_right (by omega : batch ≤ i + 1)]
    · by_cases c : i < n
      · rw [if_pos c, Nat.min_eq_left (by omega : i + 1 ≤ n), Nat.succ_mul]
      · rw [if_neg c, Nat.min_eq_right (by omega : n ≤ i + 1)]
  · refine ⟨t1, z1.cast rfl ?_, o1.cast rfl ?_, g1.cast rfl ?_⟩
    · by_cases c : i < batch
      · rw [if_pos c, Nat.min_eq_left (by omega : i ≤ batch), Nat.add_zero]
      · rw [if_neg c, Nat.min_eq_right (by omega : batch ≤ i)]
    · by_cases c : i < batch
      · rw [if_pos c, Nat.min_eq_left (by omega : i ≤ batch), Nat.add_zero]
      · rw [if_neg c, Nat.min_eq_right (by omega : batch ≤ i)]
    · by_cases c : i < n
      · rw [if_pos c, Nat.min_eq_left (by omega : i ≤ n), Nat.add_zero]
      · rw [if_neg c, Nat.min_eq_right (by omega : n ≤ i)]
  rintro j hj s3 ⟨t3, z3, o3, g3⟩
  have lZ : s3.Z.length = s.Z.length := z3.1
  have lO : s3.one_hot.length = s.one_hot.length := o3.1
  have lG : s3.grad.length = s.grad.length := g3.1
  have cb : i < batch → i * k + j < batch * k := fun h => cell_lt batch k i j h hj
  have cn : i < n → i * k + j < n * k := fun h => cell_lt n k i j h hj
  have hcell := zeroCell_eq n k batch i j s3 (fun h => by have := cb h; omega)
      (fun h => by have := cb h; omega) (fun h => by have := cn h; omega)
  refine ⟨Bufs.mk s3.theta
      (if i < batch then s3.Z.set (i * k + j) 0 else s3.Z)
      (if i < batch then s3.one_hot.set (i * k + j) 0 else s3.one_hot)
      (if i < n then s3.grad.set (i * k + j) 0 else s3.grad),
    by simp only [Nat.zero_add]; exact hcell, t3, ?_, ?_, ?_⟩
  · by_cases c : i < batch
    · simp only [if_pos c] at z3 ⊢
      exact z3.zero_step _ (by have := cb c; omega)
    · simp only [if_neg c] at z3 ⊢
      exact z3
  · by_cases c : i < batch
    · simp only [if_pos c] at o3 ⊢
      exact o3.zero_step _ (by have := cb c; omega)
    · simp only [if_neg c] at o3 ⊢
      exact o3
  · by_cases c : i < n
    · simp only [if_pos c] at g3 ⊢
      exact g3.zero_step _ (by have := cn c; omega)
    · simp only [if_neg c] at g3 ⊢
      exact g3

theorem Fills.eq_replicate {β : Type} [Zero β] {a b : List β} (h : Fills (fun _ => (0 : β)) 0 a.length a b) :
    b = List.replicate a.length 0 := by
  apply list_ext_peek _ _ (by simp [h.1])
  intro i hi
  rw [h.peek_in i (Nat.zero_le _) (by rw [← h.1]; exact hi), peek_replicate]

/-- On scratch buffers of exactly the allocated sizes the zeroing loop returns all-zero scratch
buffers, whatever they held before. -/
theorem zeroLoop_eq {α : Type} [Zero α] (n k batch : Nat) (s : Bufs α)
    (hZ : s.Z.length = batch * k) (hoh : s.one_hot.length = batch * k)
    (hg : s.grad.length = n * k) :
    zeroLoop n k batch s = .ok (Bufs.mk s.theta (List.replicate (batch * k) 0)
      (List.replicate (batch * k) 0) (List.replicate (n * k) 0)) := by
  obtain ⟨s2, e2, h1, h2, h3, h4⟩ := zeroLoop_spec n k batch s (by omega) (by omega) (by omega)
  rw [e2]
  rw [← hZ] at h2
  rw [← hoh] at h3
  rw [← hg] at h4
  have a2 := h2.eq_replicate
  have a3 := h3.eq_replicate
  have a4 := h4.eq_replicate
  rw [hZ] at a2
  rw [hoh] at a3
  rw [hg] at a4
  cases s2
  simp only at h1 a2 a3 a4
  rw [h1, a2, a3, a4]


theorem current_size_le (m batch t : Nat) : current_size m batch t ≤ batch := by
  simp only [current_size, end_idx, start_idx]
  omega

theorem start_add_current_size (m batch t : Nat) (h : start_idx batch t ≤ m) :
    start_idx batch t + current_size m batch t = end_idx m batch t := by
  simp only [current_size, end_idx, start_idx] at *
  omega

/-- One batch iteration, phase by phase: on all-size-correct buffers with in-range labels no
phase faults, and every intermediate buffer is described cell by cell. -/
theorem batchBody_run {α : Type} [Zero α] [One α] [Add α] [Sub α] [Mul α] [Div α] [NatCast α]
    (exp : α → α) (X : List α) (y : List Nat) (m n k : Nat) (lr : α) (batch t : Nat)
    (s : Bufs α)
    (hZ : s.Z.length = batch * k) (hoh : s.one_hot.length = batch * k)
    (hg : s.grad.length = n * k) (hth : n * k ≤ s.theta.length)
    (hst : start_idx batch t ≤ m)
    (hX : end_idx m batch t * n ≤ X.length) (hy : end_idx m batch t ≤ y.length)
    (hlab : ∀ i, start_idx batch t ≤ i → i < end_idx m batch t → peek y i < k) :
    ∃ oh Z1 Z2 g th,
      zeroLoop n k batch s = .ok (Bufs.mk s.theta (List.replicate (batch * k) 0)
        (List.replicate (batch * k) 0) (List.replicate (n * k) 0)) ∧
      oneHotLoop y k (start_idx batch t) (end_idx m batch t) (List.replicate (batch * k) 0)
        = .ok oh ∧
      logitLoop X s.theta n k (start_idx batch t) (current_size m batch t)
        (List.replicate (batch * k) 0) = .ok Z1 ∧
      softmaxLoop exp oh k (current_size m batch t) Z1 = .ok Z2 ∧
      gradLoop X Z2 n k (start_idx batch t) (current_size m batch t)
        (List.replicate (n * k) 0) = .ok g ∧
      updateLoop g lr batch n k s.theta = .ok th ∧
      batchBody exp X y m n k lr batch t s = .ok (Bufs.mk th Z2 oh g) ∧
      Fills (fun idx => if idx % k = peek y (start_idx batch t + idx / k) then 1 else 0)
        0 (current_size m batch t * k) (List.replicate (batch * k) 0) oh ∧
      Fills (fun idx => accum (fun u => peek X ((idx / k + start_idx batch t) * n + u) *
          peek s.theta (u * k + idx % k)) 0 n)
        0 (current_size m batch t * k) (List.replicate (batch * k) 0) Z1 ∧
      Fills (fun idx => exp (peek Z1 idx) /
          accum (fun c => exp (peek Z1 (idx / k * k + c))) 0 k - peek oh idx)
        0 (current_size m batch t * k) Z1 Z2 ∧
      Fills (fun idx => accum (fun u => peek X ((u + start_idx batch t) * n + idx / k) *
          peek Z2 (u * k + idx % k)) 0 (current_size m batch t))
        0 (n * k) (List.replicate (n * k) 0) g ∧
      Fills (fun idx => peek s.theta idx - peek g idx * lr / (batch : α)) 0 (n * k) s.theta th := by
  have hcs := current_size_le m batch t
  have hcsk : current_size m batch t * k ≤ batch * k := Nat.mul_le_mul_right _ hcs
  have hse := start_add_current_size m batch t hst
  have e0 := zeroLoop_eq n k batch s hZ hoh hg
  obtain ⟨oh, e1, f1⟩ := oneHotLoop_spec (α := α) y k (start_idx batch t) (end_idx m batch t)
    (List.replicate (batch * k) 0) hy hlab (by simpa [current_size] using hcsk)
  obtain ⟨Z1, e2, f2⟩ := logitLoop_spec X s.theta (List.replicate (batch * k) 0) n k
    (start_idx batch t) (current_size m batch t) (by rw [hse]; exact hX) hth (by simpa using hcsk)
  have lZ1 : Z1.length = batch * k := by rw [f2.1]; simp
  have loh : oh.length = batch * k := by rw [f1.1]; simp
  obtain ⟨Z2, e3, f3⟩ := softmaxLoop_spec exp oh Z1 k (current_size m batch t)
    (by omega) (by omega)
  have lZ2 : Z2.length = batch * k := by rw [f3.1]; exact lZ1
  obtain ⟨g, e4, f4⟩ := gradLoop_spec X Z2 (List.replicate (n * k) 0) n k (start_idx batch t)
    (current_size m batch t) (by rw [hse]; exact hX) (by omega) (by simp)
  have lg : g.length = n * k := by rw [f4.1]; simp
  obtain ⟨th, e5, f5⟩ := updateLoop_spec g s.theta lr batch n k (by omega) hth
  refine ⟨oh, Z1, Z2, g, th, e0, e1, e2, e3, e4, e5, ?_, ?_, ?_, f3, ?_, f5⟩
  · simp only [batchBody, e0, ok_bind, e1, e2, e3, e4, e5]
    rfl
  · exact (f1.congr (fun idx _ _ => by simp only [peek_replicate])).cast rfl rfl
  · exact f2.congr (fun idx _ _ => by simp only [peek_replicate])
  · exact f4.congr (fun idx _ _ => by simp only [peek_replicate])


/-- One batch iteration in closed form: on size-correct buffers with in-range labels the
iteration does not fault, keeps the buffer sizes, and replaces every cell `idx < n * k` of `theta`
by `theta[idx] - grad * lr / batch`, where `grad` is the closed-form gradient of the batch. -/
theorem batchBody_theta {α : Type} [Zero α] [One α] [Add α] [Sub α] [Mul α] [Div α]
    [NatCast α] (exp : α → α) (X : List α) (y : List Nat) (m n k : Nat) (lr : α)
    (batch t : Nat) (s : Bufs α)
    (hZ : s.Z.length = batch * k) (hoh : s.one_hot.length = batch * k)
    (hg : s.grad.length = n * k) (hth : n * k ≤ s.theta.length)
    (hst : start_idx batch t ≤ m)
    (hX : end_idx m batch t * n ≤ X.length) (hy : end_idx m batch t ≤ y.length)
    (hlab : ∀ i, start_idx batch t ≤ i → i < end_idx m batch t → peek y i < k) :
    ∃ s2, batchBody exp X y m n k lr batch t s = .ok s2 ∧
      s2.Z.length = batch * k ∧ s2.one_hot.length = batch * k ∧ s2.grad.length = n * k ∧
      Fills (fun idx => peek s.theta idx -
          gradAt exp X s.theta y n k (start_idx batch t) (current_size m batch t)
            (idx / k) (idx % k) * lr / (batch : α)) 0 (n * k) s.theta s2.theta := by
  obtain ⟨oh, Z1, Z2, g, th, -, -, -, -, -, -, e, f1, f2, f3, f4, f5⟩ :=
    batchBody_run exp X y m n k lr batch t s hZ hoh hg hth hst hX hy hlab
  refine ⟨_, e, ?_, ?_, ?_, ?_⟩
  · simp only; rw [f3.1, f2.1]; simp
  · simp only; rw [f1.1]; simp
  · simp only; rw [f4.1]; simp
  simp only
  refine f5.congr (fun idx _ hidx => ?_)
  have hk : 0 < k := by
    rcases Nat.eq_zero_or_pos k with h | h
    · subst h; omega
    · exact h
  have hj : idx % k < k := Nat.mod_lt _ hk
  congr 3
  rw [f4.peek_in idx (Nat.zero_le _) hidx]
  unfold gradAt
  apply accum_congr
  intro u hu
  congr 1
  have hcell := cell_lt _ k u (idx % k) hu hj
  rw [f3.peek_in _ (Nat.zero_le _) hcell, f2.peek_in _ (Nat.zero_le _) hcell,
    f1.peek_in _ (Nat.zero_le _) hcell]
  simp only [cell_div k u _ hj, cell_mod k u _ hj]
  unfold residAt logitAt
  rw [Nat.add_comm (start_idx batch t) u]
  congr 2
  · apply accum_congr
    intro c hc
    have hcell2 := cell_lt _ k u c hu hc
    rw [f2.peek_in _ (Nat.zero_le _) hcell2]
    simp only [cell_div k u _ hc, cell_mod k u _ hc]


/-! ## Buffer sizes are preserved, and loops only depend on the cells they read -/

theorem bind_ok_iff {σ τ : Type} (x : Except Fault σ) (f : σ → Except Fault τ) (b : τ) :
    (x >>= f) = .ok b ↔ ∃ a, x = .ok a ∧ f a = .ok b := by
  cases x with
  | error e => simp
  | ok a => simp

theorem forLoop_length {β : Type} (lo cnt : Nat) (body : Nat → List β → Except Fault (List β))
    (hbody : ∀ c b b2, body c b = .ok b2 → b2.length = b.length)
    (buf buf2 : List β) (h : forLoop lo cnt body buf = .ok buf2) : buf2.length = buf.length :=
  forLoop_preserves (fun b => b.length = buf.length) lo cnt body
    (fun _ _ s1 s2 h1 h2 => (hbody _ s1 s2 h2).trans h1) buf buf2 rfl h

theorem oneHotLoop_length {α : Type} [One α] (y : List Nat) (k start endI : Nat)
    (oh oh2 : List α) (h : oneHotLoop y k start endI oh = .ok oh2) : oh2.length = oh.length := by
  refine forLoop_length _ _ _ ?_ oh oh2 h
  intro c b b2 hb
  obtain ⟨yi, -, h2⟩ := (bind_ok_iff _ _ _).mp hb
  exact wr_length _ _ _ _ h2

theorem logitLoop_length {α : Type} [Add α] [Mul α] (X theta : List α) (n k start cs : Nat)
    (Z Z2 : List α) (h : logitLoop X theta n k start cs Z = .ok Z2) : Z2.length = Z.length := by
  refine forLoop_length _ _ _ (fun i b b2 hb => ?_) Z Z2 h
  refine forLoop_length _ _ _ (fun j b3 b4 hb3 => ?_) b b2 hb
  refine forLoop_length _ _ _ (fun u b5 b6 hb5 => ?_) b3 b4 hb3
  obtain ⟨x, -, h2⟩ := (bind_ok_iff _ _ _).mp hb5
  obtain ⟨t, -, h3⟩ := (bind_ok_iff _ _ _).mp h2
  obtain ⟨z, -, h4⟩ := (bind_ok_iff _ _ _).mp h3
  exact wr_length _ _ _ _ h4

theorem gradLoop_length {α : Type} [Add α] [Mul α] (X Z : List α) (n k start cs : Nat)
    (g g2 : List α) (h : gradLoop X Z n k start cs g = .ok g2) : g2.length = g.length := by
  refine forLoop_length _ _ _ (fun i b b2 hb => ?_) g g2 h
  refine forLoop_length _ _ _ (fun j b3 b4 hb3 => ?_) b b2 hb
  refine forLoop_length _ _ _ (fun u b5 b6 hb5 => ?_) b3 b4 hb3
  obtain ⟨x, -, h2⟩ := (bind_ok_iff _ _ _).mp hb5
  obtain ⟨t, -, h3⟩ := (bind_ok_iff _ _ _).mp h2
  obtain ⟨z, -, h4⟩ := (bind_ok_iff _ _ _).mp h3
  exact wr_length _ _ _ _ h4

theorem updateLoop_length {α : Type} [Sub α] [Mul α] [Div α] [NatCast α] (grad : List α)
    (lr : α) (batch n k : Nat) (th th2 : List α)
    (h : updateLoop grad lr batch n k th = .ok th2) : th2.length = th.length := by
  refine forLoop_length _ _ _ (fun i b b2 hb => ?_) th th2 h
  refine forLoop_length _ _ _ (fun j b3 b4 hb3 => ?_) b b2 hb
  obtain ⟨x, -, h2⟩ := (bind_ok_iff _ _ _).mp hb3
  obtain ⟨t, -, h3⟩ := (bind_ok_iff _ _ _).mp h2
  exact wr_length _ _ _ _ h3

theorem softmaxLoop_length {α : Type} [Zero α] [Add α] [Sub α] [Div α] (exp : α → α)
    (one_hot : List α) (k cs : Nat) (Z Z2 : List α)
    (h : softmaxLoop exp one_hot k cs Z = .ok Z2) : Z2.length = Z.length := by
  refine forLoop_length _ _ _ (fun i b b2 hb => ?_) Z Z2 h
  obtain ⟨p, h1, h2⟩ := (bind_ok_iff _ _ _).mp hb
  have l1 : p.1.length = b.length := by
    refine forLoop_preserves (fun q : List α × α => q.1.length = b.length) _ _ _ ?_ _ _ rfl h1
    intro c _ q q2 hq hq2
    obtain ⟨z, -, h3⟩ := (bind_ok_iff _ _ _).mp hq2
    obtain ⟨Z1, h4, h5⟩ := (bind_ok_iff _ _ _).mp h3
    cases h5
    exact (wr_length _ _ _ _ h4).trans hq
  rw [← l1]
  refine forLoop_length _ _ _ (fun j b3 b4 hb3 => ?_) _ _ h2
  obtain ⟨z, -, h3⟩ := (bind_ok_iff _ _ _).mp hb3
  obtain ⟨o, -, h4⟩ := (bind_ok_iff _ _ _).mp h3
  exact wr_length _ _ _ _ h4

/-- A batch iteration that does not fault keeps the size of every buffer. -/
theorem batchBody_sizes {α : Type} [Zero α] [One α] [Add α] [Sub α] [Mul α] [Div α]
    [NatCast α] (exp : α → α) (X : List α) (y : List Nat) (m n k : Nat) (lr : α)
    (batch t : Nat) (s s2 : Bufs α) (hs : Alloc n k batch s)
    (h : batchBody exp X y m n k lr batch t s = .ok s2) :
    Alloc n k batch s2 ∧ s2.theta.length = s.theta.length := by
  unfold batchBody at h
  rw [zeroLoop_eq n k batch s hs.1 hs.2.1 hs.2.2, ok_bind] at h
  obtain ⟨oh, e1, h⟩ := (bind_ok_iff _ _ _).mp h
  obtain ⟨Z1, e2, h⟩ := (bind_ok_iff _ _ _).mp h
  obtain ⟨Z2, e3, h⟩ := (bind_ok_iff _ _ _).mp h
  obtain ⟨g, e4, h⟩ := (bind_ok_iff _ _ _).mp h
  obtain ⟨th, e5, h⟩ := (bind_ok_iff _ _ _).mp h
  cases h
  have a1 := oneHotLoop_length _ _ _ _ _ _ e1
  have a2 := logitLoop_length _ _ _ _ _ _ _ _ e2
  have a3 := softmaxLoop_length _ _ _ _ _ _ e3
  have a4 := gradLoop_length _ _ _ _ _ _ _ _ e4
  have a5 := updateLoop_length _ _ _ _ _ _ _ e5
  simp only [List.length_replicate] at a1 a2 a4
  exact ⟨⟨a3.trans a2, a1, a4⟩, a5⟩

/-- The result of a batch iteration does not depend on what the scratch buffers held. -/
theorem batchBody_scratch {α : Type} [Zero α] [One α] [Add α] [Sub α] [Mul α] [Div α]
    [NatCast α] (exp : α → α) (X : List α) (y : List Nat) (m n k : Nat) (lr : α)
    (batch t : Nat) (s1 s2 : Bufs α) (hth : s1.theta = s2.theta)
    (h1 : Alloc n k batch s1) (h2 : Alloc n k batch s2) :
    batchBody exp X y m n k lr batch t s1 = batchBody exp X y m n k lr batch t s2 := by
  unfold batchBody
  rw [zeroLoop_eq n k batch s1 h1.1 h1.2.1 h1.2.2, zeroLoop_eq n k batch s2 h2.1 h2.2.1 h2.2.2,
    hth]


/-! ## The epoch as a whole -/

theorem peek_mem (y : List Nat) (i : Nat) (h : i < y.length) : peek y i ∈ y := by
  simp only [peek, List.getElem?_eq_getElem h, Option.getD_some]
  exact List.getElem_mem h

theorem alloc_fresh {α : Type} [Zero α] (theta : List α) (n k batch : Nat) :
    Alloc n k batch (Bufs.mk theta (List.replicate (batch * k) 0)
      (List.replicate (batch * k) 0) (List.replicate (n * k) 0)) := by
  simp [Alloc]

theorem numBatches_zero (batch : Nat) (hb : 0 < batch) : numBatches 0 batch = 0 := by
  unfold numBatches
  exact Nat.div_eq_of_lt (by omega)

theorem start_idx_le (m batch t : Nat) (hb : 0 < batch) (ht : t < numBatches m batch) :
    start_idx batch t ≤ m := by
  rcases Nat.eq_zero_or_pos m with h | h
  · subst h; rw [numBatches_zero batch hb] at ht; omega
  · exact Nat.le_of_lt (start_idx_lt m batch t h hb ht)

theorem end_idx_le (m batch t : Nat) : end_idx m batch t ≤ m := by
  simp only [end_idx]; omega

/-- The batch loop on size-correct buffers with in-range labels: it does not fault, keeps all
buffer sizes and leaves the cells of `theta` from `n * k` on untouched. -/
theorem epochLoop_total {α : Type} [Zero α] [One α] [Add α] [Sub α] [Mul α] [Div α]
    [NatCast α] (exp : α → α) (X : List α) (y : List Nat) (m n k : Nat) (lr : α)
    (batch : Nat) (s : Bufs α) (hb : 0 < batch) (hs : Alloc n k batch s)
    (hth : n * k ≤ s.theta.length) (hX : m * n ≤ X.length) (hy : m ≤ y.length)
    (hlab : ∀ i, i < m → peek y i < k) :
    ∃ s2, epochLoop exp X y m n k lr batch s = .ok s2 ∧ Alloc n k batch s2 ∧
      s2.theta.length = s.theta.length ∧
      ∀ idx, n * k ≤ idx → peek s2.theta idx = peek s.theta idx := by
  unfold epochLoop
  rw [if_neg (by omega), Nat.sub_zero]
  apply forLoop_total (fun _ (s1 : Bufs α) => Alloc n k batch s1 ∧
      s1.theta.length = s.theta.length ∧
      ∀ idx, n * k ≤ idx → peek s1.theta idx = peek s.theta idx) 0 (numBatches m batch)
    _ s ⟨hs, rfl, fun _ _ => rfl⟩
  rintro t ht s1 ⟨a1, l1, fr1⟩
  have he := end_idx_le m batch t
  obtain ⟨s2, e2, z2, o2, g2, f2⟩ := batchBody_theta exp X y m n k lr batch t s1
    a1.1 a1.2.1 a1.2.2 (by omega) (start_idx_le m batch t hb ht)
    (le_trans (Nat.mul_le_mul_right _ he) hX) (by omega)
    (fun i _ hi => hlab i (by omega))
  refine ⟨s2, by simpa using e2, ⟨z2, o2, g2⟩, f2.1.trans l1, fun idx hidx => ?_⟩
  rw [f2.peek_out idx (Or.inr hidx), fr1 idx hidx]

theorem epochLoop_sizes {α : Type} [Zero α] [One α] [Add α] [Sub α] [Mul α] [Div α]
    [NatCast α] (exp : α → α) (X : List α) (y : List Nat) (m n k : Nat) (lr : α)
    (batch : Nat) (s s2 : Bufs α) (hs : Alloc n k batch s)
    (h : epochLoop exp X y m n k lr batch s = .ok s2) :
    Alloc n k batch s2 ∧ s2.theta.length = s.theta.length := by
  unfold epochLoop at h
  split at h
  · cases h
  · refine forLoop_preserves
      (fun s1 : Bufs α => Alloc n k batch s1 ∧ s1.theta.length = s.theta.length) _ _ _ ?_
      s s2 ⟨hs, rfl⟩ h
    intro c _ s3 s4 h3 h4
    have := batchBody_sizes exp X y m n k lr batch _ s3 s4 h3.1 h4
    exact ⟨this.1, this.2.trans h3.2⟩

/-- C8. The buffers produced by one batch iteration are a function of `X`, `y`, the `theta` on
entry, `n`, `k`, `lr`, `batch`, `start_idx` and `end_idx` only: two iterations with the same
`start_idx` and `end_idx` that start from the same `theta` and from scratch buffers `Z`, `one_hot`,
`grad` of the allocated sizes but with arbitrary, different contents give the same result (the same
`theta`, and the same fault if any); and a run of the whole routine is a function of its inputs,
so two runs on identical inputs return identical `theta`. -/
theorem batch_result_independent_of_scratch {α : Type} [Zero α] [One α] [Add α] [Sub α]
    [Mul α] [Div α] [NatCast α] (exp : α → α) (X : List α) (y : List Nat) (n k : Nat)
    (lr : α) (batch : Nat) (m1 t1 m2 t2 : Nat) (theta Z1 oh1 g1 Z2 oh2 g2 : List α)
    (hstart : start_idx batch t1 = start_idx batch t2)
    (hend : end_idx m1 batch t1 = end_idx m2 batch t2)
    (hZ1 : Z1.length = batch * k) (hoh1 : oh1.length = batch * k) (hg1 : g1.length = n * k)
    (hZ2 : Z2.length = batch * k) (hoh2 : oh2.length = batch * k) (hg2 : g2.length = n * k) :
    batchBody exp X y m1 n k lr batch t1 (Bufs.mk theta Z1 oh1 g1) =
      batchBody exp X y m2 n k lr batch t2 (Bufs.mk theta Z2 oh2 g2) ∧
    (batchBody exp X y m1 n k lr batch t1 (Bufs.mk theta Z1 oh1 g1)).map Bufs.theta =
      (batchBody exp X y m2 n k lr batch t2 (Bufs.mk theta Z2 oh2 g2)).map Bufs.theta ∧
    ∀ r1 r2 : Except Fault (List α),
      softmax_regression_epoch_cpp exp X y theta m1 n k lr batch = r1 →
      softmax_regression_epoch_cpp exp X y theta m1 n k lr batch = r2 → r1 = r2 := by
  have key : batchBody exp X y m1 n k lr batch t1 (Bufs.mk theta Z1 oh1 g1) =
      batchBody exp X y m2 n k lr batch t2 (Bufs.mk theta Z2 oh2 g2) := by
    rw [batchBody_scratch exp X y m1 n k lr batch t1 (Bufs.mk theta Z1 oh1 g1)
      (Bufs.mk theta Z2 oh2 g2) rfl ⟨hZ1, hoh1, hg1⟩ ⟨hZ2, hoh2, hg2⟩]
    simp only [batchBody, current_size, hstart, hend]
  refine ⟨key, by rw [key], ?_⟩
  intro r1 r2 h1 h2
  exact h1.symm.trans h2

/-- Witness of C8: a first batch entered with all-zero scratch buffers and with scratch
buffers full of stale values. -/
theorem batch_result_independent_of_scratch_witness :
    batchBody (fun x : ℚ => 1 + x) [1, 2] [0, 1] 2 1 2 1 1 0
        (Bufs.mk [0, 0] [0, 0] [0, 0] [0, 0]) =
      batchBody (fun x : ℚ => 1 + x) [1, 2] [0, 1] 2 1 2 1 1 0
        (Bufs.mk [0, 0] [5, -3] [1, 1] [9, 4]) :=
  (batch_result_independent_of_scratch (fun x : ℚ => 1 + x) [1, 2] [0, 1] 1 2 1 1 2 0 2 0
    [0, 0] [0, 0] [0, 0] [0, 0] [5, -3] [1, 1] [9, 4] rfl rfl rfl rfl rfl rfl rfl rfl).1


/-! ## Exact real arithmetic -/

theorem accum_eq_sum {β : Type} [AddCommMonoid β] (f : Nat → β) (init : β) (cnt : Nat) :
    accum f init cnt = init + ∑ u in Finset.range cnt, f u := by
  induction cnt with
  | zero => simp [accum]
  | succ c ih => simp [accum, ih, Finset.sum_range_succ, add_assoc]

theorem logitAt_real (X theta : List ℝ) (n k row j : Nat) :
    logitAt X theta n k row j =
      ∑ u in Finset.range n, peek X (row * n + u) * peek theta (u * k + j) := by
  simp [logitAt, accum_eq_sum]

theorem residAt_real (X theta : List ℝ) (y : List Nat) (n k row j : Nat) :
    residAt Real.exp X theta y n k row j =
      Real.exp (∑ u in Finset.range n, peek X (row * n + u) * peek theta (u * k + j)) /
        (∑ c in Finset.range k,
          Real.exp (∑ u in Finset.range n, peek X (row * n + u) * peek theta (u * k + c)))
        - (if j = peek y row then 1 else 0) := by
  simp [residAt, accum_eq_sum, logitAt_real]

theorem numBatches_one (m batch : Nat) (hm : 0 < m) (hmb : m ≤ batch) :
    numBatches m batch = 1 := by
  unfold numBatches
  exact Nat.div_eq_of_lt_le (by omega) (by omega)

/-- The routine on an input that makes a single batch is one run of the batch body from freshly
allocated scratch buffers. -/
theorem epoch_single_batch {α : Type} [Zero α] [One α] [Add α] [Sub α] [Mul α] [Div α]
    [NatCast α] (exp : α → α) (X : List α) (y : List Nat) (theta : List α) (m n k : Nat)
    (lr : α) (batch : Nat) (hm : 0 < m) (hmb : m ≤ batch) :
    softmax_regression_epoch_cpp exp X y theta m n k lr batch =
      (batchBody exp X y m n k lr batch 0 (Bufs.mk theta (List.replicate (batch * k) 0)
        (List.replicate (batch * k) 0) (List.replicate (n * k) 0))).map Bufs.theta := by
  simp only [softmax_regression_epoch_cpp, epochLoop, numBatches_one m batch hm hmb,
    if_neg (by omega : ¬ batch = 0), Nat.sub_zero, forLoop_succ, forLoop_zero, ok_bind,
    Nat.add_zero]
  cases batchBody exp X y m n k lr batch 0 (Bufs.mk theta (List.replicate (batch * k) 0)
        (List.replicate (batch * k) 0) (List.replicate (n * k) 0)) <;> rfl

/-- Closed form of a single-batch run (`0 < m <= batch`) on a valid input, over any carrier. -/
theorem epoch_single_batch_closed {α : Type} [Zero α] [One α] [Add α] [Sub α] [Mul α]
    [Div α] [NatCast α] (exp : α → α) (X : List α) (y : List Nat) (theta : List α)
    (m n k : Nat) (lr : α) (batch : Nat) (hm : 0 < m) (hmb : m ≤ batch)
    (hX : X.length = m * n) (hy : y.length = m) (hlab : ∀ v, v ∈ y → v < k)
    (hth : theta.length = n * k) :
    ∃ theta2, softmax_regression_epoch_cpp exp X y theta m n k lr batch = .ok theta2 ∧
      theta2.length = n * k ∧
      ∀ p j, p < n → j < k →
        peek theta2 (p * k + j) = peek theta (p * k + j) -
          gradAt exp X theta y n k 0 m p j * lr / (batch : α) := by
  have hs0 : start_idx batch 0 = 0 := by simp [start_idx]
  have he0 : end_idx m batch 0 = m := by simp [end_idx, start_idx]; omega
  have hc0 : current_size m batch 0 = m := by simp [current_size, hs0, he0]
  obtain ⟨s2, e2, -, -, -, f2⟩ := batchBody_theta exp X y m n k lr batch 0
    (Bufs.mk theta (List.replicate (batch * k) 0) (List.replicate (batch * k) 0)
      (List.replicate (n * k) 0)) (by simp) (by simp) (by simp) (Nat.le_of_eq hth.symm)
    (by rw [hs0]; omega) (by rw [he0, hX]) (by rw [he0, hy])
    (fun i _ hi => hlab _ (peek_mem y i (by rw [he0] at hi; omega)))
  refine ⟨s2.theta, ?_, by rw [f2.1, hth], fun p j hp hj => ?_⟩
  · rw [epoch_single_batch exp X y theta m n k lr batch hm hmb, e2]
    rfl
  · rw [f2.peek_in _ (Nat.zero_le _) (cell_lt n k p j hp hj)]
    simp only [cell_div k p j hj, cell_mod k p j hj, hs0, hc0]

/-! ## The update as a gradient step -/

theorem crossEntropy_real (x theta : List ℝ) (n k yv : Nat) :
    crossEntropy Real.exp Real.log x theta n k yv =
      -Real.log (Real.exp (∑ u in Finset.range n, peek x u * peek theta (u * k + yv)) /
        ∑ c in Finset.range k,
          Real.exp (∑ u in Finset.range n, peek x u * peek theta (u * k + c))) := by
  simp [crossEntropy, logitAt_real, accum_eq_sum]

theorem residAt_single (x theta : List ℝ) (n k yv j : Nat) :
    residAt Real.exp x theta [yv] n k 0 j =
      Real.exp (∑ u in Finset.range n, peek x u * peek theta (u * k + j)) /
        (∑ c in Finset.range k,
          Real.exp (∑ u in Finset.range n, peek x u * peek theta (u * k + c)))
        - (if j = yv then 1 else 0) := by
  rw [residAt_real]
  simp [peek]

theorem hasDerivAt_softmax_loss (zf : ℕ → ℝ → ℝ) (w : ℕ → ℝ) (k yv : ℕ) (e0 : ℝ)
    (hy : yv < k) (hz : ∀ c, c < k → HasDerivAt (zf c) (w c) e0) :
    HasDerivAt
      (fun e => -Real.log (Real.exp (zf yv e) / ∑ c in Finset.range k, Real.exp (zf c e)))
      (∑ c in Finset.range k,
        (Real.exp (zf c e0) / (∑ c2 in Finset.range k, Real.exp (zf c2 e0))
          - (if c = yv then 1 else 0)) * w c) e0 := by
  have hS : ∀ e, 0 < ∑ c in Finset.range k, Real.exp (zf c e) := fun e =>
    Finset.sum_pos (fun _ _ => Real.exp_pos _) ⟨yv, Finset.mem_range.2 hy⟩
  have hf : (fun e => -Real.log (Real.exp (zf yv e) / ∑ c in Finset.range k, Real.exp (zf c e)))
      = fun e => Real.log (∑ c in Finset.range k, Real.exp (zf c e)) - zf yv e := by
    funext e
    rw [Real.log_div (Real.exp_ne_zero _) (hS e).ne', Real.log_exp]
    ring
  rw [hf]
  have hSd : HasDerivAt (fun e => ∑ c in Finset.range k, Real.exp (zf c e))
      (∑ c in Finset.range k, Real.exp (zf c e0) * w c) e0 :=
    HasDerivAt.sum (fun c hc => (hz c (Finset.mem_range.1 hc)).exp)
  have h := (hSd.log (hS e0).ne').sub (hz yv hy)
  convert h using 1
  simp only [sub_mul, Finset.sum_sub_distrib, ite_mul, one_mul, zero_mul, Finset.sum_ite_eq',
    Finset.sum_ite_eq, Finset.mem_range, hy, if_true, Finset.sum_div, div_mul_eq_mul_div]

/-- Chain rule for the loss along a differentiable path of parameter buffers `P`: the derivative
is the sum over `(p, j)` of `x[p] * residual[j]` times the derivative of cell `(p, j)`. -/
theorem hasDerivAt_crossEntropy_path (x : List ℝ) (P : ℝ → List ℝ) (D : ℕ → ℝ)
    (n k yv : ℕ) (e0 : ℝ) (hy : yv < k)
    (hP : ∀ p j, p < n → j < k → HasDerivAt (fun e => peek (P e) (p * k + j)) (D (p * k + j)) e0) :
    HasDerivAt (fun e => crossEntropy Real.exp Real.log x (P e) n k yv)
      (∑ p in Finset.range n, ∑ j in Finset.range k,
        (peek x p * residAt Real.exp x (P e0) [yv] n k 0 j) * D (p * k + j)) e0 := by
  have hz : ∀ c, c < k → HasDerivAt
      (fun e => ∑ u in Finset.range n, peek x u * peek (P e) (u * k + c))
      (∑ u in Finset.range n, peek x u * D (u * k + c)) e0 := fun c hc =>
    HasDerivAt.sum (fun u hu => (hP u c (Finset.mem_range.1 hu) hc).const_mul (peek x u))
  have h := hasDerivAt_softmax_loss
    (fun c e => ∑ u in Finset.range n, peek x u * peek (P e) (u * k + c))
    (fun c => ∑ u in Finset.range n, peek x u * D (u * k + c)) k yv e0 hy hz
  have hf : (fun e => crossEntropy Real.exp Real.log x (P e) n k yv) = fun e =>
      -Real.log (Real.exp (∑ u in Finset.range n, peek x u * peek (P e) (u * k + yv)) /
        ∑ c in Finset.range k,
          Real.exp (∑ u in Finset.range n, peek x u * peek (P e) (u * k + c))) := by
    funext e
    exact crossEntropy_real x (P e) n k yv
  rw [hf]
  convert h using 1
  rw [Finset.sum_comm]
  refine Finset.sum_congr rfl (fun c _ => ?_)
  rw [Finset.mul_sum]
  refine Finset.sum_congr rfl (fun u _ => ?_)
  rw [residAt_single]
  ring

theorem cell_inj (k p j p0 j0 : Nat) (hj : j < k) (hj0 : j0 < k)
    (h : p * k + j = p0 * k + j0) : p = p0 ∧ j = j0 := by
  have h1 := cell_div k p j hj
  have h2 := cell_mod k p j hj
  rw [h, cell_div k p0 j0 hj0] at h1
  rw [h, cell_mod k p0 j0 hj0] at h2
  exact ⟨h1.symm, h2.symm⟩

theorem set_peek_self {β : Type} [Zero β] (a : List β) (i : Nat) : a.set i (peek a i) = a := by
  apply list_ext_peek _ _ (by simp)
  intro idx _
  by_cases c : i = idx
  · subst c
    by_cases h : i < a.length
    · rw [peek_set_self _ _ _ h]
    · rw [peek_oob _ _ (by simp; omega), peek_oob _ _ (by omega)]
  · rw [peek_set_ne _ _ _ _ c]

theorem peek_zipWith (f : ℝ → ℝ → ℝ) (a b : List ℝ) (i : Nat) (ha : i < a.length)
    (hb : i < b.length) : peek (List.zipWith f a b) i = f (peek a i) (peek b i) := by
  simp [peek, List.getElem?_zipWith, List.getElem?_eq_getElem ha, List.getElem?_eq_getElem hb]


/-- C7. Single example, single batch (`batch = m = 1`), `n, k > 0`, label `yv < k`, `lr > 0`,
exact real arithmetic.  The routine returns `theta2`, and there is a matrix `G` such that
`G p j` is the partial derivative of the cross-entropy loss `L` with respect to `theta[p][j]` at
`theta` (so `G` is the gradient of `L`), `theta2 - theta = -lr * G` entry by entry, and the
derivative at `0` of `L` along the segment from `theta` towards `theta2` (the first-order change
of `L` along the update) is `-lr * ||G||^2`, which is `<= 0`. -/
theorem gradient_direction (x : List ℝ) (yv : Nat) (theta : List ℝ) (n k : Nat) (lr : ℝ)
    (_hn : 0 < n) (_hk : 0 < k) (hy : yv < k) (hlr : 0 < lr)
    (hx : x.length = n) (hth : theta.length = n * k) :
    ∃ (theta2 : List ℝ) (G : Nat → Nat → ℝ),
      softmax_regression_epoch_cpp Real.exp x [yv] theta 1 n k lr 1 = .ok theta2 ∧
      theta2.length = n * k ∧
      (∀ p j, p < n → j < k →
        HasDerivAt (fun v => crossEntropy Real.exp Real.log x (theta.set (p * k + j) v) n k yv)
          (G p j) (peek theta (p * k + j))) ∧
      (∀ p j, p < n → j < k →
        peek theta2 (p * k + j) - peek theta (p * k + j) = -lr * G p j) ∧
      HasDerivAt (fun e => crossEntropy Real.exp Real.log x
          (List.zipWith (fun a b => a + e * (b - a)) theta theta2) n k yv)
        (-lr * ∑ p in Finset.range n, ∑ j in Finset.range k, G p j ^ 2) 0 ∧
      -lr * ∑ p in Finset.range n, ∑ j in Finset.range k, G p j ^ 2 ≤ 0 := by
  obtain ⟨theta2, e2, l2, f2⟩ := epoch_single_batch_closed Real.exp x [yv] theta 1 n k lr 1
    (by decide) (by decide) (by simpa using hx) rfl (by simpa using hy) hth
  have hupd : ∀ p j, p < n → j < k → peek theta2 (p * k + j) - peek theta (p * k + j) =
      -lr * (peek x p * residAt Real.exp x theta [yv] n k 0 j) := by
    intro p j hp hj
    rw [f2 p j hp hj]
    simp [gradAt, accum]
    ring
  refine ⟨theta2, fun p j => peek x p * residAt Real.exp x theta [yv] n k 0 j, e2, l2,
    ?_, hupd, ?_, ?_⟩
  · intro p0 j0 hp0 hj0
    have hcell : p0 * k + j0 < theta.length := by
      rw [hth]; exact cell_lt n k p0 j0 hp0 hj0
    have h := hasDerivAt_crossEntropy_path x (fun v => theta.set (p0 * k + j0) v)
      (fun idx => if idx = p0 * k + j0 then 1 else 0) n k yv (peek theta (p0 * k + j0)) hy ?_
    · simp only [set_peek_self] at h
      convert h using 1
      rw [Finset.sum_eq_single p0, Finset.sum_eq_single j0]
      · simp
      · intro j _ hne
        have : p0 * k + j ≠ p0 * k + j0 := by omega
        simp [this]
      · intro hnot
        exact absurd (Finset.mem_range.2 hj0) hnot
      · intro p _ hne
        refine Finset.sum_eq_zero (fun j hj => ?_)
        have : p * k + j ≠ p0 * k + j0 := fun h =>
          hne (cell_inj k p j p0 j0 (Finset.mem_range.1 hj) hj0 h).1
        simp [this]
      · intro hnot
        exact absurd (Finset.mem_range.2 hp0) hnot
    · intro p j _ _
      simp only
      by_cases c : p * k + j = p0 * k + j0
      · rw [if_pos c, c]
        have : (fun v : ℝ => peek (theta.set (p0 * k + j0) v) (p0 * k + j0)) = fun v => v := by
          funext v
          exact peek_set_self _ _ _ hcell
        rw [this]
        exact hasDerivAt_id _
      · rw [if_neg c]
        have : (fun v : ℝ => peek (theta.set (p0 * k + j0) v) (p * k + j)) =
            fun _ => peek theta (p * k + j) := by
          funext v
          exact peek_set_ne _ _ _ _ (Ne.symm c)
        rw [this]
        exact hasDerivAt_const _ _
  · have hP0 : List.zipWith (fun a b => a + (0 : ℝ) * (b - a)) theta theta2 = theta := by
      apply list_ext_peek _ _ (by simp [l2, hth])
      intro i hi
      simp only [List.length_zipWith, l2, hth, Nat.min_self] at hi
      rw [peek_zipWith _ _ _ _ (by omega) (by omega)]
      ring
    have h := hasDerivAt_crossEntropy_path x
      (fun e => List.zipWith (fun a b => a + e * (b - a)) theta theta2)
      (fun idx => peek theta2 idx - peek theta idx) n k yv 0 hy ?_
    · simp only [hP0] at h
      convert h using 1
      rw [Finset.mul_sum]
      refine Finset.sum_congr rfl (fun p hp => ?_)
      rw [Finset.mul_sum]
      refine Finset.sum_congr rfl (fun j hj => ?_)
      rw [hupd p j (Finset.mem_range.1 hp) (Finset.mem_range.1 hj)]
      ring
    · intro p j hp hj
      simp only
      have hcell : p * k + j < n * k := cell_lt n k p j hp hj
      have : (fun e : ℝ => peek (List.zipWith (fun a b => a + e * (b - a)) theta theta2)
          (p * k + j)) = fun e => peek theta (p * k + j) +
            e * (peek theta2 (p * k + j) - peek theta (p * k + j)) := by
        funext e
        exact peek_zipWith _ _ _ _ (by omega) (by omega)
      rw [this]
      have hd := ((hasDerivAt_id (0 : ℝ)).mul_const
        (peek theta2 (p * k + j) - peek theta (p * k + j))).const_add (peek theta (p * k + j))
      simpa using hd
  · have hs : 0 ≤ ∑ p in Finset.range n, ∑ j in Finset.range k,
        (peek x p * residAt Real.exp x theta [yv] n k 0 j) ^ 2 :=
      Finset.sum_nonneg (fun p _ => Finset.sum_nonneg (fun j _ => sq_nonneg _))
    have := mul_nonneg hlr.le hs
    linarith

/-- Witness of C7: one feature, two classes, example `x = [3]` with label `1`. -/
theorem gradient_direction_witness :
    ∃ (theta2 : List ℝ) (G : Nat → Nat → ℝ),
      softmax_regression_epoch_cpp Real.exp [3] [1] [0, 0] 1 1 2 (1 / 2) 1 = .ok theta2 ∧
      theta2.length = 1 * 2 ∧
      (∀ p j, p < 1 → j < 2 →
        HasDerivAt (fun v => crossEntropy Real.exp Real.log [3]
            (([0, 0] : List ℝ).set (p * 2 + j) v) 1 2 1)
          (G p j) (peek [(0 : ℝ), 0] (p * 2 + j))) ∧
      (∀ p j, p < 1 → j < 2 →
        peek theta2 (p * 2 + j) - peek [(0 : ℝ), 0] (p * 2 + j) = -(1 / 2) * G p j) ∧
      HasDerivAt (fun e => crossEntropy Real.exp Real.log [3]
          (List.zipWith (fun a b => a + e * (b - a)) [0, 0] theta2) 1 2 1)
        (-(1 / 2) * ∑ p in Finset.range 1, ∑ j in Finset.range 2, G p j ^ 2) 0 ∧
      -(1 / 2) * ∑ p in Finset.range 1, ∑ j in Finset.range 2, G p j ^ 2 ≤ 0 :=
  gradient_direction [3] 1 [0, 0] 1 2 (1 / 2) (by decide) (by decide) (by decide)
    (by norm_num) rfl rfl


/-! ## The one-hot write for a label that is out of range -/

/-- C6, refuted as stated: with `m = 2`, `n = 1`, `k = 2`, `batch = 2` and labels `y = [2, 0]`
the label of example `0` is out of range, yet its one-hot write goes to index
`(0 - 0) * 2 + 2 = 2 < 4 = batch * k`: it is inside the buffer (in row `1`), the one-hot loop does
not fault, and the whole routine returns.  Hence it is false that every out-of-range label gives
a write index `>= batch * k`. -/
theorem one_hot_write_counterexample :
    (¬ ∀ (y : List Nat) (m k batch t i : Nat), 0 < m → 0 < k → 0 < batch → batch ≤ m →
        y.length = m → t < numBatches m batch → start_idx batch t ≤ i → i < end_idx m batch t →
        k ≤ peek y i → batch * k ≤ (i - start_idx batch t) * k + peek y i) ∧
    (0 - start_idx 2 0) * 2 + peek [2, 0] 0 = 2 ∧
    oneHotCell (α := ℤ) [2, 0] 2 (start_idx 2 0) 0 (List.replicate (2 * 2) 0)
      = .ok [0, 0, 1, 0] ∧
    oneHotLoop (α := ℤ) [2, 0] 2 (start_idx 2 0) (end_idx 2 2 0) (List.replicate (2 * 2) 0)
      = .ok [0, 0, 1, 0] ∧
    ∃ th, softmax_regression_epoch_cpp (fun x : ℚ => 1 + x) [1, 2] [2, 0] [0, 0] 2 1 2 1 2
      = .ok th := by
  refine ⟨fun h => ?_, by decide, rfl, rfl, ⟨_, rfl⟩⟩
  have h2 := h [2, 0] 2 2 2 0 0 (by decide) (by decide) (by decide) (by decide) rfl
    (by decide) (by decide) (by decide) (by decide)
  revert h2
  decide

/-- C6, amended.  On an otherwise valid input, if example `i` of batch `t` has `y[i] >= k`, then
the index `(i - start_idx) * k + y[i]` of its one-hot write lies beyond row `i - start_idx` (it is
`>= (i - start_idx + 1) * k`); the write is out of bounds of the `batch * k` buffer, and faults,
exactly when that index is `>= batch * k`; this is always so when `i` is the last row of a full
batch (`i - start_idx = batch - 1`). -/
theorem one_hot_write_out_of_row {α : Type} [One α] (y : List Nat) (m k batch t i : Nat)
    (one_hot : List α) (_hm : 0 < m) (_hk : 0 < k) (hb : 0 < batch) (_hbm : batch ≤ m)
    (hy : y.length = m) (hoh : one_hot.length = batch * k)
    (_hi1 : start_idx batch t ≤ i) (hi2 : i < end_idx m batch t) (hlab : k ≤ peek y i) :
    (i - start_idx batch t + 1) * k ≤ (i - start_idx batch t) * k + peek y i ∧
    (oneHotCell y k (start_idx batch t) i one_hot = .error .oob ↔
      batch * k ≤ (i - start_idx batch t) * k + peek y i) ∧
    (oneHotCell y k (start_idx batch t) i one_hot =
        .ok (one_hot.set ((i - start_idx batch t) * k + peek y i) 1) ↔
      (i - start_idx batch t) * k + peek y i < batch * k) ∧
    (i - start_idx batch t = batch - 1 →
      batch * k ≤ (i - start_idx batch t) * k + peek y i) := by
  have hiy : i < y.length := by
    have := end_idx_le m batch t
    omega
  have hrow : (i - start_idx batch t + 1) * k ≤ (i - start_idx batch t) * k + peek y i := by
    rw [Nat.succ_mul]; omega
  refine ⟨hrow, ?_, ?_, ?_⟩
  · simp only [oneHotCell, rd_ok y i hiy, ok_bind, wr, hoh]
    split <;> simp <;> omega
  · simp only [oneHotCell, rd_ok y i hiy, ok_bind, wr, hoh]
    split <;> simp <;> omega
  · intro hlast
    have : i - start_idx batch t + 1 = batch := by omega
    rw [this] at hrow
    exact hrow

/-- Witness of C6 (amended): `k = 2`, `batch = 1`, labels `[2, 0]`; the write of example `0`
faults. -/
theorem one_hot_write_out_of_row_witness :
    oneHotCell (α := ℤ) [2, 0] 2 (start_idx 1 0) 0 [0, 0] = .error .oob ↔
      1 * 2 ≤ (0 - start_idx 1 0) * 2 + peek [2, 0] 0 :=
  (one_hot_write_out_of_row (α := ℤ) [2, 0] 2 2 1 0 0 [0, 0] (by decide) (by decide) (by decide)
    (by decide) rfl rfl (by decide) (by decide) (by decide)).2.1

/-! ## The softmax step -/

/-- C10. Exact real arithmetic.  (1) On any `Z` and `one_hot` of `batch * k` cells and any
`cs <= batch`, the softmax loop does not fault and leaves, for `i < cs` and `j < k`,
`Z[i][j] = exp(z i j) / (sum over c < k of exp(z i c)) - one_hot[i][j]` with `z` the content of `Z`
before the loop, while the rows `cs <= i < batch` are unchanged.  (2) In a batch iteration on a
valid input, where `Z` holds the logits when the loop starts, the rows `cs <= i < batch` are zero
after the loop. -/
theorem softmax_residual_step (X : List ℝ) (y : List Nat) (m n k : Nat) (lr : ℝ)
    (batch t : Nat) (s : Bufs ℝ)
    (hZ : s.Z.length = batch * k) (hoh : s.one_hot.length = batch * k)
    (hg : s.grad.length = n * k) (hth : n * k ≤ s.theta.length)
    (hst : start_idx batch t ≤ m)
    (hX : end_idx m batch t * n ≤ X.length) (hy : end_idx m batch t ≤ y.length)
    (hlab : ∀ i, start_idx batch t ≤ i → i < end_idx m batch t → peek y i < k) :
    (∀ (Zin ohin : List ℝ) (cs : Nat), Zin.length = batch * k → ohin.length = batch * k →
      cs ≤ batch →
      ∃ Zout, softmaxLoop Real.exp ohin k cs Zin = .ok Zout ∧ Zout.length = batch * k ∧
        (∀ i j, i < cs → j < k → peek Zout (i * k + j) =
          Real.exp (peek Zin (i * k + j)) /
            (∑ c in Finset.range k, Real.exp (peek Zin (i * k + c))) - peek ohin (i * k + j)) ∧
        (∀ i j, cs ≤ i → i < batch → j < k → peek Zout (i * k + j) = peek Zin (i * k + j))) ∧
    ∃ oh Z1 Z2 g th,
      oneHotLoop y k (start_idx batch t) (end_idx m batch t) (List.replicate (batch * k) 0)
        = .ok oh ∧
      logitLoop X s.theta n k (start_idx batch t) (current_size m batch t)
        (List.replicate (batch * k) 0) = .ok Z1 ∧
      softmaxLoop Real.exp oh k (current_size m batch t) Z1 = .ok Z2 ∧
      batchBody Real.exp X y m n k lr batch t s = .ok (Bufs.mk th Z2 oh g) ∧
      (∀ i j, i < current_size m batch t → j < k → peek Z2 (i * k + j) =
        Real.exp (peek Z1 (i * k + j)) /
          (∑ c in Finset.range k, Real.exp (peek Z1 (i * k + c))) - peek oh (i * k + j)) ∧
      (∀ i j, current_size m batch t ≤ i → i < batch → j < k → peek Z2 (i * k + j) = 0) := by
  have gen : ∀ (Zin ohin : List ℝ) (cs : Nat), Zin.length = batch * k →
      ohin.length = batch * k → cs ≤ batch →
      ∃ Zout, softmaxLoop Real.exp ohin k cs Zin = .ok Zout ∧ Zout.length = batch * k ∧
        (∀ i j, i < cs → j < k → peek Zout (i * k + j) =
          Real.exp (peek Zin (i * k + j)) /
            (∑ c in Finset.range k, Real.exp (peek Zin (i * k + c))) - peek ohin (i * k + j)) ∧
        (∀ i j, cs ≤ i → i < batch → j < k → peek Zout (i * k + j) = peek Zin (i * k + j)) := by
    intro Zin ohin cs h1 h2 h3
    have hcsk : cs * k ≤ batch * k := Nat.mul_le_mul_right _ h3
    obtain ⟨Zout, e, f⟩ := softmaxLoop_spec Real.exp ohin Zin k cs (by omega) (by omega)
    refine ⟨Zout, e, f.1.trans h1, fun i j hi hj => ?_, fun i j hi _ hj => ?_⟩
    · rw [f.peek_in _ (Nat.zero_le _) (cell_lt cs k i j hi hj)]
      simp only [cell_div k i j hj, accum_eq_sum, zero_add]
    · have : cs * k ≤ i * k := Nat.mul_le_mul_right _ hi
      rw [f.peek_out _ (Or.inr (by omega))]
  refine ⟨gen, ?_⟩
  obtain ⟨oh, Z1, Z2, g, th, -, e1, e2, e3, -, -, e, -, f2, f3, -, -⟩ :=
    batchBody_run Real.exp X y m n k lr batch t s hZ hoh hg hth hst hX hy hlab
  refine ⟨oh, Z1, Z2, g, th, e1, e2, e3, e, fun i j hi hj => ?_, fun i j hi _ hj => ?_⟩
  · rw [f3.peek_in _ (Nat.zero_le _) (cell_lt _ k i j hi hj)]
    simp only [cell_div k i j hj, accum_eq_sum, zero_add]
  · have : current_size m batch t * k ≤ i * k := Nat.mul_le_mul_right _ hi
    rw [f3.peek_out _ (Or.inr (by omega)), f2.peek_out _ (Or.inr (by omega)), peek_replicate]

/-- Witness of C10: the ragged last batch (`t = 2`) of `m = 5`, `batch = 2`, with one feature and
two classes; row `1` of `Z` is beyond the occupancy of the batch. -/
theorem softmax_residual_step_witness :
    ∃ oh Z1 Z2 g th,
      oneHotLoop [0, 1, 1, 0, 1] 2 (start_idx 2 2) (end_idx 5 2 2) (List.replicate (2 * 2) 0)
        = .ok oh ∧
      logitLoop [1, 2, 3, 4, 5] [0, 0] 1 2 (start_idx 2 2) (current_size 5 2 2)
        (List.replicate (2 * 2) 0) = .ok Z1 ∧
      softmaxLoop Real.exp oh 2 (current_size 5 2 2) Z1 = .ok Z2 ∧
      batchBody Real.exp [1, 2, 3, 4, 5] [0, 1, 1, 0, 1] 5 1 2 1 2 2
        (Bufs.mk [0, 0] [9, 9, 9, 9] [9, 9, 9, 9] [9, 9]) = .ok (Bufs.mk th Z2 oh g) ∧
      (∀ i j, i < current_size 5 2 2 → j < 2 → peek Z2 (i * 2 + j) =
        Real.exp (peek Z1 (i * 2 + j)) /
          (∑ c in Finset.range 2, Real.exp (peek Z1 (i * 2 + c))) - peek oh (i * 2 + j)) ∧
      (∀ i j, current_size 5 2 2 ≤ i → i < 2 → j < 2 → peek Z2 (i * 2 + j) = 0) :=
  (softmax_residual_step [1, 2, 3, 4, 5] [0, 1, 1, 0, 1] 5 1 2 1 2 2
    (Bufs.mk [0, 0] [9, 9, 9, 9] [9, 9, 9, 9] [9, 9]) rfl rfl rfl (by decide) (by decide)
    (by decide) (by decide)
    (by
      intro i h1 h2
      have h3 : i = 4 := by
        simp only [start_idx, end_idx] at h1 h2
        omega
      subst h3
      decide)).2


/-! ## Sequential composition of batches -/

theorem forLoop_ext {σ : Type} (lo1 lo2 cnt : Nat) (body1 body2 : Nat → σ → Except Fault σ)
    (heq : ∀ c, c < cnt → ∀ s1, body1 (lo1 + c) s1 = body2 (lo2 + c) s1) (s : σ) :
    forLoop lo1 cnt body1 s = forLoop lo2 cnt body2 s :=
  forLoop_congr (fun _ => True) lo1 lo2 cnt body1 body2 (fun c hc s1 _ => heq c hc s1)
    (fun _ _ _ _ _ _ => trivial) s trivial

/-- Simulation rule: loops whose bodies take related states to alike outcomes have alike
outcomes. -/
theorem forLoop_sim {σ : Type} (R : σ → σ → Prop) (lo1 lo2 cnt : Nat)
    (body1 body2 : Nat → σ → Except Fault σ)
    (hstep : ∀ c, c < cnt → ∀ a b, R a b → ExRel R (body1 (lo1 + c) a) (body2 (lo2 + c) b))
    (a b : σ) (h0 : R a b) :
    ExRel R (forLoop lo1 cnt body1 a) (forLoop lo2 cnt body2 b) := by
  induction cnt with
  | zero => exact Or.inr ⟨a, b, rfl, rfl, h0⟩
  | succ c ih =>
    rw [forLoop_succ, forLoop_succ]
    rcases ih (fun c1 hc1 => hstep c1 (Nat.lt_succ_of_lt hc1)) with ⟨e, h1, h2⟩ | ⟨a1, b1, h1, h2, hr⟩
    · rw [h1, h2]
      exact Or.inl ⟨e, rfl, rfl⟩
    · rw [h1, h2]
      exact hstep c (Nat.lt_succ_self c) a1 b1 hr

theorem rd_take {β : Type} (buf : List β) (len i : Nat) (h : i < len) :
    rd (buf.take len) i = rd buf i := by
  simp [rd, List.getElem?_take, h]

theorem rd_drop {β : Type} (buf : List β) (len i : Nat) :
    rd (buf.drop len) i = rd buf (len + i) := by
  simp [rd, List.getElem?_drop]

theorem logitLoop_congr {α : Type} [Add α] [Mul α] (X X2 theta : List α)
    (n k start start2 cs : Nat) (Z : List α)
    (h : ∀ i u, i < cs → u < n → rd X ((i + start) * n + u) = rd X2 ((i + start2) * n + u)) :
    logitLoop X theta n k start cs Z = logitLoop X2 theta n k start2 cs Z := by
  unfold logitLoop
  simp only [Nat.sub_zero]
  refine forLoop_ext _ _ _ _ _ (fun i hi b => ?_) Z
  refine forLoop_ext _ _ _ _ _ (fun j _ b2 => ?_) b
  refine forLoop_ext _ _ _ _ _ (fun u hu b3 => ?_) b2
  simp only [Nat.zero_add, logitCell, h i u hi hu]

theorem gradLoop_congr {α : Type} [Add α] [Mul α] (X X2 Z : List α)
    (n k start start2 cs : Nat) (g : List α)
    (h : ∀ u i, u < cs → i < n → rd X ((u + start) * n + i) = rd X2 ((u + start2) * n + i)) :
    gradLoop X Z n k start cs g = gradLoop X2 Z n k start2 cs g := by
  unfold gradLoop
  simp only [Nat.sub_zero]
  refine forLoop_ext _ _ _ _ _ (fun i hi b => ?_) g
  refine forLoop_ext _ _ _ _ _ (fun j _ b2 => ?_) b
  refine forLoop_ext _ _ _ _ _ (fun u hu b3 => ?_) b2
  simp only [Nat.zero_add, gradCell, h u i hu hi]

theorem oneHotLoop_congr {α : Type} [One α] (y y2 : List Nat) (k start start2 endI endI2 : Nat)
    (oh : List α) (hcnt : endI - start = endI2 - start2)
    (h : ∀ c, c < endI - start → rd y (start + c) = rd y2 (start2 + c)) :
    oneHotLoop y k start endI oh = oneHotLoop y2 k start2 endI2 oh := by
  unfold oneHotLoop
  rw [← hcnt]
  refine forLoop_ext _ _ _ _ _ (fun c hc b => ?_) oh
  simp only [oneHotCell, h c hc, Nat.add_sub_cancel_left]

/-- Two batch iterations that read the same data give the same result. -/
theorem batchBody_congr {α : Type} [Zero α] [One α] [Add α] [Sub α] [Mul α] [Div α]
    [NatCast α] (exp : α → α) (X X2 : List α) (y y2 : List Nat) (m m2 n k : Nat) (lr : α)
    (batch t t2 : Nat) (s : Bufs α)
    (hcs : current_size m batch t = current_size m2 batch t2)
    (hX : ∀ i u, i < current_size m batch t → u < n →
      rd X ((i + start_idx batch t) * n + u) = rd X2 ((i + start_idx batch t2) * n + u))
    (hy : ∀ c, c < current_size m batch t →
      rd y (start_idx batch t + c) = rd y2 (start_idx batch t2 + c)) :
    batchBody exp X y m n k lr batch t s = batchBody exp X2 y2 m2 n k lr batch t2 s := by
  have h1 : ∀ oh : List α, oneHotLoop y k (start_idx batch t) (end_idx m batch t) oh =
      oneHotLoop y2 k (start_idx batch t2) (end_idx m2 batch t2) oh := fun oh =>
    oneHotLoop_congr y y2 k _ _ _ _ oh hcs hy
  have h2 : ∀ theta Z : List α,
      logitLoop X theta n k (start_idx batch t) (current_size m batch t) Z =
        logitLoop X2 theta n k (start_idx batch t2) (current_size m batch t) Z := fun theta Z =>
    logitLoop_congr X X2 theta n k _ _ _ Z hX
  have h3 : ∀ Z g : List α,
      gradLoop X Z n k (start_idx batch t) (current_size m batch t) g =
        gradLoop X2 Z n k (start_idx batch t2) (current_size m batch t) g := fun Z g =>
    gradLoop_congr X X2 Z n k _ _ _ g (fun u i hu hi => hX u i hu hi)
  unfold batchBody
  simp only [h1, h2, h3]
  simp only [hcs]

theorem numBatches_mul (q batch : Nat) (hb : 0 < batch) : numBatches (q * batch) batch = q := by
  unfold numBatches
  apply Nat.div_eq_of_lt_le
  · omega
  · rw [Nat.succ_mul]; omega

theorem numBatches_add_mul (q r batch : Nat) (hb : 0 < batch) :
    numBatches (q * batch + r) batch = q + numBatches r batch := by
  unfold numBatches
  have : q * batch + r + batch - 1 = r + batch - 1 + q * batch := by omega
  rw [this, Nat.add_mul_div_right _ _ hb, Nat.add_comm]


/-- The batch loop over `q * batch + r` examples is the batch loop over the first
`q * batch` examples followed, on the buffers it leaves, by the batch loop over the remaining
`r` examples. -/
theorem epochLoop_split {α : Type} [Zero α] [One α] [Add α] [Sub α] [Mul α] [Div α]
    [NatCast α] (exp : α → α) (X X1 : List α) (y y1 : List Nat) (q r n k : Nat) (lr : α)
    (batch : Nat) (s : Bufs α) (hb : 0 < batch)
    (hX1 : ∀ idx, idx < q * batch * n → rd X idx = rd X1 idx)
    (hy1 : ∀ i, i < q * batch → rd y i = rd y1 i) :
    epochLoop exp X y (q * batch + r) n k lr batch s =
      epochLoop exp X1 y1 (q * batch) n k lr batch s >>= fun s1 =>
        epochLoop exp (X.drop (q * batch * n)) (y.drop (q * batch)) r n k lr batch s1 := by
  unfold epochLoop
  simp only [if_neg (by omega : ¬ batch = 0), Nat.sub_zero, numBatches_add_mul q r batch hb,
    numBatches_mul q batch hb, forLoop_add]
  have hfirst : forLoop 0 q (fun t s1 => batchBody exp X y (q * batch + r) n k lr batch t s1) s =
      forLoop 0 q (fun t s1 => batchBody exp X1 y1 (q * batch) n k lr batch t s1) s := by
    refine forLoop_ext _ _ _ _ _ (fun t ht s1 => ?_) s
    simp only [Nat.zero_add]
    have hle : (t + 1) * batch ≤ q * batch := Nat.mul_le_mul_right _ ht
    rw [Nat.succ_mul] at hle
    have hcs : current_size (q * batch + r) batch t = batch := by
      simp only [current_size, end_idx, start_idx]; omega
    have hcs1 : current_size (q * batch) batch t = batch := by
      simp only [current_size, end_idx, start_idx]; omega
    refine batchBody_congr exp X X1 y y1 _ _ n k lr batch t t s1 (hcs.trans hcs1.symm) ?_ ?_
    · intro i u hi hu
      apply hX1
      rw [hcs] at hi
      have : i + start_idx batch t < q * batch := by simp only [start_idx]; omega
      exact cell_lt _ n _ u this hu
    · intro c hc
      apply hy1
      rw [hcs] at hc
      simp only [start_idx]; omega
  rw [hfirst]
  cases forLoop 0 q (fun t s1 => batchBody exp X1 y1 (q * batch) n k lr batch t s1) s with
  | error e => rfl
  | ok s1 =>
    simp only [ok_bind]
    refine forLoop_ext _ _ _ _ _ (fun c _ s2 => ?_) s1
    simp only [Nat.zero_add]
    have hst : start_idx batch (q + c) = q * batch + start_idx batch c := by
      simp only [start_idx, Nat.add_mul]
    have hcs : current_size (q * batch + r) batch (q + c) = current_size r batch c := by
      simp only [current_size, end_idx, hst]
      omega
    refine batchBody_congr exp X _ y _ _ _ n k lr batch (q + c) c s2 hcs ?_ ?_
    · intro i u _ _
      rw [rd_drop, hst]
      congr 1
      ring
    · intro d _
      rw [rd_drop, hst]
      congr 1
      omega

/-- The `theta` produced by the batch loop does not depend on what the scratch buffers hold
when it starts. -/
theorem epochLoop_scratch {α : Type} [Zero α] [One α] [Add α] [Sub α] [Mul α] [Div α]
    [NatCast α] (exp : α → α) (X : List α) (y : List Nat) (m n k : Nat) (lr : α)
    (batch : Nat) (a b : Bufs α) (hth : a.theta = b.theta)
    (ha : Alloc n k batch a) (hb : Alloc n k batch b) :
    (epochLoop exp X y m n k lr batch a >>= fun s => pure s.theta) =
      (epochLoop exp X y m n k lr batch b >>= fun s => pure s.theta) := by
  unfold epochLoop
  by_cases h0 : batch = 0
  · simp only [if_pos h0]
  · simp only [if_neg h0]
    have hsim := forLoop_sim
      (fun a1 b1 : Bufs α => a1.theta = b1.theta ∧ Alloc n k batch a1 ∧ Alloc n k batch b1)
      0 0 (numBatches m batch - 0)
      (fun t s1 => batchBody exp X y m n k lr batch t s1)
      (fun t s1 => batchBody exp X y m n k lr batch t s1) ?_ a b ⟨hth, ha, hb⟩
    · rcases hsim with ⟨e, h1, h2⟩ | ⟨a1, b1, h1, h2, hr, -, -⟩
      · rw [h1, h2]
      · rw [h1, h2]
        simp only [ok_bind, hr]
    · intro c _ a1 b1 ⟨h1, h2, h3⟩
      simp only
      rw [batchBody_scratch exp X y m n k lr batch (0 + c) a1 b1 h1 h2 h3]
      cases hres : batchBody exp X y m n k lr batch (0 + c) b1 with
      | error e => exact Or.inl ⟨e, rfl, rfl⟩
      | ok z =>
        have hz := (batchBody_sizes exp X y m n k lr batch (0 + c) b1 z h3 hres).1
        exact Or.inr ⟨z, z, rfl, rfl, rfl, hz, hz⟩

/-- C2. Batches are applied one after the other, each seeing the `theta` left by the previous
one: for `m1` a multiple of `batch` with `m1 <= m`, the routine on all `m` examples equals the
routine on the first `m1` examples followed by the routine on the remaining `m - m1` examples
(rows `m1 .. m-1` of `X` and `y`) started from the intermediate `theta`, with the same `lr` and
`batch`; the outcomes agree also when a run faults.  The first `m1` examples may be passed either
as the truncated buffers or as the original buffers with the count `m1`. -/
theorem epoch_sequential {α : Type} [Zero α] [One α] [Add α] [Sub α] [Mul α] [Div α]
    [NatCast α] (exp : α → α) (X : List α) (y : List Nat) (theta : List α) (m n k : Nat)
    (lr : α) (batch m1 : Nat) (hdiv : batch ∣ m1) (hle : m1 ≤ m) :
    softmax_regression_epoch_cpp exp X y theta m n k lr batch =
      (softmax_regression_epoch_cpp exp (X.take (m1 * n)) (y.take m1) theta m1 n k lr batch
        >>= fun th =>
          softmax_regression_epoch_cpp exp (X.drop (m1 * n)) (y.drop m1) th (m - m1) n k lr
            batch) ∧
    softmax_regression_epoch_cpp exp X y theta m n k lr batch =
      (softmax_regression_epoch_cpp exp X y theta m1 n k lr batch >>= fun th =>
        softmax_regression_epoch_cpp exp (X.drop (m1 * n)) (y.drop m1) th (m - m1) n k lr
          batch) := by
  have main : ∀ (X1 : List α) (y1 : List Nat),
      (∀ idx, idx < m1 * n → rd X idx = rd X1 idx) → (∀ i, i < m1 → rd y i = rd y1 i) →
      softmax_regression_epoch_cpp exp X y theta m n k lr batch =
        (softmax_regression_epoch_cpp exp X1 y1 theta m1 n k lr batch >>= fun th =>
          softmax_regression_epoch_cpp exp (X.drop (m1 * n)) (y.drop m1) th (m - m1) n k lr
            batch) := by
    intro X1 y1 hX1 hy1
    rcases Nat.eq_zero_or_pos batch with hb | hb
    · subst hb
      simp [softmax_regression_epoch_cpp, epochLoop]
    · obtain ⟨q, hq⟩ := hdiv
      have hm1 : m1 = q * batch := by rw [hq, Nat.mul_comm]
      have hm : m = q * batch + (m - m1) := by omega
      subst hm1
      generalize m - q * batch = r at hm ⊢
      subst hm
      simp only [softmax_regression_epoch_cpp]
      rw [epochLoop_split exp X X1 y y1 q r n k lr batch _ hb hX1 hy1]
      cases hfirst : epochLoop exp X1 y1 (q * batch) n k lr batch
          (Bufs.mk theta (List.replicate (batch * k) 0) (List.replicate (batch * k) 0)
            (List.replicate (n * k) 0)) with
      | error e => rfl
      | ok s1 =>
        have hs1 := (epochLoop_sizes exp X1 y1 (q * batch) n k lr batch _ s1
          (alloc_fresh theta n k batch) hfirst).1
        simp only [ok_bind]
        exact epochLoop_scratch exp _ _ r n k lr batch s1 _ rfl hs1
          (alloc_fresh s1.theta n k batch)
  exact ⟨main _ _ (fun idx h => (rd_take X _ idx h).symm) (fun i h => (rd_take y _ i h).symm),
    main X y (fun _ _ => rfl) (fun _ _ => rfl)⟩

/-- Witness of C2: `m = 3`, `batch = 2`, split after the first batch (`m1 = 2`). -/
theorem epoch_sequential_witness :
    softmax_regression_epoch_cpp (fun x : ℚ => 1 + x) [1, 2, 3] [0, 1, 1] [0, 0] 3 1 2 1 2 =
      (softmax_regression_epoch_cpp (fun x : ℚ => 1 + x) ([1, 2, 3].take (2 * 1))
          ([0, 1, 1].take 2) [0, 0] 2 1 2 1 2 >>= fun th =>
        softmax_regression_epoch_cpp (fun x : ℚ => 1 + x) ([1, 2, 3].drop (2 * 1))
          ([0, 1, 1].drop 2) th (3 - 2) 1 2 1 2) :=
  (epoch_sequential (fun x : ℚ => 1 + x) [1, 2, 3] [0, 1, 1] [0, 0] 3 1 2 1 2 2
    (by decide) (by decide)).1


/-! ## The phases of a batch iteration, one by one -/

theorem getElem?_eq_of_peek {β : Type} [Zero β] (a b : List β) (i : Nat)
    (hl : a.length = b.length) (h : peek a i = peek b i) : a[i]? = b[i]? := by
  by_cases c : i < a.length
  · have c2 : i < b.length := by omega
    simpa [peek, List.getElem?_eq_getElem c, List.getElem?_eq_getElem c2] using h
  · rw [List.getElem?_eq_none (by omega), List.getElem?_eq_none (by omega)]

/-- C11. Exact real arithmetic.  In a batch iteration on a valid input the score loop starts from
the zeroed `Z`, does not fault, and leaves, for every row `i < current_size` and class `j < k`,
`Z[i][j] = sum over u < n of X[(start_idx + i) * n + u] * theta[u * k + j]`, with `theta` as it
stands when the batch starts; this `Z` is the buffer the softmax loop then works on. -/
theorem logit_step (X : List ℝ) (y : List Nat) (m n k : Nat) (lr : ℝ)
    (batch t : Nat) (s : Bufs ℝ)
    (hZ : s.Z.length = batch * k) (hoh : s.one_hot.length = batch * k)
    (hg : s.grad.length = n * k) (hth : n * k ≤ s.theta.length)
    (hst : start_idx batch t ≤ m)
    (hX : end_idx m batch t * n ≤ X.length) (hy : end_idx m batch t ≤ y.length)
    (hlab : ∀ i, start_idx batch t ≤ i → i < end_idx m batch t → peek y i < k) :
    ∃ oh Z1 Z2 g th,
      zeroLoop n k batch s = .ok (Bufs.mk s.theta (List.replicate (batch * k) 0)
        (List.replicate (batch * k) 0) (List.replicate (n * k) 0)) ∧
      logitLoop X s.theta n k (start_idx batch t) (current_size m batch t)
        (List.replicate (batch * k) 0) = .ok Z1 ∧
      softmaxLoop Real.exp oh k (current_size m batch t) Z1 = .ok Z2 ∧
      batchBody Real.exp X y m n k lr batch t s = .ok (Bufs.mk th Z2 oh g) ∧
      Z1.length = batch * k ∧
      ∀ i j, i < current_size m batch t → j < k → peek Z1 (i * k + j) =
        ∑ u in Finset.range n,
          peek X ((start_idx batch t + i) * n + u) * peek s.theta (u * k + j) := by
  obtain ⟨oh, Z1, Z2, g, th, e0, -, e2, e3, -, -, e, -, f2, -, -, -⟩ :=
    batchBody_run Real.exp X y m n k lr batch t s hZ hoh hg hth hst hX hy hlab
  refine ⟨oh, Z1, Z2, g, th, e0, e2, e3, e, by rw [f2.1]; simp, fun i j hi hj => ?_⟩
  rw [f2.peek_in _ (Nat.zero_le _) (cell_lt _ k i j hi hj)]
  simp only [cell_div k i j hj, cell_mod k i j hj, accum_eq_sum, zero_add,
    Nat.add_comm i (start_idx batch t)]

/-- Witness of C11: the second batch (`t = 1`) of `m = 3`, `batch = 2`, with two features and
two classes. -/
theorem logit_step_witness :
    ∃ oh Z1 Z2 g th,
      zeroLoop 2 2 2 (Bufs.mk [(1 : ℝ), 0, 0, 1] [9, 9, 9, 9] [9, 9, 9, 9] [9, 9, 9, 9]) =
        .ok (Bufs.mk [1, 0, 0, 1] (List.replicate (2 * 2) 0)
          (List.replicate (2 * 2) 0) (List.replicate (2 * 2) 0)) ∧
      logitLoop [1, 2, 3, 4, 5, 6] [1, 0, 0, 1] 2 2 (start_idx 2 1) (current_size 3 2 1)
        (List.replicate (2 * 2) 0) = .ok Z1 ∧
      softmaxLoop Real.exp oh 2 (current_size 3 2 1) Z1 = .ok Z2 ∧
      batchBody Real.exp [1, 2, 3, 4, 5, 6] [0, 1, 1] 3 2 2 1 2 1
        (Bufs.mk [1, 0, 0, 1] [9, 9, 9, 9] [9, 9, 9, 9] [9, 9, 9, 9]) =
          .ok (Bufs.mk th Z2 oh g) ∧
      Z1.length = 2 * 2 ∧
      ∀ i j, i < current_size 3 2 1 → j < 2 → peek Z1 (i * 2 + j) =
        ∑ u in Finset.range 2,
          peek [(1 : ℝ), 2, 3, 4, 5, 6] ((start_idx 2 1 + i) * 2 + u) *
            peek [(1 : ℝ), 0, 0, 1] (u * 2 + j) :=
  logit_step [1, 2, 3, 4, 5, 6] [0, 1, 1] 3 2 2 1 2 1
    (Bufs.mk [1, 0, 0, 1] [9, 9, 9, 9] [9, 9, 9, 9] [9, 9, 9, 9]) rfl rfl rfl (by decide)
    (by decide) (by decide) (by decide)
    (by
      intro i h1 h2
      have h3 : i = 2 := by
        simp only [start_idx, end_idx] at h1 h2
        omega
      subst h3
      decide)

/-- C12. Exact real arithmetic.  In a batch iteration on a valid input the gradient loop starts
from the zeroed `grad`, does not fault, and leaves, for every feature `p < n` and class `j < k`,
`grad[p][j] = sum over u < current_size of X[(start_idx + u) * n + p] * Z[u][j]`, where `Z` is the
buffer left by the softmax loop: the sum ranges over the examples of the current batch and over
no other. -/
theorem gradient_step (X : List ℝ) (y : List Nat) (m n k : Nat) (lr : ℝ)
    (batch t : Nat) (s : Bufs ℝ)
    (hZ : s.Z.length = batch * k) (hoh : s.one_hot.length = batch * k)
    (hg : s.grad.length = n * k) (hth : n * k ≤ s.theta.length)
    (hst : start_idx batch t ≤ m)
    (hX : end_idx m batch t * n ≤ X.length) (hy : end_idx m batch t ≤ y.length)
    (hlab : ∀ i, start_idx batch t ≤ i → i < end_idx m batch t → peek y i < k) :
    ∃ oh Z1 Z2 g th,
      zeroLoop n k batch s = .ok (Bufs.mk s.theta (List.replicate (batch * k) 0)
        (List.replicate (batch * k) 0) (List.replicate (n * k) 0)) ∧
      softmaxLoop Real.exp oh k (current_size m batch t) Z1 = .ok Z2 ∧
      gradLoop X Z2 n k (start_idx batch t) (current_size m batch t)
        (List.replicate (n * k) 0) = .ok g ∧
      batchBody Real.exp X y m n k lr batch t s = .ok (Bufs.mk th Z2 oh g) ∧
      g.length = n * k ∧
      ∀ p j, p < n → j < k → peek g (p * k + j) =
        ∑ u in Finset.range (current_size m batch t),
          peek X ((start_idx batch t + u) * n + p) * peek Z2 (u * k + j) := by
  obtain ⟨oh, Z1, Z2, g, th, e0, -, -, e3, e4, -, e, -, -, -, f4, -⟩ :=
    batchBody_run Real.exp X y m n k lr batch t s hZ hoh hg hth hst hX hy hlab
  refine ⟨oh, Z1, Z2, g, th, e0, e3, e4, e, by rw [f4.1]; simp, fun p j hp hj => ?_⟩
  rw [f4.peek_in _ (Nat.zero_le _) (cell_lt _ k p j hp hj)]
  simp only [cell_div k p j hj, cell_mod k p j hj, accum_eq_sum, zero_add,
    Nat.add_comm _ (start_idx batch t)]

/-- Witness of C12: the ragged second batch (`t = 1`) of `m = 3`, `batch = 2`. -/
theorem gradient_step_witness :
    ∃ oh Z1 Z2 g th,
      zeroLoop 2 2 2 (Bufs.mk [(1 : ℝ), 0, 0, 1] [9, 9, 9, 9] [9, 9, 9, 9] [9, 9, 9, 9]) =
        .ok (Bufs.mk [1, 0, 0, 1] (List.replicate (2 * 2) 0)
          (List.replicate (2 * 2) 0) (List.replicate (2 * 2) 0)) ∧
      softmaxLoop Real.exp oh 2 (current_size 3 2 1) Z1 = .ok Z2 ∧
      gradLoop [1, 2, 3, 4, 5, 6] Z2 2 2 (start_idx 2 1) (current_size 3 2 1)
        (List.replicate (2 * 2) 0) = .ok g ∧
      batchBody Real.exp [1, 2, 3, 4, 5, 6] [0, 1, 1] 3 2 2 1 2 1
        (Bufs.mk [1, 0, 0, 1] [9, 9, 9, 9] [9, 9, 9, 9] [9, 9, 9, 9]) =
          .ok (Bufs.mk th Z2 oh g) ∧
      g.length = 2 * 2 ∧
      ∀ p j, p < 2 → j < 2 → peek g (p * 2 + j) =
        ∑ u in Finset.range (current_size 3 2 1),
          peek [(1 : ℝ), 2, 3, 4, 5, 6] ((start_idx 2 1 + u) * 2 + p) * peek Z2 (u * 2 + j) :=
  gradient_step [1, 2, 3, 4, 5, 6] [0, 1, 1] 3 2 2 1 2 1
    (Bufs.mk [1, 0, 0, 1] [9, 9, 9, 9] [9, 9, 9, 9] [9, 9, 9, 9]) rfl rfl rfl (by decide)
    (by decide) (by decide) (by decide)
    (by
      intro i h1 h2
      have h3 : i = 2 := by
        simp only [start_idx, end_idx] at h1 h2
        omega
      subst h3
      decide)


/-- C13. In a batch iteration whose labels are all below `k` (and whose buffers have the valid
sizes) the one-hot loop starts from the zeroed `one_hot`, does not fault, and leaves in every row
`i < current_size` the value `1` at column `y[start_idx + i]` and `0` in every other column,
and in every row `current_size <= i < batch` only zeros; the buffer is not written afterwards in
the iteration. -/
theorem one_hot_construction {α : Type} [Zero α] [One α] [Add α] [Sub α] [Mul α] [Div α]
    [NatCast α] (exp : α → α) (X : List α) (y : List Nat) (m n k : Nat) (lr : α)
    (batch t : Nat) (s : Bufs α)
    (hZ : s.Z.length = batch * k) (hoh : s.one_hot.length = batch * k)
    (hg : s.grad.length = n * k) (hth : n * k ≤ s.theta.length)
    (hst : start_idx batch t ≤ m)
    (hX : end_idx m batch t * n ≤ X.length) (hy : end_idx m batch t ≤ y.length)
    (hlab : ∀ i, start_idx batch t ≤ i → i < end_idx m batch t → peek y i < k) :
    ∃ oh Z2 g th,
      zeroLoop n k batch s = .ok (Bufs.mk s.theta (List.replicate (batch * k) 0)
        (List.replicate (batch * k) 0) (List.replicate (n * k) 0)) ∧
      oneHotLoop y k (start_idx batch t) (end_idx m batch t) (List.replicate (batch * k) 0)
        = .ok oh ∧
      batchBody exp X y m n k lr batch t s = .ok (Bufs.mk th Z2 oh g) ∧
      oh.length = batch * k ∧
      (∀ i j, i < current_size m batch t → j < k →
        peek oh (i * k + j) = if j = peek y (start_idx batch t + i) then 1 else 0) ∧
      (∀ i j, current_size m batch t ≤ i → i < batch → j < k → peek oh (i * k + j) = 0) := by
  obtain ⟨oh, Z1, Z2, g, th, e0, e1, -, -, -, -, e, f1, -, -, -, -⟩ :=
    batchBody_run exp X y m n k lr batch t s hZ hoh hg hth hst hX hy hlab
  refine ⟨oh, Z2, g, th, e0, e1, e, by rw [f1.1]; simp, fun i j hi hj => ?_,
    fun i j hi _ hj => ?_⟩
  · rw [f1.peek_in _ (Nat.zero_le _) (cell_lt _ k i j hi hj)]
    simp only [cell_div k i j hj, cell_mod k i j hj]
  · have : current_size m batch t * k ≤ i * k := Nat.mul_le_mul_right _ hi
    rw [f1.peek_out _ (Or.inr (by omega)), peek_replicate]

/-- Witness of C13: the ragged last batch (`t = 2`) of `m = 5`, `batch = 2`, three classes. -/
theorem one_hot_construction_witness :
    ∃ oh Z2 g th,
      zeroLoop 1 3 2
          (Bufs.mk [(0 : ℚ), 0, 0] [9, 9, 9, 9, 9, 9] [9, 9, 9, 9, 9, 9] [9, 9, 9]) =
        .ok (Bufs.mk [0, 0, 0] (List.replicate (2 * 3) 0)
          (List.replicate (2 * 3) 0) (List.replicate (1 * 3) 0)) ∧
      oneHotLoop [0, 1, 1, 0, 2] 3 (start_idx 2 2) (end_idx 5 2 2) (List.replicate (2 * 3) 0)
        = .ok oh ∧
      batchBody (fun x : ℚ => 1 + x) [1, 2, 3, 4, 5] [0, 1, 1, 0, 2] 5 1 3 1 2 2
        (Bufs.mk [0, 0, 0] [9, 9, 9, 9, 9, 9] [9, 9, 9, 9, 9, 9] [9, 9, 9]) =
          .ok (Bufs.mk th Z2 oh g) ∧
      oh.length = 2 * 3 ∧
      (∀ i j, i < current_size 5 2 2 → j < 3 →
        peek oh (i * 3 + j) = if j = peek [0, 1, 1, 0, 2] (start_idx 2 2 + i) then 1 else 0) ∧
      (∀ i j, current_size 5 2 2 ≤ i → i < 2 → j < 3 → peek oh (i * 3 + j) = 0) :=
  one_hot_construction (fun x : ℚ => 1 + x) [1, 2, 3, 4, 5] [0, 1, 1, 0, 2] 5 1 3 1 2 2
    (Bufs.mk [0, 0, 0] [9, 9, 9, 9, 9, 9] [9, 9, 9, 9, 9, 9] [9, 9, 9]) rfl rfl rfl
    (by decide) (by decide) (by decide) (by decide)
    (by
      intro i h1 h2
      have h3 : i = 4 := by
        simp only [start_idx, end_idx] at h1 h2
        omega
      subst h3
      decide)

/-- C14. For all `n, k, batch > 0`, whichever of `n` and `batch` is larger, the zeroing loop over
`i < max(n, batch)` on scratch buffers that hold at least `batch * k`, `batch * k` and `n * k`
cells does not fault, leaves `0` in all the first `batch * k` cells of `Z` and of `one_hot` and in
all the first `n * k` cells of `grad` (rows beyond the occupancy of the current batch included),
writes no cell outside these ranges (any further cell keeps its content, and the sizes are kept),
and leaves `theta` alone.  On buffers of exactly the allocated sizes the result is the all-zero
scratch state, whatever the buffers held. -/
theorem scratch_zeroing {α : Type} [Zero α] (n k batch : Nat) (s : Bufs α)
    (_hn : 0 < n) (_hk : 0 < k) (_hb : 0 < batch)
    (hZ : batch * k ≤ s.Z.length) (hoh : batch * k ≤ s.one_hot.length)
    (hg : n * k ≤ s.grad.length) :
    ∃ s2, zeroLoop n k batch s = .ok s2 ∧ s2.theta = s.theta ∧
      s2.Z.length = s.Z.length ∧ s2.one_hot.length = s.one_hot.length ∧
      s2.grad.length = s.grad.length ∧
      (∀ idx, idx < batch * k → s2.Z[idx]? = some 0 ∧ s2.one_hot[idx]? = some 0) ∧
      (∀ idx, idx < n * k → s2.grad[idx]? = some 0) ∧
      (∀ idx, batch * k ≤ idx → s2.Z[idx]? = s.Z[idx]? ∧ s2.one_hot[idx]? = s.one_hot[idx]?) ∧
      (∀ idx, n * k ≤ idx → s2.grad[idx]? = s.grad[idx]?) ∧
      (s.Z.length = batch * k → s.one_hot.length = batch * k → s.grad.length = n * k →
        s2 = Bufs.mk s.theta (List.replicate (batch * k) 0) (List.replicate (batch * k) 0)
          (List.replicate (n * k) 0)) := by
  obtain ⟨s2, e, ht, fZ, fO, fG⟩ := zeroLoop_spec n k batch s hZ hoh hg
  have some0 : ∀ (a b : List α) (lim idx : Nat), Fills (fun _ => (0 : α)) 0 lim a b →
      lim ≤ a.length → idx < lim → b[idx]? = some 0 := by
    intro a b lim idx f hl hi
    have hb : idx < b.length := by rw [f.1]; omega
    have := f.peek_in idx (Nat.zero_le _) hi
    simpa [peek, List.getElem?_eq_getElem hb] using this
  refine ⟨s2, e, ht, fZ.1, fO.1, fG.1,
    fun idx hi => ⟨some0 _ _ _ idx fZ hZ hi, some0 _ _ _ idx fO hoh hi⟩,
    fun idx hi => some0 _ _ _ idx fG hg hi,
    fun idx hi => ⟨getElem?_eq_of_peek _ _ idx fZ.1 (fZ.peek_out idx (Or.inr hi)),
      getElem?_eq_of_peek _ _ idx fO.1 (fO.peek_out idx (Or.inr hi))⟩,
    fun idx hi => getElem?_eq_of_peek _ _ idx fG.1 (fG.peek_out idx (Or.inr hi)), ?_⟩
  intro h1 h2 h3
  have := zeroLoop_eq n k batch s h1 h2 h3
  rw [e] at this
  exact Except.ok.inj this

/-- Witness of C14 with `n = 1 < batch = 2`, `k = 2`, on buffers with one spare cell each. -/
theorem scratch_zeroing_witness :
    ∃ s2, zeroLoop 1 2 2 (Bufs.mk [(7 : ℚ), 7] [1, 2, 3, 4, 5] [6, 7, 8, 9, 10] [11, 12, 13])
        = .ok s2 ∧ s2.theta = [7, 7] ∧
      s2.Z.length = 5 ∧ s2.one_hot.length = 5 ∧ s2.grad.length = 3 ∧
      (∀ idx, idx < 2 * 2 → s2.Z[idx]? = some 0 ∧ s2.one_hot[idx]? = some 0) ∧
      (∀ idx, idx < 1 * 2 → s2.grad[idx]? = some 0) ∧
      (∀ idx, 2 * 2 ≤ idx → s2.Z[idx]? = [(1 : ℚ), 2, 3, 4, 5][idx]? ∧
        s2.one_hot[idx]? = [(6 : ℚ), 7, 8, 9, 10][idx]?) ∧
      (∀ idx, 1 * 2 ≤ idx → s2.grad[idx]? = [(11 : ℚ), 12, 13][idx]?) ∧
      ([(1 : ℚ), 2, 3, 4, 5].length = 2 * 2 → [(6 : ℚ), 7, 8, 9, 10].length = 2 * 2 →
        [(11 : ℚ), 12, 13].length = 1 * 2 →
        s2 = Bufs.mk [7, 7] (List.replicate (2 * 2) 0) (List.replicate (2 * 2) 0)
          (List.replicate (1 * 2) 0)) :=
  scratch_zeroing 1 2 2 (Bufs.mk [(7 : ℚ), 7] [1, 2, 3, 4, 5] [6, 7, 8, 9, 10] [11, 12, 13])
    (by decide) (by decide) (by decide) (by decide) (by decide) (by decide)


/-! ## Properties of the softmax residual over the reals -/

theorem softmax_denominator_pos (l : ℕ → ℝ) (k : ℕ) (hk : 0 < k) :
    0 < ∑ c in Finset.range k, Real.exp (l c) :=
  Finset.sum_pos (fun _ _ => Real.exp_pos _) ⟨0, Finset.mem_range.2 hk⟩

/-- The residuals `exp(l j) / S - [j = yv]` of one row add up to zero. -/
theorem softmax_residual_sum (l : ℕ → ℝ) (k yv : ℕ) (hy : yv < k) :
    ∑ j in Finset.range k,
      (Real.exp (l j) / (∑ c in Finset.range k, Real.exp (l c)) - (if j = yv then 1 else 0))
      = 0 := by
  have hS := softmax_denominator_pos l k (by omega)
  rw [Finset.sum_sub_distrib, ← Finset.sum_div, div_self hS.ne']
  simp [Finset.sum_ite_eq', hy]

/-- The residual at the true class lies in `(-1, 0]`. -/
theorem softmax_residual_true (l : ℕ → ℝ) (k yv : ℕ) (hy : yv < k) :
    -1 < Real.exp (l yv) / (∑ c in Finset.range k, Real.exp (l c)) - 1 ∧
      Real.exp (l yv) / (∑ c in Finset.range k, Real.exp (l c)) - 1 ≤ 0 := by
  have hS := softmax_denominator_pos l k (by omega)
  have hle : Real.exp (l yv) ≤ ∑ c in Finset.range k, Real.exp (l c) :=
    Finset.single_le_sum (f := fun c => Real.exp (l c)) (fun _ _ => (Real.exp_pos _).le)
      (Finset.mem_range.2 hy)
  have hpos : 0 < Real.exp (l yv) / (∑ c in Finset.range k, Real.exp (l c)) :=
    div_pos (Real.exp_pos _) hS
  have h1 : Real.exp (l yv) / (∑ c in Finset.range k, Real.exp (l c)) ≤ 1 :=
    (div_le_one hS).2 hle
  constructor <;> linarith

/-- The residual at any other class lies in `(0, 1)`. -/
theorem softmax_residual_other (l : ℕ → ℝ) (k yv j : ℕ) (hy : yv < k) (hj : j < k)
    (hne : j ≠ yv) :
    0 < Real.exp (l j) / (∑ c in Finset.range k, Real.exp (l c)) ∧
      Real.exp (l j) / (∑ c in Finset.range k, Real.exp (l c)) < 1 := by
  have hS := softmax_denominator_pos l k (by omega)
  refine ⟨div_pos (Real.exp_pos _) hS, (div_lt_one hS).2 ?_⟩
  have hsub : ({j, yv} : Finset ℕ) ⊆ Finset.range k := by
    intro x hx
    simp only [Finset.mem_insert, Finset.mem_singleton] at hx
    rcases hx with rfl | rfl
    · exact Finset.mem_range.2 hj
    · exact Finset.mem_range.2 hy
  have hle := Finset.sum_le_sum_of_subset_of_nonneg (f := fun c => Real.exp (l c)) hsub
    (fun _ _ _ => (Real.exp_pos _).le)
  rw [Finset.sum_pair hne] at hle
  have := Real.exp_pos (l yv)
  linarith

theorem residAt_eq (X theta : List ℝ) (y : List Nat) (n k row j : Nat) :
    residAt Real.exp X theta y n k row j =
      Real.exp (logitAt X theta n k row j) /
        (∑ c in Finset.range k, Real.exp (logitAt X theta n k row c))
        - (if j = peek y row then 1 else 0) := by
  simp [residAt, accum_eq_sum]

theorem gradAt_eq (X theta : List ℝ) (y : List Nat) (n k start cs p j : Nat) :
    gradAt Real.exp X theta y n k start cs p j =
      ∑ u in Finset.range cs,
        peek X ((u + start) * n + p) * residAt Real.exp X theta y n k (u + start) j := by
  simp [gradAt, accum_eq_sum]

/-- Every row of the closed-form gradient adds up to zero over the classes. -/
theorem gradAt_row_sum (X theta : List ℝ) (y : List Nat) (n k start cs p : Nat)
    (hlab : ∀ u, u < cs → peek y (u + start) < k) :
    ∑ j in Finset.range k, gradAt Real.exp X theta y n k start cs p j = 0 := by
  simp only [gradAt_eq]
  rw [Finset.sum_comm]
  refine Finset.sum_eq_zero (fun u hu => ?_)
  rw [← Finset.mul_sum]
  simp only [residAt_eq]
  rw [softmax_residual_sum (fun c => logitAt X theta n k (u + start) c) k _
    (hlab u (Finset.mem_range.1 hu)), mul_zero]

/-- Adding `c[p]` to every entry of row `p` of `theta` adds the same amount to all the logits of
an example. -/
theorem logitAt_shift (X tha thb c : List ℝ) (n k row j : Nat) (hj : j < k)
    (hrel : ∀ p q, p < n → q < k → peek thb (p * k + q) = peek tha (p * k + q) + peek c p) :
    logitAt X thb n k row j =
      logitAt X tha n k row j + ∑ u in Finset.range n, peek X (row * n + u) * peek c u := by
  simp only [logitAt_real]
  rw [← Finset.sum_add_distrib]
  refine Finset.sum_congr rfl (fun u hu => ?_)
  rw [hrel u j (Finset.mem_range.1 hu) hj]
  ring

/-- The softmax residuals do not change when a per-feature constant is added to `theta`. -/
theorem residAt_shift (X tha thb c : List ℝ) (y : List Nat) (n k row j : Nat) (hj : j < k)
    (hrel : ∀ p q, p < n → q < k → peek thb (p * k + q) = peek tha (p * k + q) + peek c p) :
    residAt Real.exp X thb y n k row j = residAt Real.exp X tha y n k row j := by
  simp only [residAt_eq]
  congr 1
  have hS := softmax_denominator_pos (fun c2 => logitAt X tha n k row c2) k (by omega)
  have hsum : ∑ c2 in Finset.range k, Real.exp (logitAt X thb n k row c2) =
      Real.exp (∑ u in Finset.range n, peek X (row * n + u) * peek c u) *
        ∑ c2 in Finset.range k, Real.exp (logitAt X tha n k row c2) := by
    rw [Finset.mul_sum]
    refine Finset.sum_congr rfl (fun c2 hc2 => ?_)
    rw [logitAt_shift X tha thb c n k row c2 (Finset.mem_range.1 hc2) hrel, Real.exp_add,
      mul_comm]
  rw [hsum, logitAt_shift X tha thb c n k row j hj hrel, Real.exp_add]
  field_simp
  ring

/-- The closed-form gradient does not change when a per-feature constant is added to `theta`. -/
theorem gradAt_shift (X tha thb c : List ℝ) (y : List Nat) (n k start cs p j : Nat)
    (hj : j < k)
    (hrel : ∀ p q, p < n → q < k → peek thb (p * k + q) = peek tha (p * k + q) + peek c p) :
    gradAt Real.exp X thb y n k start cs p j = gradAt Real.exp X tha y n k start cs p j := by
  simp only [gradAt_eq]
  refine Finset.sum_congr rfl (fun u _ => ?_)
  rw [residAt_shift X tha thb c y n k (u + start) j hj hrel]

/-- With a single class the residual of an example with label `0` is zero. -/
theorem residAt_single_class (X theta : List ℝ) (y : List Nat) (n row : Nat)
    (hy : peek y row = 0) : residAt Real.exp X theta y n 1 row 0 = 0 := by
  rw [residAt_eq]
  simp [hy, div_self (Real.exp_ne_zero _)]

theorem gradAt_single_class (X theta : List ℝ) (y : List Nat) (n start cs p : Nat)
    (hlab : ∀ u, u < cs → peek y (u + start) = 0) :
    gradAt Real.exp X theta y n 1 start cs p 0 = 0 := by
  rw [gradAt_eq]
  refine Finset.sum_eq_zero (fun u hu => ?_)
  rw [residAt_single_class X theta y n (u + start) (hlab u (Finset.mem_range.1 hu)), mul_zero]


/-! ## Relating two runs of the epoch -/

/-- Two-run total-correctness rule: a relation that every pair of iterations re-establishes
without fault holds after the two loops, neither of which faults. -/
theorem forLoop_total2 {σ τ : Type} (R : σ → τ → Prop) (lo1 lo2 cnt : Nat)
    (body1 : Nat → σ → Except Fault σ) (body2 : Nat → τ → Except Fault τ) (a : σ) (b : τ)
    (h0 : R a b)
    (hstep : ∀ c, c < cnt → ∀ a1 b1, R a1 b1 →
      ∃ a2 b2, body1 (lo1 + c) a1 = .ok a2 ∧ body2 (lo2 + c) b1 = .ok b2 ∧ R a2 b2) :
    ∃ a2 b2, forLoop lo1 cnt body1 a = .ok a2 ∧ forLoop lo2 cnt body2 b = .ok b2 ∧ R a2 b2 := by
  induction cnt with
  | zero => exact ⟨a, b, rfl, rfl, h0⟩
  | succ c ih =>
    obtain ⟨a1, b1, e1, e2, r1⟩ := ih (fun c1 hc1 => hstep c1 (Nat.lt_succ_of_lt hc1))
    obtain ⟨a2, b2, e3, e4, r2⟩ := hstep c (Nat.lt_succ_self c) a1 b1 r1
    exact ⟨a2, b2, by rw [forLoop_succ, e1]; exact e3, by rw [forLoop_succ, e2]; exact e4, r2⟩

theorem batch_rows_in_range (m batch t u : Nat) (hb : 0 < batch)
    (ht : t < numBatches m batch) (hu : u < current_size m batch t) :
    u + start_idx batch t < m := by
  have h1 := start_add_current_size m batch t (start_idx_le m batch t hb ht)
  have h2 := end_idx_le m batch t
  omega

theorem fills_noop {β : Type} [Zero β] {F : Nat → β} {lo hi : Nat} {a b : List β}
    (h : Fills F lo hi a b) (hF : ∀ idx, lo ≤ idx → idx < hi → F idx = peek a idx) : b = a := by
  apply list_ext_peek _ _ h.1
  intro idx _
  rw [h.2 idx]
  by_cases c : lo ≤ idx ∧ idx < hi
  · rw [if_pos c, hF idx c.1 c.2]
  · rw [if_neg c]

/-- With a single class and labels `0`, a batch iteration leaves `theta` as it is. -/
theorem batchBody_single_class (X : List ℝ) (y : List Nat) (m n : Nat) (lr : ℝ)
    (batch t : Nat) (s : Bufs ℝ) (hb : 0 < batch) (ht : t < numBatches m batch)
    (hs : Alloc n 1 batch s) (hth : n * 1 ≤ s.theta.length)
    (hX : m * n ≤ X.length) (hy : m ≤ y.length) (hlab : ∀ i, i < m → peek y i = 0) :
    ∃ s2, batchBody Real.exp X y m n 1 lr batch t s = .ok s2 ∧ s2.theta = s.theta ∧
      Alloc n 1 batch s2 := by
  have he := end_idx_le m batch t
  obtain ⟨s2, e, z, o, g, f⟩ := batchBody_theta Real.exp X y m n 1 lr batch t s
    hs.1 hs.2.1 hs.2.2 hth (start_idx_le m batch t hb ht)
    (le_trans (Nat.mul_le_mul_right _ he) hX) (by omega)
    (fun i _ hi => by rw [hlab i (by omega)]; exact Nat.one_pos)
  refine ⟨s2, e, fills_noop f (fun idx _ _ => ?_), z, o, g⟩
  simp only [Nat.mod_one]
  rw [gradAt_single_class X s.theta y n _ _ _
    (fun u hu => hlab _ (batch_rows_in_range m batch t u hb ht hu))]
  simp

/-- C17. Exact real arithmetic, single class (`k = 1`, so every label is `0`).  For all
`m, n, batch > 0`, every `X`, `theta` and `lr`, the routine returns `theta` unchanged, and every
one of its batch iterations leaves `theta` unchanged (each residual is
`exp(z) / exp(z) - 1 = 0`). -/
theorem single_class_noop (X : List ℝ) (y : List Nat) (theta : List ℝ) (m n : Nat) (lr : ℝ)
    (batch : Nat) (_hm : 0 < m) (_hn : 0 < n) (hb : 0 < batch)
    (hX : X.length = m * n) (hy : y.length = m) (hlab : ∀ v, v ∈ y → v < 1)
    (hth : theta.length = n * 1) :
    softmax_regression_epoch_cpp Real.exp X y theta m n 1 lr batch = .ok theta ∧
    (∀ (t : Nat) (s : Bufs ℝ), t < numBatches m batch → Alloc n 1 batch s →
      s.theta.length = n * 1 →
      ∃ s2, batchBody Real.exp X y m n 1 lr batch t s = .ok s2 ∧ s2.theta = s.theta) ∧
    (∀ row, row < m → residAt Real.exp X theta y n 1 row 0 = 0) := by
  have hlab2 : ∀ i, i < m → peek y i = 0 := fun i hi => by
    have := hlab _ (peek_mem y i (by omega))
    omega
  refine ⟨?_, fun t s ht hs hl => ?_, fun row hr =>
    residAt_single_class X theta y n row (hlab2 row hr)⟩
  · have key := forLoop_total
      (fun _ (s1 : Bufs ℝ) => Alloc n 1 batch s1 ∧ s1.theta = theta) 0 (numBatches m batch)
      (fun t s1 => batchBody Real.exp X y m n 1 lr batch t s1)
      (Bufs.mk theta (List.replicate (batch * 1) 0) (List.replicate (batch * 1) 0)
        (List.replicate (n * 1) 0)) ⟨alloc_fresh theta n 1 batch, rfl⟩ ?_
    · obtain ⟨s2, e, -, h⟩ := key
      simp only [softmax_regression_epoch_cpp, epochLoop, if_neg (by omega : ¬ batch = 0),
        Nat.sub_zero, e]
      rw [← h]
      rfl
    · rintro t ht s1 ⟨a1, h1⟩
      obtain ⟨s2, e, h2, a2⟩ := batchBody_single_class X y m n lr batch t s1 hb ht a1
        (by rw [h1, hth]) (Nat.le_of_eq hX.symm) (Nat.le_of_eq hy.symm) hlab2
      exact ⟨s2, by simpa using e, a2, h2.trans h1⟩
  · obtain ⟨s2, e, h2, -⟩ := batchBody_single_class X y m n lr batch t s hb ht hs
      (by rw [hl]) (Nat.le_of_eq hX.symm) (Nat.le_of_eq hy.symm) hlab2
    exact ⟨s2, e, h2⟩

/-- Witness of C17: the ragged scenario `n = 1`, `k = 1`, `m = 5`, `batch = 2`, which makes
three batch iterations. -/
theorem single_class_noop_witness :
    numBatches 5 2 = 3 ∧
    softmax_regression_epoch_cpp Real.exp [1, 2, 3, 4, 5] [0, 0, 0, 0, 0] [3] 5 1 1 (1 / 10) 2
      = .ok [3] ∧
    ∀ (t : Nat) (s : Bufs ℝ), t < numBatches 5 2 → Alloc 1 1 2 s → s.theta.length = 1 * 1 →
      ∃ s2, batchBody Real.exp [1, 2, 3, 4, 5] [0, 0, 0, 0, 0] 5 1 1 (1 / 10) 2 t s = .ok s2 ∧
        s2.theta = s.theta :=
  ⟨by decide,
    (single_class_noop [1, 2, 3, 4, 5] [0, 0, 0, 0, 0] [3] 5 1 (1 / 10) 2 (by decide)
      (by decide) (by decide) rfl rfl (by decide) rfl).1,
    (single_class_noop [1, 2, 3, 4, 5] [0, 0, 0, 0, 0] [3] 5 1 (1 / 10) 2 (by decide)
      (by decide) (by decide) rfl rfl (by decide) rfl).2.1⟩


/-- C18. Exact real arithmetic.  In a batch iteration whose labels are all below `k` (and whose
buffers have the valid sizes), after the softmax loop every occupied row `i < current_size` of
`Z` has a strictly positive normalising sum (so the division is not by zero), adds up to `0` over
the `k` classes, has its entry at the true class `y[start_idx + i]` in `(-1, 0]` and every other
entry in `(0, 1)`. -/
theorem residual_rows (X : List ℝ) (y : List Nat) (m n k : Nat) (lr : ℝ)
    (batch t : Nat) (s : Bufs ℝ)
    (hZ : s.Z.length = batch * k) (hoh : s.one_hot.length = batch * k)
    (hg : s.grad.length = n * k) (hth : n * k ≤ s.theta.length)
    (hst : start_idx batch t ≤ m)
    (hX : end_idx m batch t * n ≤ X.length) (hy : end_idx m batch t ≤ y.length)
    (hlab : ∀ i, start_idx batch t ≤ i → i < end_idx m batch t → peek y i < k) :
    ∃ oh Z1 Z2 g th,
      logitLoop X s.theta n k (start_idx batch t) (current_size m batch t)
        (List.replicate (batch * k) 0) = .ok Z1 ∧
      softmaxLoop Real.exp oh k (current_size m batch t) Z1 = .ok Z2 ∧
      batchBody Real.exp X y m n k lr batch t s = .ok (Bufs.mk th Z2 oh g) ∧
      ∀ i, i < current_size m batch t →
        0 < ∑ c in Finset.range k, Real.exp (peek Z1 (i * k + c)) ∧
        ∑ j in Finset.range k, peek Z2 (i * k + j) = 0 ∧
        -1 < peek Z2 (i * k + peek y (start_idx batch t + i)) ∧
        peek Z2 (i * k + peek y (start_idx batch t + i)) ≤ 0 ∧
        ∀ j, j < k → j ≠ peek y (start_idx batch t + i) →
          0 < peek Z2 (i * k + j) ∧ peek Z2 (i * k + j) < 1 := by
  obtain ⟨oh, Z1, Z2, g, th, -, -, e2, e3, -, -, e, f1, -, f3, -, -⟩ :=
    batchBody_run Real.exp X y m n k lr batch t s hZ hoh hg hth hst hX hy hlab
  refine ⟨oh, Z1, Z2, g, th, e2, e3, e, fun i hi => ?_⟩
  have hse := start_add_current_size m batch t hst
  have hyv : peek y (start_idx batch t + i) < k := hlab _ (by omega) (by omega)
  have hcell : ∀ j, j < k → peek Z2 (i * k + j) =
      Real.exp (peek Z1 (i * k + j)) / (∑ c in Finset.range k, Real.exp (peek Z1 (i * k + c)))
        - (if j = peek y (start_idx batch t + i) then 1 else 0) := by
    intro j hj
    have hc := cell_lt _ k i j hi hj
    rw [f3.peek_in _ (Nat.zero_le _) hc, f1.peek_in _ (Nat.zero_le _) hc]
    simp only [cell_div k i j hj, cell_mod k i j hj, accum_eq_sum, zero_add]
  have htrue := softmax_residual_true (fun c => peek Z1 (i * k + c)) k _ hyv
  refine ⟨softmax_denominator_pos (fun c => peek Z1 (i * k + c)) k (by omega), ?_, ?_, ?_,
    fun j hj hne => ?_⟩
  · rw [Finset.sum_congr rfl (fun j hj => hcell j (Finset.mem_range.1 hj))]
    exact softmax_residual_sum (fun c => peek Z1 (i * k + c)) k _ hyv
  · rw [hcell _ hyv, if_pos rfl]
    exact htrue.1
  · rw [hcell _ hyv, if_pos rfl]
    exact htrue.2
  · rw [hcell j hj, if_neg hne, sub_zero]
    exact softmax_residual_other (fun c => peek Z1 (i * k + c)) k _ j hyv hj hne

/-- Witness of C18: the ragged second batch (`t = 1`) of `m = 3`, `batch = 2`, with two features
and two classes. -/
theorem residual_rows_witness :
    ∃ oh Z1 Z2 g th,
      logitLoop [1, 2, 3, 4, 5, 6] [(1 : ℝ), 0, 0, 1] 2 2 (start_idx 2 1) (current_size 3 2 1)
        (List.replicate (2 * 2) 0) = .ok Z1 ∧
      softmaxLoop Real.exp oh 2 (current_size 3 2 1) Z1 = .ok Z2 ∧
      batchBody Real.exp [1, 2, 3, 4, 5, 6] [0, 1, 1] 3 2 2 1 2 1
        (Bufs.mk [1, 0, 0, 1] [9, 9, 9, 9] [9, 9, 9, 9] [9, 9, 9, 9]) =
          .ok (Bufs.mk th Z2 oh g) ∧
      ∀ i, i < current_size 3 2 1 →
        0 < ∑ c in Finset.range 2, Real.exp (peek Z1 (i * 2 + c)) ∧
        ∑ j in Finset.range 2, peek Z2 (i * 2 + j) = 0 ∧
        -1 < peek Z2 (i * 2 + peek [0, 1, 1] (start_idx 2 1 + i)) ∧
        peek Z2 (i * 2 + peek [0, 1, 1] (start_idx 2 1 + i)) ≤ 0 ∧
        ∀ j, j < 2 → j ≠ peek [0, 1, 1] (start_idx 2 1 + i) →
          0 < peek Z2 (i * 2 + j) ∧ peek Z2 (i * 2 + j) < 1 :=
  residual_rows [1, 2, 3, 4, 5, 6] [0, 1, 1] 3 2 2 1 2 1
    (Bufs.mk [1, 0, 0, 1] [9, 9, 9, 9] [9, 9, 9, 9] [9, 9, 9, 9]) rfl rfl rfl (by decide)
    (by decide) (by decide) (by decide)
    (by
      intro i h1 h2
      have h3 : i = 2 := by
        simp only [start_idx, end_idx] at h1 h2
        omega
      subst h3
      decide)


/-! ## The routine with `size_t` sizes -/

theorem sizeMod_eq : sizeMod = 18446744073709551616 := by
  norm_num [sizeMod]

/-- The machine guard never exceeds the exact one. -/
theorem numBatches64_le (m batch : Nat) (hb : 0 < batch) :
    numBatches64 m batch ≤ numBatches m batch := by
  unfold numBatches64 numBatches
  apply Nat.div_le_div_right
  rw [sizeMod_eq]
  omega

/-- Without wrap of `m + batch - 1` the machine guard is the exact one. -/
theorem numBatches64_eq (m batch : Nat) (hb : 0 < batch) (hsz : m + batch - 1 < 2 ^ 64) :
    numBatches64 m batch = numBatches m batch := by
  have h64 : (2 : Nat) ^ 64 = 18446744073709551616 := by norm_num
  rw [h64] at hsz
  have h : (m + batch + (sizeMod - 1)) % sizeMod = m + batch - 1 := by
    rw [sizeMod_eq]
    omega
  unfold numBatches64 numBatches
  rw [h]

/-- A loop whose first iteration faults, faults. -/
theorem forLoop_first_fault {σ : Type} (lo cnt : Nat) (body : Nat → σ → Except Fault σ)
    (s : σ) (e : Fault) (h : body lo s = .error e) (hc : 0 < cnt) :
    forLoop lo cnt body s = .error e := by
  induction cnt with
  | zero => omega
  | succ c ih =>
    rw [forLoop_succ]
    rcases Nat.eq_zero_or_pos c with h0 | h0
    · subst h0
      simpa using h
    · rw [ih h0]
      rfl

/-- When the product `batch * k` wraps to `0` the scratch buffers `Z` and `one_hot` are empty
and the first write of the zeroing loop is out of bounds. -/
theorem epoch64_wrap_fault {α : Type} [Zero α] [One α] [Add α] [Sub α] [Mul α] [Div α]
    [NatCast α] (exp : α → α) (X : List α) (y : List Nat) (theta : List α) (m n k : Nat)
    (lr : α) (batch : Nat) (hb : 0 < batch) (hk : 0 < k) (hnb : 0 < numBatches64 m batch)
    (hwrap : (batch * k) % sizeMod = 0) :
    softmax_regression_epoch_cpp64 exp X y theta m n k lr batch = .error .oob := by
  have hcell : ∀ s : Bufs α, s.Z = [] → zeroCell n k batch 0 0 s = .error .oob := by
    intro s hs
    simp [zeroCell, hb, wr, hs]
  have hzero : ∀ s : Bufs α, s.Z = [] → zeroLoop n k batch s = .error .oob := by
    intro s hs
    unfold zeroLoop
    apply forLoop_first_fault _ _ _ _ _ _ (by omega)
    exact forLoop_first_fault _ _ _ _ _ (hcell s hs) (by omega)
  have hbody : ∀ s : Bufs α, s.Z = [] →
      batchBody exp X y m n k lr batch 0 s = .error .oob := by
    intro s hs
    simp only [batchBody, hzero s hs]
    rfl
  simp only [softmax_regression_epoch_cpp64, epochLoop64, hwrap, List.replicate_zero,
    if_neg (by omega : ¬ batch = 0), Nat.sub_zero]
  rw [forLoop_first_fault 0 _ _ _ .oob (hbody _ rfl) hnb]
  rfl

/-- Two runs of a prefix of the batch loop on the same valid data from two states: neither
faults, and a relation between the parameter buffers that every closed-form batch update
preserves holds between the results. -/
theorem batches_rel {α : Type} [Zero α] [One α] [Add α] [Sub α] [Mul α] [Div α] [NatCast α]
    (exp : α → α) (X : List α) (y : List Nat) (m n k : Nat) (lr : α)
    (batch cnt : Nat) (sa sb : Bufs α) (hb : 0 < batch) (hcnt : cnt ≤ numBatches m batch)
    (hX : m * n ≤ X.length) (hy : m ≤ y.length) (hlab : ∀ i, i < m → peek y i < k)
    (hsa : Alloc n k batch sa) (hsb : Alloc n k batch sb)
    (htha : n * k ≤ sa.theta.length) (hthb : n * k ≤ sb.theta.length)
    (R : List α → List α → Prop) (h0 : R sa.theta sb.theta)
    (hstep : ∀ t a1 b1 a2 b2, t < numBatches m batch → a1.length = sa.theta.length →
      b1.length = sb.theta.length → R a1 b1 →
      Fills (fun idx => peek a1 idx -
          gradAt exp X a1 y n k (start_idx batch t) (current_size m batch t)
            (idx / k) (idx % k) * lr / (batch : α)) 0 (n * k) a1 a2 →
      Fills (fun idx => peek b1 idx -
          gradAt exp X b1 y n k (start_idx batch t) (current_size m batch t)
            (idx / k) (idx % k) * lr / (batch : α)) 0 (n * k) b1 b2 →
      R a2 b2) :
    ∃ a2 b2,
      forLoop 0 cnt (fun t s1 => batchBody exp X y m n k lr batch t s1) sa = .ok a2 ∧
      forLoop 0 cnt (fun t s1 => batchBody exp X y m n k lr batch t s1) sb = .ok b2 ∧
      a2.theta.length = sa.theta.length ∧ b2.theta.length = sb.theta.length ∧
      R a2.theta b2.theta := by
  have key := forLoop_total2
    (fun s1 s2 : Bufs α => Alloc n k batch s1 ∧ Alloc n k batch s2 ∧
      s1.theta.length = sa.theta.length ∧ s2.theta.length = sb.theta.length ∧
      R s1.theta s2.theta)
    0 0 cnt
    (fun t s1 => batchBody exp X y m n k lr batch t s1)
    (fun t s1 => batchBody exp X y m n k lr batch t s1) sa sb
    ⟨hsa, hsb, rfl, rfl, h0⟩ ?_
  · obtain ⟨a2, b2, e1, e2, -, -, l1, l2, r⟩ := key
    exact ⟨a2, b2, e1, e2, l1, l2, r⟩
  rintro t ht a1 b1 ⟨al1, al2, l1, l2, r⟩
  have ht2 : t < numBatches m batch := by omega
  have he := end_idx_le m batch t
  have hst := start_idx_le m batch t hb ht2
  obtain ⟨a2, e1, z1, o1, g1, f1⟩ := batchBody_theta exp X y m n k lr batch t a1
    al1.1 al1.2.1 al1.2.2 (by omega) hst
    (le_trans (Nat.mul_le_mul_right _ he) hX) (by omega)
    (fun i _ hi => hlab i (by omega))
  obtain ⟨b2, e2, z2, o2, g2, f2⟩ := batchBody_theta exp X y m n k lr batch t b1
    al2.1 al2.2.1 al2.2.2 (by omega) hst
    (le_trans (Nat.mul_le_mul_right _ he) hX) (by omega)
    (fun i _ hi => hlab i (by omega))
  refine ⟨a2, b2, by simpa using e1, by simpa using e2, ⟨z1, o1, g1⟩, ⟨z2, o2, g2⟩,
    f1.1.trans l1, f2.1.trans l2, ?_⟩
  exact hstep t a1.theta b1.theta a2.theta b2.theta ht2 l1 l2 r f1 f2

/-- Two runs of the routine (machine sizes) on the same valid data from two parameter buffers,
when the allocation sizes `batch * k` and `n * k` do not wrap: neither run faults, and a relation
between the parameter buffers that every closed-form batch update preserves holds between the
results. -/
theorem epoch64_rel {α : Type} [Zero α] [One α] [Add α] [Sub α] [Mul α] [Div α] [NatCast α]
    (exp : α → α) (X : List α) (y : List Nat) (tha thb : List α) (m n k : Nat) (lr : α)
    (batch : Nat) (hb : 0 < batch) (hZ : batch * k < 2 ^ 64) (hG : n * k < 2 ^ 64)
    (hX : m * n ≤ X.length) (hy : m ≤ y.length)
    (hlab : ∀ i, i < m → peek y i < k)
    (htha : n * k ≤ tha.length) (hthb : n * k ≤ thb.length)
    (R : List α → List α → Prop) (h0 : R tha thb)
    (hstep : ∀ t a1 b1 a2 b2, t < numBatches m batch → a1.length = tha.length →
      b1.length = thb.length → R a1 b1 →
      Fills (fun idx => peek a1 idx -
          gradAt exp X a1 y n k (start_idx batch t) (current_size m batch t)
            (idx / k) (idx % k) * lr / (batch : α)) 0 (n * k) a1 a2 →
      Fills (fun idx => peek b1 idx -
          gradAt exp X b1 y n k (start_idx batch t) (current_size m batch t)
            (idx / k) (idx % k) * lr / (batch : α)) 0 (n * k) b1 b2 →
      R a2 b2) :
    ∃ ra rb, softmax_regression_epoch_cpp64 exp X y tha m n k lr batch = .ok ra ∧
      softmax_regression_epoch_cpp64 exp X y thb m n k lr batch = .ok rb ∧
      ra.length = tha.length ∧ rb.length = thb.length ∧ R ra rb := by
  have h1 : (batch * k) % sizeMod = batch * k := Nat.mod_eq_of_lt (by rw [sizeMod]; exact hZ)
  have h2 : (n * k) % sizeMod = n * k := Nat.mod_eq_of_lt (by rw [sizeMod]; exact hG)
  obtain ⟨a2, b2, e1, e2, l1, l2, r⟩ := batches_rel exp X y m n k lr batch
    (numBatches64 m batch)
    (Bufs.mk tha (List.replicate (batch * k) 0) (List.replicate (batch * k) 0)
      (List.replicate (n * k) 0))
    (Bufs.mk thb (List.replicate (batch * k) 0) (List.replicate (batch * k) 0)
      (List.replicate (n * k) 0))
    hb (numBatches64_le m batch hb) hX hy hlab (alloc_fresh tha n k batch)
    (alloc_fresh thb n k batch) htha hthb R h0 hstep
  refine ⟨a2.theta, b2.theta, ?_, ?_, l1, l2, r⟩
  · simp only [softmax_regression_epoch_cpp64, epochLoop64, if_neg (by omega : ¬ batch = 0),
      Nat.sub_zero, h1, h2, e1]
    rfl
  · simp only [softmax_regression_epoch_cpp64, epochLoop64, if_neg (by omega : ¬ batch = 0),
      Nat.sub_zero, h1, h2, e2]
    rfl


/-! ## Batch count with the machine guard -/

/-- C3, refuted as stated: with `m = 2` and `batch = 2 ^ 64 - 1` the `size_t` sum
`m + batch - 1` of line 39 wraps to `0`, the guard `t < 0 / batch` fails at once and the batch
loop runs `0` times, although `ceil(m / batch) = 1`. -/
theorem batch_count_counterexample :
    (¬ ∀ m batch : Nat, 0 < m → 0 < batch →
      numBatches64 m batch = ⌈(m : ℚ) / (batch : ℚ)⌉₊) ∧
    numBatches64 2 (2 ^ 64 - 1) = 0 ∧
    ⌈((2 : Nat) : ℚ) / ((2 ^ 64 - 1 : Nat) : ℚ)⌉₊ = 1 ∧
    epochLoop64 (fun x : ℚ => 1 + x) [1, 2] [0, 0] 2 1 1 1 (2 ^ 64 - 1)
      (Bufs.mk [5] [] [] [0]) = .ok (Bufs.mk [5] [] [] [0]) := by
  have h0 : numBatches64 2 (2 ^ 64 - 1) = 0 := by
    norm_num [numBatches64, sizeMod]
  have h1 : ⌈((2 : Nat) : ℚ) / ((2 ^ 64 - 1 : Nat) : ℚ)⌉₊ = 1 := by
    rw [Nat.ceil_eq_iff (by decide)]
    norm_num
  refine ⟨fun h => ?_, h0, h1, ?_⟩
  · have h2 := h 2 (2 ^ 64 - 1) (by decide) (by norm_num)
    rw [h0, h1] at h2
    exact absurd h2 (by decide)
  · simp only [epochLoop64, h0]
    rfl

/-- C3, amended.  For `m > 0` and `batch > 0` such that the `size_t` sum `m + batch - 1` of the
loop guard does not wrap (it is below `2 ^ 64`), the batch loop runs exactly `ceil(m / batch)`
times (the epoch is the loop of `batchBody` over that many values of `t`); every batch but the
last has `current_size = batch`; the last one has
`current_size = m - batch * (num_batches - 1)`, which is `m mod batch` (nonzero) when `batch`
does not divide `m` and `batch` when it does. -/
theorem batch_count_and_sizes {α : Type} [Zero α] [One α] [Add α] [Sub α] [Mul α] [Div α]
    [NatCast α] (m batch : Nat) (hm : 0 < m) (hb : 0 < batch)
    (hsz : m + batch - 1 < 2 ^ 64) :
    numBatches64 m batch = ⌈(m : ℚ) / (batch : ℚ)⌉₊ ∧
    (∀ (exp : α → α) (X : List α) (y : List Nat) (n k : Nat) (lr : α) (s : Bufs α),
      epochLoop64 exp X y m n k lr batch s =
        forLoop 0 ⌈(m : ℚ) / (batch : ℚ)⌉₊
          (fun t s1 => batchBody exp X y m n k lr batch t s1) s) ∧
    (∀ t, t + 1 < numBatches64 m batch → current_size m batch t = batch) ∧
    current_size m batch (numBatches64 m batch - 1) =
      m - batch * (numBatches64 m batch - 1) ∧
    (¬ batch ∣ m →
      current_size m batch (numBatches64 m batch - 1) = m % batch ∧ m % batch ≠ 0) ∧
    (batch ∣ m → current_size m batch (numBatches64 m batch - 1) = batch) := by
  have h64 := numBatches64_eq m batch hb hsz
  have hc := numBatches_eq_ceil m batch hm hb
  have hl := current_size_last m batch hm hb
  rw [h64]
  refine ⟨hc, ?_, fun t ht => current_size_full m batch t hm hb ht, hl, ?_, ?_⟩
  · intro exp X y n k lr s
    rw [← hc]
    simp [epochLoop64, h64, Nat.pos_iff_ne_zero.mp hb]
  · intro hnd
    rw [hl]
    exact current_size_last_mod m batch hm hb hnd
  · intro hd
    rw [hl]
    exact current_size_last_dvd m batch hm hb hd

/-- Witness of C3 (amended) at `m = 5`, `batch = 2`: three batches, of sizes `[2, 2, 1]`. -/
theorem batch_count_and_sizes_witness :
    (numBatches64 5 2 = ⌈((5 : Nat) : ℚ) / ((2 : Nat) : ℚ)⌉₊ ∧
      current_size 5 2 (numBatches64 5 2 - 1) = 5 % 2) ∧
    (List.range ⌈((5 : Nat) : ℚ) / ((2 : Nat) : ℚ)⌉₊).map (current_size 5 2) = [2, 2, 1] := by
  have h := batch_count_and_sizes (α := ℚ) 5 2 (by decide) (by decide) (by norm_num)
  have h3 : numBatches64 5 2 = 3 := by norm_num [numBatches64, sizeMod]
  refine ⟨⟨h.1, (h.2.2.2.2.1 (by decide)).1⟩, ?_⟩
  rw [← h.1, h3]
  decide

/-! ## Faults and their absence with the machine sizes -/

theorem wr_cases {β : Type} (a : List β) (idx : Nat) (v : β) :
    wr a idx v = .ok (a.set idx v) ∨ wr a idx v = .error .oob := by
  unfold wr
  split
  · exact Or.inl rfl
  · exact Or.inr rfl

theorem zeroCell_theta {α : Type} [Zero α] (n k batch i j : Nat) (s s2 : Bufs α)
    (h : zeroCell n k batch i j s = .ok s2) : s2.theta = s.theta := by
  by_cases c1 : i < batch <;> by_cases c2 : i < n <;>
    rcases wr_cases s.Z (i * k + j) 0 with e1 | e1 <;>
    rcases wr_cases s.one_hot (i * k + j) 0 with e2 | e2 <;>
    rcases wr_cases s.grad (i * k + j) 0 with e3 | e3 <;>
    simp [zeroCell, c1, c2, e1, e2, e3] at h <;>
    first
      | (rw [← h])
      | (cases h; rfl)

/-- A batch iteration that does not fault keeps the size of `theta`, whatever the sizes of the
scratch buffers. -/
theorem batchBody_theta_length {α : Type} [Zero α] [One α] [Add α] [Sub α] [Mul α] [Div α]
    [NatCast α] (exp : α → α) (X : List α) (y : List Nat) (m n k : Nat) (lr : α)
    (batch t : Nat) (s s2 : Bufs α)
    (h : batchBody exp X y m n k lr batch t s = .ok s2) :
    s2.theta.length = s.theta.length := by
  unfold batchBody at h
  obtain ⟨s0, e0, h⟩ := (bind_ok_iff _ _ _).mp h
  obtain ⟨oh, -, h⟩ := (bind_ok_iff _ _ _).mp h
  obtain ⟨Z1, -, h⟩ := (bind_ok_iff _ _ _).mp h
  obtain ⟨Z2, -, h⟩ := (bind_ok_iff _ _ _).mp h
  obtain ⟨g, -, h⟩ := (bind_ok_iff _ _ _).mp h
  obtain ⟨th, e5, h⟩ := (bind_ok_iff _ _ _).mp h
  cases h
  have h0 : s0.theta = s.theta := by
    refine forLoop_preserves (fun s1 : Bufs α => s1.theta = s.theta) _ _ _ ?_ s s0 rfl e0
    intro i _ s1 s3 h1 h3
    refine forLoop_preserves (fun s4 : Bufs α => s4.theta = s.theta) _ _ _ ?_ s1 s3 h1 h3
    intro j _ s4 s5 h4 h5
    exact (zeroCell_theta n k batch _ _ s4 s5 h5).trans h4
  have a5 := updateLoop_length _ _ _ _ _ _ _ e5
  simp only
  rw [a5, h0]

/-- Whenever the routine (machine sizes) returns, the buffer it returns has the size of the
`theta` it was given. -/
theorem epoch64_length {α : Type} [Zero α] [One α] [Add α] [Sub α] [Mul α] [Div α]
    [NatCast α] (exp : α → α) (X : List α) (y : List Nat) (theta theta2 : List α)
    (m n k : Nat) (lr : α) (batch : Nat)
    (h : softmax_regression_epoch_cpp64 exp X y theta m n k lr batch = .ok theta2) :
    theta2.length = theta.length := by
  simp only [softmax_regression_epoch_cpp64] at h
  obtain ⟨s2, e2, h2⟩ := (bind_ok_iff _ _ _).mp h
  cases h2
  unfold epochLoop64 at e2
  split at e2
  · cases e2
  · exact forLoop_preserves (fun s1 : Bufs α => s1.theta.length = theta.length) _ _ _
      (fun c _ s3 s4 h3 h4 =>
        (batchBody_theta_length exp X y m n k lr batch _ s3 s4 h4).trans h3) _ s2 rfl e2

/-- C9, refuted as stated: `m = batch = 2 ^ 33`, `n = 1`, `k = 2 ^ 31` with all-zero `X`, `y`
and `theta` is a valid input, but the `size_t` product `batch * k = 2 ^ 64` wraps to `0` and the
zeroing loop writes out of bounds: the routine does not complete, so there is no `theta` of
`n * k` entries after the call. -/
theorem shape_invariance_counterexample :
    (0 < 2 ^ 33 ∧ 0 < 1 ∧ 0 < 2 ^ 31 ∧ 2 ^ 33 ≤ 2 ^ 33) ∧
    (List.replicate (2 ^ 33) (0 : ℚ)).length = 2 ^ 33 * 1 ∧
    (List.replicate (2 ^ 33) (0 : Nat)).length = 2 ^ 33 ∧
    (∀ v, v ∈ List.replicate (2 ^ 33) (0 : Nat) → v < 2 ^ 31) ∧
    (List.replicate (2 ^ 31) (0 : ℚ)).length = 1 * 2 ^ 31 ∧
    softmax_regression_epoch_cpp64 (fun x : ℚ => 1 + x) (List.replicate (2 ^ 33) 0)
      (List.replicate (2 ^ 33) 0) (List.replicate (2 ^ 31) 0) (2 ^ 33) 1 (2 ^ 31) 1 (2 ^ 33)
      = .error .oob ∧
    ¬ ∃ theta2, softmax_regression_epoch_cpp64 (fun x : ℚ => 1 + x)
        (List.replicate (2 ^ 33) 0) (List.replicate (2 ^ 33) 0) (List.replicate (2 ^ 31) 0)
        (2 ^ 33) 1 (2 ^ 31) 1 (2 ^ 33) = .ok theta2 ∧ theta2.length = 1 * 2 ^ 31 := by
  have hf : softmax_regression_epoch_cpp64 (fun x : ℚ => 1 + x) (List.replicate (2 ^ 33) 0)
      (List.replicate (2 ^ 33) 0) (List.replicate (2 ^ 31) 0) (2 ^ 33) 1 (2 ^ 31) 1 (2 ^ 33)
      = .error .oob :=
    epoch64_wrap_fault _ _ _ _ _ _ _ _ _ (by norm_num) (by norm_num)
      (by norm_num [numBatches64, sizeMod]) (by norm_num [sizeMod])
  refine ⟨by norm_num, ?_, List.length_replicate _ _, ?_, ?_, hf, ?_⟩
  · rw [List.length_replicate, Nat.mul_one]
  · intro v hv
    rw [List.eq_of_mem_replicate hv]
    norm_num
  · rw [List.length_replicate, Nat.one_mul]
  · rintro ⟨theta2, h, -⟩
    rw [hf] at h
    cases h

/-- C9, amended.  The routine never changes the size of `theta` (whenever it returns, the buffer
it returns has the length of the one it was given); on valid inputs whose `size_t` products
`batch * k` and `n * k` do not wrap (both are below `2 ^ 64`) it returns, the buffer still has
exactly `n * k` entries, and only the cells `i * k + j` with `i < n`, `j < k`, that is the indices
below `n * k`, can have been written: on a larger buffer every cell from `n * k` on is
unchanged. -/
theorem shape_invariance {α : Type} [Zero α] [One α] [Add α] [Sub α] [Mul α] [Div α]
    [NatCast α] (exp : α → α) (X : List α) (y : List Nat) (theta : List α) (m n k : Nat)
    (lr : α) (batch : Nat) :
    (∀ theta2, softmax_regression_epoch_cpp64 exp X y theta m n k lr batch = .ok theta2 →
      theta2.length = theta.length) ∧
    (0 < batch → X.length = m * n → y.length = m → (∀ v, v ∈ y → v < k) →
      n * k ≤ theta.length → batch * k < 2 ^ 64 → n * k < 2 ^ 64 →
      ∃ theta2, softmax_regression_epoch_cpp64 exp X y theta m n k lr batch = .ok theta2 ∧
        theta2.length = theta.length ∧ (theta.length = n * k → theta2.length = n * k) ∧
        ∀ idx, n * k ≤ idx → theta2[idx]? = theta[idx]?) := by
  refine ⟨fun theta2 h => epoch64_length exp X y theta theta2 m n k lr batch h, ?_⟩
  intro hb hX hy hlab hth hZ hG
  have key := epoch64_rel exp X y theta theta m n k lr batch hb hZ hG
    (Nat.le_of_eq hX.symm) (Nat.le_of_eq hy.symm)
    (fun i hi => hlab _ (peek_mem y i (by omega))) hth hth
    (fun a _ => ∀ idx, n * k ≤ idx → peek a idx = peek theta idx)
    (fun _ _ => rfl) ?_
  · obtain ⟨ra, -, e, -, l, -, fr⟩ := key
    exact ⟨ra, e, l, fun h => l.trans h,
      fun idx hidx => getElem?_eq_of_peek _ _ idx l (fr idx hidx)⟩
  · intro t a1 _ a2 _ _ _ _ r f1 _ idx hidx
    rw [f1.peek_out idx (Or.inr hidx), r idx hidx]

/-- Witness of C9 (amended): a `theta` buffer with one spare cell beyond `n * k = 2`. -/
theorem shape_invariance_witness :
    ∃ theta2, softmax_regression_epoch_cpp64 (fun x : ℚ => 1 + x) [1, 2] [0, 1] [0, 0, 7]
        2 1 2 1 1 = .ok theta2 ∧
      theta2.length = [(0 : ℚ), 0, 7].length ∧
      ([(0 : ℚ), 0, 7].length = 1 * 2 → theta2.length = 1 * 2) ∧
      ∀ idx, 1 * 2 ≤ idx → theta2[idx]? = [(0 : ℚ), 0, 7][idx]? :=
  (shape_invariance (fun x : ℚ => 1 + x) [1, 2] [0, 1] [0, 0, 7] 2 1 2 1 1).2
    (by decide) rfl rfl (by decide) (by decide) (by norm_num) (by norm_num)


/-! ## Closed forms with the machine sizes -/

/-- C15, refuted as stated: `m = 2`, `n = 1`, `k = 2`, `batch = 2 ^ 63`, `X = [1, 2]`,
`y = [0, 1]`, `theta = [5, 7]` is a valid input (labels below `k`, `batch > 0`), but the `size_t`
product `batch * k = 2 ^ 64` wraps to `0` and the zeroing loop writes out of bounds: the epoch
does not complete, so there is no `theta` after it whose row sums could be compared. -/
theorem row_sums_counterexample :
    0 < 2 ^ 63 ∧ [(1 : ℝ), 2].length = 2 * 1 ∧ [0, 1].length = 2 ∧
    (∀ v, v ∈ [0, 1] → v < 2) ∧ [(5 : ℝ), 7].length = 1 * 2 ∧
    softmax_regression_epoch_cpp64 Real.exp [1, 2] [0, 1] [5, 7] 2 1 2 1 (2 ^ 63)
      = .error .oob ∧
    ¬ ∃ theta2, softmax_regression_epoch_cpp64 Real.exp [1, 2] [0, 1] [5, 7] 2 1 2 1 (2 ^ 63)
      = .ok theta2 := by
  have hf : softmax_regression_epoch_cpp64 Real.exp [1, 2] [0, 1] [5, 7] 2 1 2 1 (2 ^ 63)
      = .error .oob :=
    epoch64_wrap_fault _ _ _ _ _ _ _ _ _ (by norm_num) (by norm_num)
      (by norm_num [numBatches64, sizeMod]) (by norm_num [sizeMod])
  refine ⟨by norm_num, rfl, rfl, by decide, rfl, hf, ?_⟩
  rintro ⟨theta2, h⟩
  rw [hf] at h
  cases h

/-- C15, amended.  Exact real arithmetic.  On every valid input (all labels below `k`,
`batch > 0`) whose `size_t` products `batch * k` and `n * k` do not wrap (both are below
`2 ^ 64`) the routine returns a `theta2` in which, for every feature `p < n`, the sum over the
classes `j < k` of `theta2[p][j]` equals the sum of `theta[p][j]` before the call; the reason is
that every row of the gradient of every batch adds up to zero over the classes. -/
theorem row_sums_conserved (X : List ℝ) (y : List Nat) (theta : List ℝ) (m n k : Nat)
    (lr : ℝ) (batch : Nat) (hb : 0 < batch)
    (hX : X.length = m * n) (hy : y.length = m) (hlab : ∀ v, v ∈ y → v < k)
    (hth : theta.length = n * k) (hZ : batch * k < 2 ^ 64) (hG : n * k < 2 ^ 64) :
    (∃ theta2, softmax_regression_epoch_cpp64 Real.exp X y theta m n k lr batch = .ok theta2 ∧
      theta2.length = n * k ∧
      ∀ p, p < n → ∑ j in Finset.range k, peek theta2 (p * k + j) =
        ∑ j in Finset.range k, peek theta (p * k + j)) ∧
    ∀ (th : List ℝ) (t p : Nat), t < numBatches m batch →
      ∑ j in Finset.range k,
        gradAt Real.exp X th y n k (start_idx batch t) (current_size m batch t) p j = 0 := by
  have hlab2 : ∀ i, i < m → peek y i < k := fun i hi => hlab _ (peek_mem y i (by omega))
  have hgrad : ∀ (th : List ℝ) (t p : Nat), t < numBatches m batch →
      ∑ j in Finset.range k,
        gradAt Real.exp X th y n k (start_idx batch t) (current_size m batch t) p j = 0 :=
    fun th t p ht => gradAt_row_sum X th y n k _ _ p
      (fun u hu => hlab2 _ (batch_rows_in_range m batch t u hb ht hu))
  refine ⟨?_, hgrad⟩
  have key := epoch64_rel Real.exp X y theta theta m n k lr batch hb hZ hG
    (Nat.le_of_eq hX.symm) (Nat.le_of_eq hy.symm) hlab2
    (Nat.le_of_eq hth.symm) (Nat.le_of_eq hth.symm)
    (fun a _ => ∀ p, p < n → ∑ j in Finset.range k, peek a (p * k + j) =
        ∑ j in Finset.range k, peek theta (p * k + j))
    (fun _ _ => rfl) ?_
  · obtain ⟨ra, rb, e1, -, l1, -, r⟩ := key
    exact ⟨ra, e1, l1.trans hth, r⟩
  intro t a1 _ a2 _ ht _ _ r f1 _ p hp
  rw [← r p hp]
  have hcell : ∀ j, j ∈ Finset.range k → peek a2 (p * k + j) = peek a1 (p * k + j) -
      gradAt Real.exp X a1 y n k (start_idx batch t) (current_size m batch t) p j * lr /
        (batch : ℝ) := by
    intro j hj
    have hj2 := Finset.mem_range.1 hj
    rw [f1.peek_in _ (Nat.zero_le _) (cell_lt n k p j hp hj2)]
    simp only [cell_div k p j hj2, cell_mod k p j hj2]
  rw [Finset.sum_congr rfl hcell, Finset.sum_sub_distrib, ← Finset.sum_div, ← Finset.sum_mul,
    hgrad a1 t p ht]
  simp

/-- Witness of C15 (amended): `m = 3`, `batch = 2` (a full and a ragged batch), one feature,
two classes. -/
theorem row_sums_conserved_witness :
    ∃ theta2, softmax_regression_epoch_cpp64 Real.exp [1, 2, 3] [0, 1, 1] [5, 7] 3 1 2 1 2
        = .ok theta2 ∧ theta2.length = 1 * 2 ∧
      ∀ p, p < 1 → ∑ j in Finset.range 2, peek theta2 (p * 2 + j) =
        ∑ j in Finset.range 2, peek [(5 : ℝ), 7] (p * 2 + j) :=
  (row_sums_conserved [1, 2, 3] [0, 1, 1] [5, 7] 3 1 2 1 2 (by decide) rfl rfl (by decide)
    rfl (by norm_num) (by norm_num)).1

/-- C16, refuted as stated: `m = 1`, `n = 2`, `k = 2`, `batch = 2 ^ 63`, `X = [1, 2]`,
`y = [1]`, `theta = [1, 2, 3, 4]`, `c = [10, -1]`, `theta2 = [11, 12, 2, 3]` is a valid input
with `theta2[p][j] = theta[p][j] + c[p]`, but the `size_t` product `batch * k = 2 ^ 64` wraps to
`0` and the zeroing loop writes out of bounds: neither run yields a result. -/
theorem shift_equivariance_counterexample :
    0 < 2 ^ 63 ∧ [(1 : ℝ), 2].length = 1 * 2 ∧ [1].length = 1 ∧
    (∀ v, v ∈ [1] → v < 2) ∧ [(1 : ℝ), 2, 3, 4].length = 2 * 2 ∧
    [(11 : ℝ), 12, 2, 3].length = 2 * 2 ∧ [(10 : ℝ), -1].length = 2 ∧
    (∀ p j, p < 2 → j < 2 → peek [(11 : ℝ), 12, 2, 3] (p * 2 + j) =
      peek [(1 : ℝ), 2, 3, 4] (p * 2 + j) + peek [(10 : ℝ), -1] p) ∧
    softmax_regression_epoch_cpp64 Real.exp [1, 2] [1] [1, 2, 3, 4] 1 2 2 1 (2 ^ 63)
      = .error .oob ∧
    softmax_regression_epoch_cpp64 Real.exp [1, 2] [1] [11, 12, 2, 3] 1 2 2 1 (2 ^ 63)
      = .error .oob := by
  refine ⟨by norm_num, rfl, rfl, by decide, rfl, rfl, rfl, ?_, ?_, ?_⟩
  · intro p j hp hj
    have hp2 : p = 0 ∨ p = 1 := by omega
    have hj2 : j = 0 ∨ j = 1 := by omega
    rcases hp2 with rfl | rfl <;> rcases hj2 with rfl | rfl <;> norm_num [peek]
  · exact epoch64_wrap_fault _ _ _ _ _ _ _ _ _ (by norm_num) (by norm_num)
      (by norm_num [numBatches64, sizeMod]) (by norm_num [sizeMod])
  · exact epoch64_wrap_fault _ _ _ _ _ _ _ _ _ (by norm_num) (by norm_num)
      (by norm_num [numBatches64, sizeMod]) (by norm_num [sizeMod])

/-- C16, amended.  Exact real arithmetic.  Let `theta2[p][j] = theta[p][j] + c[p]` for all
`p < n`, `j < k`, with `c` of length `n`.  On every valid input whose `size_t` products
`batch * k` and `n * k` do not wrap (both are below `2 ^ 64`) the routine returns from both
buffers, and the result from `theta2` is the result from `theta` with `c[p]` added to every entry
of row `p`; the softmax residuals and the gradients computed from the two buffers are the
same. -/
theorem shift_equivariance (X : List ℝ) (y : List Nat) (theta theta2 c : List ℝ)
    (m n k : Nat) (lr : ℝ) (batch : Nat) (hb : 0 < batch)
    (hX : X.length = m * n) (hy : y.length = m) (hlab : ∀ v, v ∈ y → v < k)
    (hth : theta.length = n * k) (hth2 : theta2.length = n * k) (_hc : c.length = n)
    (hshift : ∀ p j, p < n → j < k →
      peek theta2 (p * k + j) = peek theta (p * k + j) + peek c p)
    (hZ : batch * k < 2 ^ 64) (hG : n * k < 2 ^ 64) :
    (∃ r r2, softmax_regression_epoch_cpp64 Real.exp X y theta m n k lr batch = .ok r ∧
      softmax_regression_epoch_cpp64 Real.exp X y theta2 m n k lr batch = .ok r2 ∧
      r.length = n * k ∧ r2.length = n * k ∧
      ∀ p j, p < n → j < k → peek r2 (p * k + j) = peek r (p * k + j) + peek c p) ∧
    (∀ row j, j < k →
      residAt Real.exp X theta2 y n k row j = residAt Real.exp X theta y n k row j) ∧
    (∀ start cs p j, j < k →
      gradAt Real.exp X theta2 y n k start cs p j =
        gradAt Real.exp X theta y n k start cs p j) := by
  refine ⟨?_, fun row j hj => residAt_shift X theta theta2 c y n k row j hj hshift,
    fun start cs p j hj => gradAt_shift X theta theta2 c y n k start cs p j hj hshift⟩
  have key := epoch64_rel Real.exp X y theta theta2 m n k lr batch hb hZ hG
    (Nat.le_of_eq hX.symm) (Nat.le_of_eq hy.symm)
    (fun i hi => hlab _ (peek_mem y i (by omega)))
    (Nat.le_of_eq hth.symm) (Nat.le_of_eq hth2.symm)
    (fun a b => ∀ p j, p < n → j < k → peek b (p * k + j) = peek a (p * k + j) + peek c p)
    hshift ?_
  · obtain ⟨r, r2, e1, e2, l1, l2, h⟩ := key
    exact ⟨r, r2, e1, e2, l1.trans hth, l2.trans hth2, h⟩
  intro t a1 b1 a2 b2 _ _ _ r f1 f2 p j hp hj
  have hcell := cell_lt n k p j hp hj
  rw [f1.peek_in _ (Nat.zero_le _) hcell, f2.peek_in _ (Nat.zero_le _) hcell]
  simp only [cell_div k p j hj, cell_mod k p j hj]
  rw [gradAt_shift X a1 b1 c y n k _ _ p j hj r, r p j hp hj]
  ring

/-- Witness of C16 (amended): two features, two classes, `m = 3`, `batch = 2`, shift
`c = [10, -1]`. -/
theorem shift_equivariance_witness :
    ∃ r r2,
      softmax_regression_epoch_cpp64 Real.exp [1, 2, 3, 4, 5, 6] [0, 1, 1] [1, 2, 3, 4]
        3 2 2 (1 / 2) 2 = .ok r ∧
      softmax_regression_epoch_cpp64 Real.exp [1, 2, 3, 4, 5, 6] [0, 1, 1] [11, 12, 2, 3]
        3 2 2 (1 / 2) 2 = .ok r2 ∧
      r.length = 2 * 2 ∧ r2.length = 2 * 2 ∧
      ∀ p j, p < 2 → j < 2 → peek r2 (p * 2 + j) = peek r (p * 2 + j) + peek [(10 : ℝ), -1] p :=
  (shift_equivariance [1, 2, 3, 4, 5, 6] [0, 1, 1] [1, 2, 3, 4] [11, 12, 2, 3] [10, -1]
    3 2 2 (1 / 2) 2 (by decide) rfl rfl (by decide) rfl rfl rfl
    (by
      intro p j hp hj
      have hp2 : p = 0 ∨ p = 1 := by omega
      have hj2 : j = 0 ∨ j = 1 := by omega
      rcases hp2 with rfl | rfl <;> rcases hj2 with rfl | rfl <;> norm_num [peek])
    (by norm_num) (by norm_num)).1

end SimpleML
